import Mathlib

/-!
Verification of the nearcore routing core
(`chain/network/src/routing.rs`, `chain/network/src/routing_table_actor.rs`).

Modelling conventions of the shallow embedding:
* `PeerId` is a natural number, ordered as the byte order of a public key.
* The canonical edge hash `SHA256(peer0 ‖ peer1 ‖ nonce_LE)` is modelled by
  the injective triple `(peer0, peer1, nonce)` — `build_hash` is injective on
  its inputs just as the concatenation fed to SHA-256 is.
* Signatures are an ideal scheme: a signature records the signing key and the
  signed data, and verification checks both; the secret key of a peer is the
  peer id itself (key pairs are a bijection, so this loses nothing).
* Rust `HashMap`s are modelled as association lists whose update operation
  removes any previous binding of the key; iteration order of a `HashMap` is
  unspecified in Rust, the embedding fixes the insertion-dependent list order.
* Rust `u64`/`usize` counters are modelled as `Nat` (the nonces and slot ids
  involved never approach 2^64 overflow in any claim), `i64` second timestamps
  as `Int`, and the `u128` routes bitset as a `Nat` built from `2 ^ i` bits
  with `i < 128`, which never overflows the 128-bit width.
* A Rust `assert!`/`assert_ne!` (a panic) is modelled by an `Option` result:
  `none` is the assertion-failure branch.
-/

namespace Routing

/-- A peer identity: the public key, totally ordered. -/
abbrev PeerId := Nat

/-- Image of `Edge::build_hash`: the SHA-256 of `peer0 ‖ peer1 ‖ nonce_LE`,
modelled injectively by the triple itself. -/
structure CHash where
  p0 : Nat
  p1 : Nat
  nonce : Nat
deriving DecidableEq, Repr

/-- Ideal signature: either empty (`Signature::empty`) or the record of the
signing secret key and the signed data. -/
inductive Signature where
  | mk (key : Nat) (data : CHash)
  | empty
deriving DecidableEq, Repr

/-- `Signature::verify(data, public_key)` in the ideal model: the signature
was produced by the matching secret key over exactly this data. -/
def Signature.verify : Signature → CHash → Nat → Bool
  | .mk k d, data, pk => k == pk && d == data
  | .empty, _, _ => false

/-- `secret_key.sign(data)` in the ideal model. -/
def sign (sk : Nat) (data : CHash) : Signature := .mk sk data

/-- Status of the edge (`EdgeType`). -/
inductive EdgeType where
  | Added
  | Removed
deriving DecidableEq, Repr

/-- `Edge`: signed link record (routing.rs). -/
structure Edge where
  peer0 : PeerId
  peer1 : PeerId
  nonce : Nat
  signature0 : Signature
  signature1 : Signature
  removal_info : Option (Bool × Signature)
deriving DecidableEq, Repr

namespace Edge

/-- `Edge::key`: order the pair canonically. -/
def key (peer0 peer1 : PeerId) : PeerId × PeerId :=
  if peer0 < peer1 then (peer0, peer1) else (peer1, peer0)

/-- `Edge::new`: create an addition edge, swapping endpoints (and signatures
in parallel) so that `peer0 < peer1`. -/
def new (peer0 peer1 : PeerId) (nonce : Nat) (signature0 signature1 : Signature) : Edge :=
  if peer0 < peer1 then
    ⟨peer0, peer1, nonce, signature0, signature1, none⟩
  else
    ⟨peer1, peer0, nonce, signature1, signature0, none⟩

/-- `Edge::build_hash`. -/
def build_hash (peer0 peer1 : PeerId) (nonce : Nat) : CHash := ⟨peer0, peer1, nonce⟩

/-- `Edge::hash` (hash at the current nonce). -/
def hash (e : Edge) : CHash := build_hash e.peer0 e.peer1 e.nonce

/-- `Edge::prev_hash` (hash at the previous nonce). -/
def prev_hash (e : Edge) : CHash := build_hash e.peer0 e.peer1 (e.nonce - 1)

/-- `Edge::edge_type`: odd nonce = Added, even nonce = Removed. -/
def edge_type (e : Edge) : EdgeType :=
  if e.nonce % 2 == 1 then .Added else .Removed

/-- `Edge::remove_edge(me, sk)`: build the removal edge from an added edge.
The Rust `assert_eq!(self.edge_type(), EdgeType::Added)` is the `none`
branch. Note the code stores `peer0 == me` as the removal side. -/
def remove_edge (e : Edge) (me : PeerId) (sk : Nat) : Option Edge :=
  if e.edge_type = .Added then
    let e' : Edge := { e with nonce := e.nonce + 1 }
    let side := e'.peer0 == me
    let signature := sign sk e'.hash
    some { e' with removal_info := some (side, signature) }
  else
    none

/-- `Edge::verify`. -/
def verify (e : Edge) : Bool :=
  if e.peer0 > e.peer1 then
    false
  else
    match e.edge_type with
    | .Added =>
        e.removal_info.isNone
          && e.signature0.verify e.hash e.peer0
          && e.signature1.verify e.hash e.peer1
    | .Removed =>
        if e.nonce == 0 then
          false
        else if !(e.signature0.verify e.prev_hash e.peer0)
              || !(e.signature1.verify e.prev_hash e.peer1) then
          false
        else
          match e.removal_info with
          | some (party, signature) =>
              let peer := if party then e.peer0 else e.peer1
              signature.verify e.hash peer
          | none => false

/-- `Edge::get_pair`. -/
def get_pair (e : Edge) : PeerId × PeerId := (e.peer0, e.peer1)

/-- `Edge::next_nonce`. -/
def next_nonce (nonce : Nat) : Nat :=
  if nonce % 2 == 1 then nonce + 2 else nonce + 1

end Edge

/-- The honestly-built added edge of claim C2: each party signs the canonical
hash of `(min p q, max p q, n)` (as `EdgeInfo::new` does) and the edge is
assembled by `Edge::new`. -/
def honestEdge (p q n : Nat) : Edge :=
  Edge.new p q n (sign p (Edge.build_hash (Edge.key p q).1 (Edge.key p q).2 n))
    (sign q (Edge.build_hash (Edge.key p q).1 (Edge.key p q).2 n))

theorem honestEdge_comm_lt {p q n : Nat} (h : p < q) :
    honestEdge p q n =
      ⟨p, q, n, sign p (Edge.build_hash p q n), sign q (Edge.build_hash p q n), none⟩ := by
  simp [honestEdge, Edge.new, Edge.key, h]

theorem honestEdge_comm_gt {p q n : Nat} (h : q < p) :
    honestEdge p q n =
      ⟨q, p, n, sign q (Edge.build_hash q p n), sign p (Edge.build_hash q p n), none⟩ := by
  have h' : ¬ p < q := by omega
  simp [honestEdge, Edge.new, Edge.key, h, h']

theorem even_edge_type {e : Edge} (h : e.nonce % 2 = 0) : e.edge_type = .Removed := by
  simp [Edge.edge_type, h]

theorem odd_edge_type {e : Edge} (h : e.nonce % 2 = 1) : e.edge_type = .Added := by
  simp [Edge.edge_type, h]

/-- Core computation of C2, stated over an already canonically ordered honest
edge; both claim cases reduce to it. -/
theorem verify_honest_added {a b n : Nat} (hab : a < b) (hodd : n % 2 = 1) :
    Edge.verify ⟨a, b, n, sign a (Edge.build_hash a b n), sign b (Edge.build_hash a b n), none⟩
      = true := by
  have hna : ¬ (a > b) := by omega
  simp [Edge.verify, hna, Edge.edge_type, hodd, Edge.hash, Signature.verify, sign]

theorem verify_honest_removed {a b n : Nat} (hab : a < b) (hodd : n % 2 = 1)
    (me : Nat) (hme : me = a ∨ me = b) :
    ∃ e', Edge.remove_edge
        ⟨a, b, n, sign a (Edge.build_hash a b n), sign b (Edge.build_hash a b n), none⟩ me me
        = some e' ∧ e'.verify = true := by
  refine ⟨⟨a, b, n + 1, sign a (Edge.build_hash a b n), sign b (Edge.build_hash a b n),
      some ((a == me), sign me (Edge.build_hash a b (n + 1)))⟩, ?_, ?_⟩
  · simp [Edge.remove_edge, Edge.edge_type, hodd, Edge.hash, Edge.build_hash]
  · have hnonce : (n + 1) % 2 = 0 := by omega
    have hna : ¬ (a > b) := by omega
    have h0 : ¬ (n + 1 = 0) := by omega
    rcases hme with h | h
    · subst h
      simp [Edge.verify, hna, Edge.edge_type, hnonce, h0, Edge.prev_hash, Edge.hash,
        Edge.build_hash, Signature.verify, sign]
    · subst h
      have hne : ¬ (a = me) := by omega
      simp [Edge.verify, hna, Edge.edge_type, hnonce, h0, Edge.prev_hash, Edge.hash,
        Edge.build_hash, Signature.verify, sign, hne]

/-- C1 (amended): `remove_edge` on an Added edge bumps the nonce by one,
produces a Removed edge, and stores `removal_info = some (side, sig)` where
`sig` signs the new hash and `side` is `true` exactly when `me` is `peer0`
and `false` exactly when `me` is `peer1`. -/
theorem C1_remove_edge_side (e : Edge) (me sk : Nat)
    (hAdded : e.edge_type = EdgeType.Added) (hlt : e.peer0 < e.peer1)
    (hme : me = e.peer0 ∨ me = e.peer1) :
    ∃ e', e.remove_edge me sk = some e' ∧
      e'.edge_type = EdgeType.Removed ∧
      e'.nonce = e.nonce + 1 ∧
      e'.removal_info
        = some (e.peer0 == me, sign sk (Edge.build_hash e.peer0 e.peer1 (e.nonce + 1))) ∧
      ((e'.removal_info.map Prod.fst = some true) ↔ me = e.peer0) ∧
      ((e'.removal_info.map Prod.fst = some false) ↔ me = e.peer1) := by
  have hodd : e.nonce % 2 = 1 := by
    rcases Nat.mod_two_eq_zero_or_one e.nonce with h0 | h1
    · rw [even_edge_type h0] at hAdded
      exact absurd hAdded (by simp)
    · exact h1
  refine ⟨{ e with
      nonce := e.nonce + 1
      removal_info := some (e.peer0 == me,
        sign sk (Edge.build_hash e.peer0 e.peer1 (e.nonce + 1))) }, ?_, ?_, rfl, rfl, ?_, ?_⟩
  · simp [Edge.remove_edge, hAdded, Edge.hash, Edge.build_hash]
  · exact even_edge_type (by simp [Nat.add_mod, hodd])
  · simp only [Option.map_some]
    constructor
    · intro h
      have hb : (e.peer0 == me) = true := by
        exact Option.some_injective _ h
      have heq : e.peer0 = me := by simpa using hb
      exact heq.symm
    · intro h
      simp [h]
  · simp only [Option.map_some]
    constructor
    · intro h
      have hb : (e.peer0 == me) = false := Option.some_injective _ h
      have hne : e.peer0 ≠ me := by simpa using hb
      rcases hme with h1 | h1
      · exact absurd h1.symm hne
      · exact h1
    · intro h
      subst h
      have hne : ¬ (e.peer0 = e.peer1) := Nat.ne_of_lt hlt
      simp [hne]

/-- C1 counterexample: the claim as stated says the side is `false` when the
remover is `peer0`; on the honest added edge 0–1 with nonce 1 removed by
peer0 = 0, the code stores `true`. -/
theorem C1_counterexample :
    ((Edge.remove_edge (honestEdge 0 1 1) 0 0).bind
        (fun e => e.removal_info.map Prod.fst)) = some true ∧
    ((Edge.remove_edge (honestEdge 0 1 1) 0 0).bind
        (fun e => e.removal_info.map Prod.fst)) ≠ some false := by
  constructor <;> decide

/-- C1 witness at a concrete input. -/
theorem C1_witness :
    ∃ e', Edge.remove_edge (honestEdge 2 5 3) 5 5 = some e' ∧
      e'.edge_type = EdgeType.Removed ∧
      e'.nonce = (honestEdge 2 5 3).nonce + 1 ∧
      e'.removal_info
        = some ((honestEdge 2 5 3).peer0 == 5,
            sign 5 (Edge.build_hash (honestEdge 2 5 3).peer0 (honestEdge 2 5 3).peer1
              ((honestEdge 2 5 3).nonce + 1))) ∧
      ((e'.removal_info.map Prod.fst = some true) ↔ (5 : Nat) = (honestEdge 2 5 3).peer0) ∧
      ((e'.removal_info.map Prod.fst = some false) ↔ (5 : Nat) = (honestEdge 2 5 3).peer1) :=
  C1_remove_edge_side (honestEdge 2 5 3) 5 5 (by decide) (by decide) (by right; decide)

/-- C2: for distinct peers and an odd nonce, the honestly signed added edge
verifies, and the removal edge built by either endpoint also verifies. -/
theorem C2_verify_round_trip (p q n : Nat) (hpq : p ≠ q) (hodd : n % 2 = 1) :
    (honestEdge p q n).verify = true ∧
    ∀ me, (me = p ∨ me = q) →
      ∃ e', (honestEdge p q n).remove_edge me me = some e' ∧ e'.verify = true := by
  rcases Nat.lt_or_ge p q with h | h
  · rw [honestEdge_comm_lt h]
    exact ⟨verify_honest_added h hodd, fun me hme =>
      verify_honest_removed h hodd me (by tauto)⟩
  · have h' : q < p := by omega
    rw [honestEdge_comm_gt h']
    exact ⟨verify_honest_added h' hodd, fun me hme =>
      verify_honest_removed h' hodd me (by tauto)⟩

/-- C2 witness at a concrete input. -/
theorem C2_witness :
    ((honestEdge 3 1 5).verify = true ∧
      ∀ me, (me = 3 ∨ me = 1) →
        ∃ e', (honestEdge 3 1 5).remove_edge me me = some e' ∧ e'.verify = true) :=
  C2_verify_round_trip 3 1 5 (by decide) (by decide)

/-- C3 (amended): `verify` returns `false` for every edge with
`peer0 > peer1`, regardless of nonce and signatures; endpoint equality is not
rejected. -/
theorem C3_verify_canonical_order (e : Edge) (h : e.peer1 < e.peer0) :
    e.verify = false := by
  have : e.peer0 > e.peer1 := h
  simp [Edge.verify, this]

/-- C3 counterexample: a self-edge (`peer0 = peer1 = 0`, odd nonce) with both
signatures honestly produced by peer 0 passes `verify`, although the claim
says `verify` must return `false` whenever `peer0 = peer1`. -/
theorem C3_counterexample :
    Edge.verify ⟨0, 0, 1, sign 0 ⟨0, 0, 1⟩, sign 0 ⟨0, 0, 1⟩, none⟩ = true := by
  decide

/-- C3 witness at a concrete input. -/
theorem C3_witness :
    Edge.verify ⟨7, 3, 1, sign 7 ⟨7, 3, 1⟩, sign 3 ⟨7, 3, 1⟩, none⟩ = false :=
  C3_verify_canonical_order _ (by decide)

/-! ### Association lists: the model of Rust `HashMap`s -/

/-- `HashMap::get`. -/
def lookupA {α β : Type} [DecidableEq α] : List (α × β) → α → Option β
  | [], _ => none
  | kv :: rest, a => if kv.1 = a then some kv.2 else lookupA rest a

/-- `HashMap::remove`: drop the binding of the key (the removed value, if
any, is `lookupA`). -/
def eraseA {α β : Type} [DecidableEq α] : List (α × β) → α → List (α × β)
  | [], _ => []
  | kv :: rest, a => if kv.1 = a then eraseA rest a else kv :: eraseA rest a

/-- `HashMap::insert`: any previous binding of the key is dropped. -/
def insertA {α β : Type} [DecidableEq α] (l : List (α × β)) (a : α) (b : β) :
    List (α × β) :=
  (a, b) :: eraseA l a

theorem lookupA_eraseA {α β : Type} [DecidableEq α] (l : List (α × β)) (a x : α) :
    lookupA (eraseA l a) x = if a = x then none else lookupA l x := by
  induction l with
  | nil => simp [eraseA, lookupA]
  | cons kv rest ih =>
    by_cases hk : kv.1 = a
    · by_cases hax : a = x
      · subst hax
        simp [eraseA, lookupA, hk, ih]
      · have hne : ¬ (kv.1 = x) := by
          rw [hk]
          exact hax
        simp [eraseA, lookupA, hk, hax, hne, ih]
    · by_cases hkx : kv.1 = x
      · have hax : ¬ (a = x) := by
          intro hc
          exact hk (hkx.trans hc.symm)
        have hxa : ¬ (x = a) := fun hc => hax hc.symm
        simp [eraseA, lookupA, hk, hkx, hax, hxa]
      · simp [eraseA, lookupA, hk, hkx, ih]

theorem lookupA_insertA {α β : Type} [DecidableEq α] (l : List (α × β)) (a : α) (b : β)
    (x : α) :
    lookupA (insertA l a b) x = if a = x then some b else lookupA l x := by
  by_cases h : a = x
  · simp [insertA, lookupA, h]
  · simp [insertA, lookupA, h, lookupA_eraseA]

/-! ### RoutingTable round-robin next-hop selection (claim C8) -/

def ROUND_ROBIN_MAX_NONCE_DIFFERENCE_ALLOWED : Nat := 10

/-- The fields of `RoutingTable` (routing.rs) read and written by
`find_route_from_peer_id`; the account, ping/pong and route-back caches do
not participate in this operation and are omitted. `route_nonce` is a
`SizedCache` of capacity 10,000 whose eviction never triggers below, so it is
modelled as an exact map. -/
structure RoutingTable where
  peer_forwarding : List (PeerId × List PeerId)
  route_nonce : List (PeerId × Nat)
deriving DecidableEq, Repr

inductive FindRouteError where
  | Disconnected
  | PeerNotFound
  | AccountNotFound
  | RouteBackNotFound
deriving DecidableEq, Repr

/-- Strict lexicographic order on `(nonce, peer_id)` pairs, as Rust orders
tuples. -/
def pairLt (x y : Nat × Nat) : Bool :=
  x.1 < y.1 || (x.1 == y.1 && x.2 < y.2)

/-- Rust `Iterator::min` on a nonempty list: the first minimal element. -/
def listMin (h : Nat × Nat) (t : List (Nat × Nat)) : Nat × Nat :=
  t.foldl (fun acc x => if pairLt x acc then x else acc) h

/-- Rust `Iterator::max` on a nonempty list: the last maximal element. -/
def listMax (h : Nat × Nat) (t : List (Nat × Nat)) : Nat × Nat :=
  t.foldl (fun acc x => if pairLt x acc then acc else x) h

/-- `RoutingTable::find_route_from_peer_id`. -/
def RoutingTable.find_route_from_peer_id (s : RoutingTable) (peer_id : PeerId) :
    Except FindRouteError PeerId × RoutingTable :=
  match lookupA s.peer_forwarding peer_id with
  | none => (.error .PeerNotFound, s)
  | some routes =>
    match routes with
    | [] => (.error .Disconnected, s)
    | r0 :: rest =>
      let f := fun pid => ((lookupA s.route_nonce pid).getD 0, pid)
      let min_v := listMin (f r0) (rest.map f)
      let max_v := listMax (f r0) (rest.map f)
      let s1 :=
        if min_v.1 + ROUND_ROBIN_MAX_NONCE_DIFFERENCE_ALLOWED < max_v.1 then
          { s with route_nonce := insertA s.route_nonce min_v.2 (max_v.1 - ROUND_ROBIN_MAX_NONCE_DIFFERENCE_ALLOWED) }
        else s
      let next_hop := min_v.2
      let nonce := lookupA s1.route_nonce next_hop
      let new_nonce := match nonce with | none => 1 | some n => n + 1
      (.ok next_hop, { s1 with route_nonce := insertA s1.route_nonce next_hop new_nonce })

theorem pairLt_iff (x y : Nat × Nat) :
    pairLt x y = true ↔ (x.1 < y.1 ∨ (x.1 = y.1 ∧ x.2 < y.2)) := by
  simp [pairLt]

theorem listMin_mem (h : Nat × Nat) (t : List (Nat × Nat)) : listMin h t ∈ h :: t := by
  induction t generalizing h with
  | nil => simp [listMin]
  | cons x xs ih =>
    show listMin (if pairLt x h then x else h) xs ∈ h :: x :: xs
    by_cases hc : pairLt x h = true
    · rw [if_pos hc]
      rcases List.mem_cons.mp (ih x) with hm | hm
      · simp [hm]
      · simp [hm]
    · rw [if_neg hc]
      rcases List.mem_cons.mp (ih h) with hm | hm
      · simp [hm]
      · simp [hm]

theorem listMax_mem (h : Nat × Nat) (t : List (Nat × Nat)) : listMax h t ∈ h :: t := by
  induction t generalizing h with
  | nil => simp [listMax]
  | cons x xs ih =>
    show listMax (if pairLt x h then h else x) xs ∈ h :: x :: xs
    by_cases hc : pairLt x h = true
    · rw [if_pos hc]
      rcases List.mem_cons.mp (ih h) with hm | hm
      · simp [hm]
      · simp [hm]
    · rw [if_neg hc]
      rcases List.mem_cons.mp (ih x) with hm | hm
      · simp [hm]
      · simp [hm]

theorem listMin_le (h : Nat × Nat) (t : List (Nat × Nat)) :
    ∀ y ∈ h :: t, pairLt y (listMin h t) = false := by
  induction t generalizing h with
  | nil =>
    intro y hy
    simp only [List.mem_singleton] at hy
    subst hy
    simp [listMin, pairLt]
  | cons x xs ih =>
    intro y hy
    show pairLt y (listMin (if pairLt x h then x else h) xs) = false
    by_cases hc : pairLt x h = true
    · rw [if_pos hc]
      rcases List.mem_cons.mp hy with rfl | hy'
      · have hxmin := ih x x (by simp)
        rw [Bool.eq_false_iff]
        intro hlt
        rw [pairLt_iff] at hlt hc
        have h1 : ¬ (pairLt x (listMin x xs) = true) := by simp [hxmin]
        rw [pairLt_iff] at h1
        omega
      · rcases List.mem_cons.mp hy' with rfl | hy''
        · exact ih y y (by simp)
        · exact ih x y (by simp [hy''])
    · rw [if_neg hc]
      rcases List.mem_cons.mp hy with rfl | hy'
      · exact ih y y (by simp)
      · rcases List.mem_cons.mp hy' with rfl | hy''
        · have hhmin := ih h h (by simp)
          rw [Bool.eq_false_iff]
          intro hlt
          rw [pairLt_iff] at hlt
          have h1 : ¬ (pairLt h (listMin h xs) = true) := by simp [hhmin]
          have h2 : ¬ (pairLt y h = true) := hc
          rw [pairLt_iff] at h1 h2
          omega
        · exact ih h y (by simp [hy''])

theorem listMax_ge (h : Nat × Nat) (t : List (Nat × Nat)) :
    ∀ y ∈ h :: t, pairLt (listMax h t) y = false := by
  induction t generalizing h with
  | nil =>
    intro y hy
    simp only [List.mem_singleton] at hy
    subst hy
    simp [listMax, pairLt]
  | cons x xs ih =>
    intro y hy
    show pairLt (listMax (if pairLt x h then h else x) xs) y = false
    by_cases hc : pairLt x h = true
    · rw [if_pos hc]
      rcases List.mem_cons.mp hy with rfl | hy'
      · exact ih y y (by simp)
      · rcases List.mem_cons.mp hy' with rfl | hy''
        · have hhmax := ih h h (by simp)
          rw [Bool.eq_false_iff]
          intro hlt
          rw [pairLt_iff] at hlt hc
          have h1 : ¬ (pairLt (listMax h xs) h = true) := by simp [hhmax]
          rw [pairLt_iff] at h1
          omega
        · exact ih h y (by simp [hy''])
    · rw [if_neg hc]
      rcases List.mem_cons.mp hy with rfl | hy'
      · have hxmax := ih x x (by simp)
        rw [Bool.eq_false_iff]
        intro hlt
        rw [pairLt_iff] at hlt
        have h1 : ¬ (pairLt (listMax x xs) x = true) := by simp [hxmax]
        have h2 : ¬ (pairLt x y = true) := hc
        rw [pairLt_iff] at h1 h2
        omega
      · rcases List.mem_cons.mp hy' with rfl | hy''
        · exact ih y y (by simp)
        · exact ih x y (by simp [hy''])

/-- The nonce `find_route_from_peer_id` reads for a candidate: the
`route_nonce` entry, absent read as 0. -/
def nval (s : RoutingTable) (x : PeerId) : Nat := (lookupA s.route_nonce x).getD 0

/-- Characterization of `find_route_from_peer_id` on a nonempty candidate
list, naming the intermediate values. -/
theorem find_route_cons (s : RoutingTable) (d r0 : PeerId) (rest : List PeerId)
    (hl : lookupA s.peer_forwarding d = some (r0 :: rest)) :
    s.find_route_from_peer_id d =
      (let f := fun pid => ((lookupA s.route_nonce pid).getD 0, pid)
       let mn := listMin (f r0) (rest.map f)
       let mx := listMax (f r0) (rest.map f)
       let s1 :=
         if mn.1 + ROUND_ROBIN_MAX_NONCE_DIFFERENCE_ALLOWED < mx.1 then
           { s with route_nonce := insertA s.route_nonce mn.2 (mx.1 - ROUND_ROBIN_MAX_NONCE_DIFFERENCE_ALLOWED) }
         else s
       let new_nonce := match lookupA s1.route_nonce mn.2 with | none => 1 | some n => n + 1
       (.ok mn.2, { s1 with route_nonce := insertA s1.route_nonce mn.2 new_nonce })) := by
  rw [RoutingTable.find_route_from_peer_id, hl]

theorem lex_min_prop {nc nx c x : Nat} (h1 : ¬ (nx < nc ∨ (nx = nc ∧ x < c))) :
    nc < nx ∨ (nc = nx ∧ c ≤ x) := by omega

theorem lex_max_prop {nm nx m x : Nat} (h1 : ¬ (nm < nx ∨ (nm = nx ∧ m < x))) :
    nx < nm ∨ (nx = nm ∧ x ≤ m) := by omega

/-- C8: `find_route_from_peer_id(dest)` errors with `PeerNotFound` iff `dest`
is absent from the forwarding map and with `Disconnected` iff it maps to an
empty candidate list; otherwise it returns `Ok c` for `c` minimal by the pair
`(route_nonce, peer id)` with missing nonces read as 0, after first resetting
that minimal candidate's nonce to `max − 10` whenever the maximal nonce
exceeds the minimal by more than 10, and finally incrementing the returned
candidate's nonce by one (1 if absent). Consequently, with candidate list
`[P1, P2]`, `P1 < P2` and no stored nonces, four successive calls return
P1, P2, P1, P2. -/
theorem C8_find_route (s : RoutingTable) (d : PeerId) :
    ((s.find_route_from_peer_id d).1 = .error .PeerNotFound ↔
      lookupA s.peer_forwarding d = none) ∧
    ((s.find_route_from_peer_id d).1 = .error .Disconnected ↔
      lookupA s.peer_forwarding d = some []) ∧
    (∀ routes, lookupA s.peer_forwarding d = some routes → routes ≠ [] →
      ∃ c m, (s.find_route_from_peer_id d).1 = .ok c ∧ c ∈ routes ∧ m ∈ routes ∧
        (∀ x ∈ routes, nval s c < nval s x ∨ (nval s c = nval s x ∧ c ≤ x)) ∧
        (∀ x ∈ routes, nval s x < nval s m ∨ (nval s x = nval s m ∧ x ≤ m)) ∧
        lookupA ((s.find_route_from_peer_id d).2).route_nonce c =
          some (if nval s c + ROUND_ROBIN_MAX_NONCE_DIFFERENCE_ALLOWED < nval s m
            then nval s m - ROUND_ROBIN_MAX_NONCE_DIFFERENCE_ALLOWED + 1
            else nval s c + 1)) ∧
    (∀ dst P1 P2 : Nat, P1 < P2 →
      ∀ s0 t1 t2 t3 t4,
        s0 = RoutingTable.mk [(dst, [P1, P2])] [] →
        t1 = s0.find_route_from_peer_id dst →
        t2 = t1.2.find_route_from_peer_id dst →
        t3 = t2.2.find_route_from_peer_id dst →
        t4 = t3.2.find_route_from_peer_id dst →
        t1.1 = .ok P1 ∧ t2.1 = .ok P2 ∧ t3.1 = .ok P1 ∧ t4.1 = .ok P2) := by
  refine ⟨?_, ?_, ?_, ?_⟩
  · cases hl : lookupA s.peer_forwarding d with
    | none => simp [RoutingTable.find_route_from_peer_id, hl]
    | some routes =>
      cases routes with
      | nil => simp [RoutingTable.find_route_from_peer_id, hl]
      | cons r0 rest => simp [RoutingTable.find_route_from_peer_id, hl]
  · cases hl : lookupA s.peer_forwarding d with
    | none => simp [RoutingTable.find_route_from_peer_id, hl]
    | some routes =>
      cases routes with
      | nil => simp [RoutingTable.find_route_from_peer_id, hl]
      | cons r0 rest => simp [RoutingTable.find_route_from_peer_id, hl]
  · intro routes hl hne
    cases routes with
    | nil => exact absurd rfl hne
    | cons r0 rest =>
      have hchar := find_route_cons s d r0 rest hl
      simp only at hchar
      set f : PeerId → Nat × Nat := fun pid => ((lookupA s.route_nonce pid).getD 0, pid)
        with hf
      set mn := listMin (f r0) (rest.map f) with hmn
      set mx := listMax (f r0) (rest.map f) with hmx
      have hfn : ∀ x, f x = (nval s x, x) := fun x => rfl
      have hmnmem : mn ∈ (r0 :: rest).map f := listMin_mem (f r0) (rest.map f)
      have hmxmem : mx ∈ (r0 :: rest).map f := listMax_mem (f r0) (rest.map f)
      obtain ⟨c, hcmem, hfc⟩ := List.mem_map.mp hmnmem
      obtain ⟨m, hmmem, hfm⟩ := List.mem_map.mp hmxmem
      have hmn1 : mn.1 = nval s c := by rw [← hfc, hfn]
      have hmn2 : mn.2 = c := by rw [← hfc, hfn]
      have hmx1 : mx.1 = nval s m := by rw [← hfm, hfn]
      refine ⟨c, m, ?_, hcmem, hmmem, ?_, ?_, ?_⟩
      · rw [hchar]
        simp [hmn2]
      · intro x hx
        have hle := listMin_le (f r0) (rest.map f) (f x)
          (by
            have hmm : f x ∈ (r0 :: rest).map f := List.mem_map.mpr ⟨x, hx, rfl⟩
            simpa using hmm)
        have h1 : ¬ (pairLt (f x) mn = true) := by simp [hle]
        rw [pairLt_iff] at h1
        have hfx1 : (f x).1 = nval s x := rfl
        have hfx2 : (f x).2 = x := rfl
        rw [hfx1, hfx2, hmn1, hmn2] at h1
        exact lex_min_prop h1
      · intro x hx
        have hge := listMax_ge (f r0) (rest.map f) (f x)
          (by
            have hmm : f x ∈ (r0 :: rest).map f := List.mem_map.mpr ⟨x, hx, rfl⟩
            simpa using hmm)
        have h1 : ¬ (pairLt mx (f x) = true) := by simp [hge]
        rw [pairLt_iff] at h1
        have hfx1 : (f x).1 = nval s x := rfl
        have hfx2 : (f x).2 = x := rfl
        have hmx2 : mx.2 = m := by rw [← hfm, hfn]
        rw [hfx1, hfx2, hmx1, hmx2] at h1
        exact lex_max_prop h1
      · rw [hchar]
        by_cases hcond :
            mn.1 + ROUND_ROBIN_MAX_NONCE_DIFFERENCE_ALLOWED < mx.1
        · have hcond' :
              nval s c + ROUND_ROBIN_MAX_NONCE_DIFFERENCE_ALLOWED < nval s m := by
            rw [← hmn1, ← hmx1]
            exact hcond
          simp only [if_pos hcond, if_pos hcond', hmn2]
          simp [lookupA_insertA, hmx1]
        · have hcond' :
              ¬ (nval s c + ROUND_ROBIN_MAX_NONCE_DIFFERENCE_ALLOWED < nval s m) := by
            rw [← hmn1, ← hmx1]
            exact hcond
          simp only [if_neg hcond, if_neg hcond', hmn2]
          cases hlc : lookupA s.route_nonce c with
          | none =>
            have h0 : nval s c = 0 := by simp [nval, hlc]
            simp [lookupA_insertA, hlc, h0]
          | some k =>
            have h0 : nval s c = k := by simp [nval, hlc]
            simp [lookupA_insertA, hlc, h0]
  · intro dst P1 P2 hP s0 t1 t2 t3 t4 hs0 ht1 ht2 ht3 ht4
    have h1 : ¬ P2 < P1 := by omega
    have h2 : P1 ≠ P2 := by omega
    have h3 : P2 ≠ P1 := by omega
    subst hs0 ht1 ht2 ht3 ht4
    refine ⟨?_, ?_, ?_, ?_⟩ <;>
      simp [RoutingTable.find_route_from_peer_id, lookupA, listMin, listMax, pairLt,
        insertA, eraseA, ROUND_ROBIN_MAX_NONCE_DIFFERENCE_ALLOWED, h1, h2, h3, hP,
        Nat.lt_irrefl]

/-- C8 witness at a concrete input. -/
theorem C8_witness :
    (∃ c m,
      ((RoutingTable.mk [(9, [4, 7])] []).find_route_from_peer_id 9).1 = .ok c ∧
      c ∈ [4, 7] ∧ m ∈ [4, 7] ∧
      (∀ x ∈ [4, 7], nval (RoutingTable.mk [(9, [4, 7])] []) c < nval (RoutingTable.mk [(9, [4, 7])] []) x ∨
        (nval (RoutingTable.mk [(9, [4, 7])] []) c = nval (RoutingTable.mk [(9, [4, 7])] []) x ∧ c ≤ x)) ∧
      (∀ x ∈ [4, 7], nval (RoutingTable.mk [(9, [4, 7])] []) x < nval (RoutingTable.mk [(9, [4, 7])] []) m ∨
        (nval (RoutingTable.mk [(9, [4, 7])] []) x = nval (RoutingTable.mk [(9, [4, 7])] []) m ∧ x ≤ m)) ∧
      lookupA (((RoutingTable.mk [(9, [4, 7])] []).find_route_from_peer_id 9).2).route_nonce c =
        some (if nval (RoutingTable.mk [(9, [4, 7])] []) c + ROUND_ROBIN_MAX_NONCE_DIFFERENCE_ALLOWED < nval (RoutingTable.mk [(9, [4, 7])] []) m
          then nval (RoutingTable.mk [(9, [4, 7])] []) m - ROUND_ROBIN_MAX_NONCE_DIFFERENCE_ALLOWED + 1
          else nval (RoutingTable.mk [(9, [4, 7])] []) c + 1)) ∧
    (∀ s0 t1 t2 t3 t4,
        s0 = RoutingTable.mk [(0, [1, 2])] [] →
        t1 = s0.find_route_from_peer_id 0 →
        t2 = t1.2.find_route_from_peer_id 0 →
        t3 = t2.2.find_route_from_peer_id 0 →
        t4 = t3.2.find_route_from_peer_id 0 →
        t1.1 = .ok 1 ∧ t2.1 = .ok 2 ∧ t3.1 = .ok 1 ∧ t4.1 = .ok 2) :=
  ⟨(C8_find_route (RoutingTable.mk [(9, [4, 7])] []) 9).2.2.1 [4, 7] (by decide) (by decide),
    (C8_find_route (RoutingTable.mk [(9, [4, 7])] []) 9).2.2.2 0 1 2 (by decide)⟩

/-! ### List helper lemmas for the slot-array model -/

theorem getD_set_self {α : Type} (l : List α) (i : Nat) (a d : α) (h : i < l.length) :
    (l.set i a).getD i d = a := by
  induction l generalizing i with
  | nil => simp at h
  | cons x xs ih =>
    cases i with
    | zero => rfl
    | succ j =>
      simp only [List.set, List.getD, List.getElem?_cons_succ]
      have := ih j (by simpa using h)
      simpa [List.getD] using this

theorem getD_set_ne {α : Type} (l : List α) (i j : Nat) (a d : α) (h : i ≠ j) :
    (l.set i a).getD j d = l.getD j d := by
  induction l generalizing i j with
  | nil => simp [List.set]
  | cons x xs ih =>
    cases i with
    | zero =>
      cases j with
      | zero => exact absurd rfl h
      | succ j' => rfl
    | succ i' =>
      cases j with
      | zero => rfl
      | succ j' =>
        simp only [List.set, List.getD, List.getElem?_cons_succ]
        have := ih i' j' (fun hc => h (by rw [hc]))
        simpa [List.getD] using this

theorem getD_append_left {α : Type} (l l' : List α) (j : Nat) (d : α)
    (h : j < l.length) :
    (l ++ l').getD j d = l.getD j d := by
  induction l generalizing j with
  | nil => simp at h
  | cons x xs ih =>
    cases j with
    | zero => rfl
    | succ j' =>
      simp only [List.cons_append, List.getD, List.getElem?_cons_succ]
      have := ih j' (by simpa using h)
      simpa [List.getD] using this

theorem getD_append_self {α : Type} (l : List α) (a d : α) :
    (l ++ [a]).getD l.length d = a := by
  induction l with
  | nil => rfl
  | cons x xs ih =>
    simp only [List.cons_append, List.length_cons, List.getD, List.getElem?_cons_succ]
    simp only [List.getD] at ih
    exact ih

theorem getD_ge {α : Type} (l : List α) (j : Nat) (d : α) (h : l.length ≤ j) :
    l.getD j d = d := by
  induction l generalizing j with
  | nil => simp [List.getD]
  | cons x xs ih =>
    cases j with
    | zero => simp at h
    | succ j' =>
      simp only [List.getD, List.getElem?_cons_succ]
      have := ih j' (by simpa using h)
      simpa [List.getD] using this

theorem length_set_eq {α : Type} (l : List α) (i : Nat) (a : α) :
    (l.set i a).length = l.length := by
  simp

/-! ### Graph: compact integer-indexed adjacency with slot reuse
(routing.rs).  The free list `unused` is a stack: Rust pushes and pops at the
vector's end, the embedding pushes and pops at the list's head, preserving
LIFO order.  Out-of-range indexing (a Rust panic) is modelled by `getD`
defaults; all theorems below keep indices in range via `GraphInv`. -/

def MAX_NUM_PEERS : Nat := 128

structure Graph where
  source : PeerId
  source_id : Nat
  p2id : List (PeerId × Nat)
  id2p : List PeerId
  used : List Bool
  unused : List Nat
  adjacency : List (List Nat)
  total_active_edges : Nat
deriving DecidableEq, Repr

namespace Graph

/-- `Graph::new`. -/
def new (source : PeerId) : Graph :=
  { source := source
    source_id := 0
    p2id := [(source, 0)]
    id2p := [source]
    used := [true]
    unused := []
    adjacency := [[]]
    total_active_edges := 0 }

/-- `Graph::contains_edge`. -/
def contains_edge (g : Graph) (peer0 peer1 : PeerId) : Bool :=
  match lookupA g.p2id peer0, lookupA g.p2id peer1 with
  | some id0, some id1 => (g.adjacency.getD id0 []).contains id1
  | _, _ => false

/-- `Graph::remove_if_unused`. -/
def remove_if_unused (g : Graph) (id : Nat) : Graph :=
  if (g.adjacency.getD id []).isEmpty ∧ id ≠ g.source_id then
    { g with
      used := g.used.set id false
      unused := id :: g.unused
      p2id := eraseA g.p2id (g.id2p.getD id g.source) }
  else g

/-- `Graph::get_id`: look up or allocate the slot of a peer.  The two
`assert!`s guarding slot reuse are the `none` branches. -/
def get_id (g : Graph) (peer : PeerId) : Option (Graph × Nat) :=
  match lookupA g.p2id peer with
  | some id => some (g, id)
  | none =>
    match g.unused with
    | val :: rest =>
      if g.used.getD val false then none
      else if (g.adjacency.getD val []).isEmpty then
        some ({ g with
          id2p := g.id2p.set val peer
          used := g.used.set val true
          unused := rest
          p2id := insertA g.p2id peer val }, val)
      else none
    | [] =>
      some ({ g with
        id2p := g.id2p ++ [peer]
        used := g.used ++ [true]
        adjacency := g.adjacency ++ [[]]
        p2id := insertA g.p2id peer g.id2p.length }, g.id2p.length)

/-- `Graph::add_edge`.  The `assert_ne!(peer0, peer1)` is the `none`
branch. -/
def add_edge (g : Graph) (peer0 peer1 : PeerId) : Option Graph :=
  if peer0 = peer1 then none
  else if g.contains_edge peer0 peer1 then some g
  else
    match g.get_id peer0 with
    | none => none
    | some (g1, id0) =>
      match g1.get_id peer1 with
      | none => none
      | some (g2, id1) =>
        let a1 := g2.adjacency.set id0 ((g2.adjacency.getD id0 []) ++ [id1])
        let a2 := a1.set id1 ((a1.getD id1 []) ++ [id0])
        some { g2 with
          adjacency := a2
          total_active_edges := g2.total_active_edges + 1 }

/-- `Graph::remove_edge`.  The `assert_ne!(peer0, peer1)` is the `none`
branch. -/
def remove_edge (g : Graph) (peer0 peer1 : PeerId) : Option Graph :=
  if peer0 = peer1 then none
  else if g.contains_edge peer0 peer1 then
    match g.get_id peer0 with
    | none => none
    | some (g1, id0) =>
      match g1.get_id peer1 with
      | none => none
      | some (g2, id1) =>
        let a1 := g2.adjacency.set id0
          ((g2.adjacency.getD id0 []).filter (fun x => !decide (x = id1)))
        let a2 := a1.set id1 ((a1.getD id1 []).filter (fun x => !decide (x = id0)))
        let g3 := { g2 with adjacency := a2 }
        let g4 := (g3.remove_if_unused id0).remove_if_unused id1
        some { g4 with total_active_edges := g4.total_active_edges - 1 }
  else some g

end Graph

/-- Invariant of the graph's slot structure, holding also in the transient
states between the two `get_id` calls of an `add_edge`. -/
structure GraphInvCore (g : Graph) : Prop where
  len_used : g.used.length = g.id2p.length
  len_adj : g.adjacency.length = g.id2p.length
  src_id : g.source_id = 0
  src_lt : 0 < g.id2p.length
  src_used : g.used.getD 0 false = true
  src_peer : g.id2p.getD 0 0 = g.source
  src_p2id : lookupA g.p2id g.source = some 0
  p2id_sound : ∀ p i, lookupA g.p2id p = some i →
    i < g.id2p.length ∧ g.used.getD i false = true ∧ g.id2p.getD i 0 = p
  used_p2id : ∀ i, i < g.id2p.length → g.used.getD i false = true →
    lookupA g.p2id (g.id2p.getD i 0) = some i
  unused_mem : ∀ i, i ∈ g.unused →
    i < g.id2p.length ∧ g.used.getD i false = false ∧ g.adjacency.getD i [] = []
  unused_complete : ∀ i, i < g.id2p.length → g.used.getD i false = false →
    i ∈ g.unused
  unused_nodup : g.unused.Nodup
  adj_lt : ∀ i j, j ∈ g.adjacency.getD i [] → j < g.id2p.length
  adj_used : ∀ i j, j ∈ g.adjacency.getD i [] → g.used.getD j false = true
  adj_symm : ∀ i j, j ∈ g.adjacency.getD i [] ↔ i ∈ g.adjacency.getD j []
  adj_nodup : ∀ i, (g.adjacency.getD i []).Nodup
  adj_irrefl : ∀ i, i ∉ g.adjacency.getD i []

/-- The inductive invariant of every graph reachable from `Graph::new` by
complete `add_edge`/`remove_edge` calls. -/
structure GraphInv (g : Graph) extends GraphInvCore g : Prop where
  used_nonempty : ∀ i, i < g.id2p.length → g.used.getD i false = true → i ≠ 0 →
    g.adjacency.getD i [] ≠ []

theorem graphInvCore_new (source : PeerId) : GraphInvCore (Graph.new source) := by
  constructor <;> intros <;>
    first
    | rfl
    | decide
    | simp_all [Graph.new, lookupA, List.getD]

theorem graphInv_new (source : PeerId) : GraphInv (Graph.new source) := by
  refine ⟨graphInvCore_new source, ?_⟩
  intro i hi hu h0
  simp [Graph.new] at hi
  omega

/-- Postcondition of `Graph.get_id` under `GraphInvCore`, expressed through
`getD`/`lookupA` views. -/
structure GetIdSpec (g g' : Graph) (peer : PeerId) (id : Nat) : Prop where
  src : g'.source = g.source
  srcid : g'.source_id = g.source_id
  total : g'.total_active_edges = g.total_active_edges
  len_used : g'.used.length = g'.id2p.length
  len_adj : g'.adjacency.length = g'.id2p.length
  len_cases : (g'.id2p.length = g.id2p.length ∧ id < g.id2p.length) ∨
    (g'.id2p.length = g.id2p.length + 1 ∧ id = g.id2p.length)
  adj_view : ∀ j, g'.adjacency.getD j [] = g.adjacency.getD j []
  p2id_view : ∀ p, lookupA g'.p2id p = if p = peer then some id else lookupA g.p2id p
  used_view : ∀ j, g'.used.getD j false = if j = id then true else g.used.getD j false
  id2p_view : ∀ j, g'.id2p.getD j 0 = if j = id then peer else g.id2p.getD j 0
  unused_view : ∀ j, j ∈ g'.unused ↔ (j ∈ g.unused ∧ j ≠ id)
  unused_nodup : g'.unused.Nodup
  id_zero : id = 0 → peer = g.source
  src_consistent : peer = g.source → id = 0
  old_not_id : ∀ p, p ≠ peer → lookupA g.p2id p = some id → False
  peer_slot : ∀ i, i < g.id2p.length → g.used.getD i false = true →
    g.id2p.getD i 0 = peer → i = id
  fresh_cases : lookupA g.p2id peer = some id ∨
    (lookupA g.p2id peer = none ∧
      (g.used.getD id false = false ∨ g.id2p.length ≤ id))

theorem get_id_spec (g : Graph) (peer : PeerId) (hInv : GraphInvCore g) :
    ∃ g' id, g.get_id peer = some (g', id) ∧ GetIdSpec g g' peer id := by
  cases hlk : lookupA g.p2id peer with
  | some id =>
    obtain ⟨hid_lt, hid_used, hid_peer⟩ := hInv.p2id_sound peer id hlk
    refine ⟨g, id, by simp [Graph.get_id, hlk], ?_⟩
    refine ⟨rfl, rfl, rfl, hInv.len_used, hInv.len_adj, Or.inl ⟨rfl, hid_lt⟩,
      fun j => rfl, ?_, ?_, ?_, ?_, hInv.unused_nodup, ?_, ?_, ?_, ?_, Or.inl hlk⟩
    · intro p
      by_cases hp : p = peer
      · subst hp
        simp [hlk]
      · simp [hp]
    · intro j
      by_cases hj : j = id
      · subst hj
        rw [if_pos rfl]
        exact hid_used
      · simp [hj]
    · intro j
      by_cases hj : j = id
      · subst hj
        rw [if_pos rfl]
        exact hid_peer
      · simp [hj]
    · intro j
      constructor
      · intro hj
        refine ⟨hj, ?_⟩
        intro hji
        subst hji
        have := (hInv.unused_mem j hj).2.1
        rw [hid_used] at this
        cases this
      · exact fun hj => hj.1
    · intro h0
      subst h0
      rw [← hid_peer, hInv.src_peer]
    · intro hps
      rw [hps] at hlk
      rw [hInv.src_p2id] at hlk
      exact (Option.some_injective _ hlk).symm
    · intro p hp hpl
      obtain ⟨_, _, hp2⟩ := hInv.p2id_sound p id hpl
      exact hp (by rw [← hp2, hid_peer])
    · intro i hi hui hip
      have := hInv.used_p2id i hi hui
      rw [hip, hlk] at this
      exact Option.some_injective _ this.symm
  | none =>
    cases hu : g.unused with
    | cons val rest =>
      obtain ⟨hval_lt, hval_used, hval_adj⟩ := hInv.unused_mem val (by rw [hu]; simp)
      have hval_ne0 : val ≠ 0 := by
        intro h0
        subst h0
        rw [hInv.src_used] at hval_used
        cases hval_used
      refine ⟨{ g with
          id2p := g.id2p.set val peer
          used := g.used.set val true
          unused := rest
          p2id := insertA g.p2id peer val }, val, ?_, ?_⟩
      · simp [Graph.get_id, hlk, hu, hval_used, hval_adj]
        rw [← List.getD_eq_getElem?_getD, ← List.getD_eq_getElem?_getD]
        exact ⟨hval_used, hval_adj⟩
      have hnodup := hInv.unused_nodup
      rw [hu] at hnodup
      have hval_notin : val ∉ rest := (List.nodup_cons.mp hnodup).1
      refine ⟨rfl, rfl, rfl, ?_, ?_, Or.inl ⟨by simp, hval_lt⟩, fun j => rfl,
        ?_, ?_, ?_, ?_, (List.nodup_cons.mp hnodup).2, ?_, ?_, ?_, ?_, ?_⟩
      · simp [hInv.len_used]
      · simp [hInv.len_adj]
      · intro p
        rw [lookupA_insertA]
        by_cases hp : p = peer
        · simp [hp]
        · simp [hp]
          intro hpp
          exact absurd hpp.symm hp
      · intro j
        by_cases hj : j = val
        · subst hj
          rw [getD_set_self]
          · simp
          · rw [hInv.len_used]
            exact hval_lt
        · rw [getD_set_ne _ _ _ _ _ (fun h => hj h.symm)]
          simp [hj]
      · intro j
        by_cases hj : j = val
        · subst hj
          rw [getD_set_self]
          · simp
          · exact hval_lt
        · rw [getD_set_ne _ _ _ _ _ (fun h => hj h.symm)]
          simp [hj]
      · intro j
        constructor
        · intro hj
          constructor
          · rw [hu]
            exact List.mem_cons_of_mem _ hj
          · intro hjv
            subst hjv
            exact hval_notin hj
        · intro ⟨hj, hjv⟩
          rw [hu] at hj
          rcases List.mem_cons.mp hj with h | h
          · exact absurd h hjv
          · exact h
      · intro h0
        exact absurd h0 hval_ne0
      · intro hps
        rw [hps, hInv.src_p2id] at hlk
        cases hlk
      · intro p hp hpl
        have := (hInv.p2id_sound p val hpl).2.1
        rw [hval_used] at this
        cases this
      · intro i hi hui hip
        have := hInv.used_p2id i hi hui
        rw [hip, hlk] at this
        cases this
      · exact Or.inr ⟨hlk, Or.inl hval_used⟩
    | nil =>
      refine ⟨{ g with
          id2p := g.id2p ++ [peer]
          used := g.used ++ [true]
          adjacency := g.adjacency ++ [[]]
          p2id := insertA g.p2id peer g.id2p.length }, g.id2p.length,
        by simp [Graph.get_id, hlk, hu], ?_⟩
      have hlu : g.used.length = g.id2p.length := hInv.len_used
      have hla : g.adjacency.length = g.id2p.length := hInv.len_adj
      refine ⟨rfl, rfl, rfl, by simp [hlu], by simp [hla], Or.inr ⟨by simp, rfl⟩,
        ?_, ?_, ?_, ?_, ?_, by simp [hu], ?_, ?_, ?_, ?_, ?_⟩
      · intro j
        show (g.adjacency ++ [[]]).getD j [] = g.adjacency.getD j []
        rcases Nat.lt_or_ge j g.adjacency.length with hj | hj
        · exact getD_append_left _ _ _ _ hj
        · rcases Nat.eq_or_lt_of_le hj with hj' | hj'
          · rw [← hj']
            rw [getD_append_self, getD_ge _ _ _ (Nat.le_refl _)]
          · rw [getD_ge _ _ _ (by simp; omega), getD_ge _ _ _ (by omega)]
      · intro p
        rw [lookupA_insertA]
        by_cases hp : p = peer
        · simp [hp]
        · simp [hp]
          intro hpp
          exact absurd hpp.symm hp
      · intro j
        by_cases hj : j = g.id2p.length
        · subst hj
          rw [← hlu]
          rw [getD_append_self]
          simp
        · rcases Nat.lt_or_ge j g.id2p.length with hjl | hjl
          · rw [getD_append_left _ _ _ _ (by rw [hlu]; exact hjl)]
            simp [hj]
          · have hjl' : g.id2p.length < j := by omega
            rw [getD_ge _ _ _ (by simp [hlu]; omega), getD_ge _ _ _ (by omega)]
            simp [hj]
      · intro j
        by_cases hj : j = g.id2p.length
        · subst hj
          rw [getD_append_self]
          simp
        · rcases Nat.lt_or_ge j g.id2p.length with hjl | hjl
          · rw [getD_append_left _ _ _ _ hjl]
            simp [hj]
          · have hjl' : g.id2p.length < j := by omega
            rw [getD_ge _ _ _ (by simp; omega), getD_ge _ _ _ (by omega)]
            simp [hj]
      · intro j
        rw [hu]
        simp
      · intro h0
        have := hInv.src_lt
        omega
      · intro hps
        rw [hps, hInv.src_p2id] at hlk
        cases hlk
      · intro p hp hpl
        have := (hInv.p2id_sound p _ hpl).1
        omega
      · intro i hi hui hip
        have := hInv.used_p2id i hi hui
        rw [hip, hlk] at this
        cases this
      · exact Or.inr ⟨hlk, Or.inr (Nat.le_refl _)⟩

theorem core_preserved {g g' : Graph} {peer : PeerId} {id : Nat}
    (hInv : GraphInvCore g) (S : GetIdSpec g g' peer id) : GraphInvCore g' := by
  have hlen : g.id2p.length ≤ g'.id2p.length := by
    rcases S.len_cases with ⟨h, _⟩ | ⟨h, _⟩ <;> omega
  have hid_lt : id < g'.id2p.length := by
    rcases S.len_cases with ⟨h, h2⟩ | ⟨h, h2⟩ <;> omega
  constructor
  · exact S.len_used
  · exact S.len_adj
  · rw [S.srcid]
    exact hInv.src_id
  · exact Nat.lt_of_lt_of_le hInv.src_lt hlen
  · rw [S.used_view]
    by_cases h0 : (0 : Nat) = id
    · rw [if_pos h0]
    · rw [if_neg h0]
      exact hInv.src_used
  · rw [S.id2p_view]
    by_cases h0 : (0 : Nat) = id
    · rw [if_pos h0, S.src]
      exact S.id_zero h0.symm
    · rw [if_neg h0, S.src]
      exact hInv.src_peer
  · rw [S.src, S.p2id_view]
    by_cases hs : g.source = peer
    · rw [if_pos hs, S.src_consistent hs.symm]
    · rw [if_neg hs]
      exact hInv.src_p2id
  · intro p i hpl
    rw [S.p2id_view] at hpl
    by_cases hp : p = peer
    · rw [if_pos hp] at hpl
      injection hpl with hide
      subst hide
      refine ⟨hid_lt, ?_, ?_⟩
      · rw [S.used_view, if_pos rfl]
      · rw [S.id2p_view, if_pos rfl]
        exact hp.symm
    · rw [if_neg hp] at hpl
      obtain ⟨h1, h2, h3⟩ := hInv.p2id_sound p i hpl
      have hine : i ≠ id := fun hc => S.old_not_id p hp (hc ▸ hpl)
      refine ⟨Nat.lt_of_lt_of_le h1 hlen, ?_, ?_⟩
      · rw [S.used_view, if_neg hine]
        exact h2
      · rw [S.id2p_view, if_neg hine]
        exact h3
  · intro i hi hui
    by_cases hiid : i = id
    · subst hiid
      rw [S.id2p_view, if_pos rfl, S.p2id_view, if_pos rfl]
    · rw [S.used_view, if_neg hiid] at hui
      have hilt : i < g.id2p.length := by
        by_contra hc
        push_neg at hc
        rw [getD_ge _ _ _ (by rw [hInv.len_used]; omega)] at hui
        cases hui
      rw [S.id2p_view, if_neg hiid, S.p2id_view]
      by_cases hip : g.id2p.getD i 0 = peer
      · exact absurd (S.peer_slot i hilt hui hip) hiid
      · rw [if_neg hip]
        exact hInv.used_p2id i hilt hui
  · intro i hiu
    obtain ⟨hi1, hi2⟩ := (S.unused_view i).mp hiu
    obtain ⟨h1, h2, h3⟩ := hInv.unused_mem i hi1
    refine ⟨Nat.lt_of_lt_of_le h1 hlen, ?_, ?_⟩
    · rw [S.used_view, if_neg hi2]
      exact h2
    · rw [S.adj_view]
      exact h3
  · intro i hi hui
    have hine : i ≠ id := by
      intro hc
      subst hc
      rw [S.used_view, if_pos rfl] at hui
      cases hui
    rw [S.used_view, if_neg hine] at hui
    have hilt : i < g.id2p.length := by
      rcases S.len_cases with ⟨h, hid⟩ | ⟨h, hid⟩ <;> omega
    exact (S.unused_view i).mpr ⟨hInv.unused_complete i hilt hui, hine⟩
  · exact S.unused_nodup
  · intro i j hj
    rw [S.adj_view] at hj
    exact Nat.lt_of_lt_of_le (hInv.adj_lt i j hj) hlen
  · intro i j hj
    rw [S.adj_view] at hj
    have hja := hInv.adj_used i j hj
    rw [S.used_view]
    by_cases hjid : j = id
    · rw [if_pos hjid]
    · rw [if_neg hjid]
      exact hja
  · intro i j
    rw [S.adj_view, S.adj_view]
    exact hInv.adj_symm i j
  · intro i
    rw [S.adj_view]
    exact hInv.adj_nodup i
  · intro i
    rw [S.adj_view]
    exact hInv.adj_irrefl i

theorem contains_mem {l : List Nat} {a : Nat} : l.contains a = true ↔ a ∈ l := by
  induction l with
  | nil => simp
  | cons x xs ih => simp [List.contains_cons, ih]

theorem contains_edge_symm {g : Graph} (hInv : GraphInvCore g) (x y : PeerId) :
    g.contains_edge x y = g.contains_edge y x := by
  unfold Graph.contains_edge
  cases hx : lookupA g.p2id x with
  | none =>
    cases hy : lookupA g.p2id y with
    | none => rfl
    | some iy => rfl
  | some ix =>
    cases hy : lookupA g.p2id y with
    | none => rfl
    | some iy =>
      show (g.adjacency.getD ix []).contains iy = (g.adjacency.getD iy []).contains ix
      by_cases hm : iy ∈ g.adjacency.getD ix []
      · rw [contains_mem.mpr hm, contains_mem.mpr ((hInv.adj_symm ix iy).mp hm)]
      · have hm' : ix ∉ g.adjacency.getD iy [] := fun h => hm ((hInv.adj_symm ix iy).mpr h)
        rw [Bool.eq_false_iff.mpr (fun h => hm (contains_mem.mp h)),
          Bool.eq_false_iff.mpr (fun h => hm' (contains_mem.mp h))]

/-- A slot that is unused or out of range has an empty adjacency list. -/
theorem adj_empty_of_unused {g : Graph} (hInv : GraphInvCore g) (idX : Nat)
    (h : g.used.getD idX false = false ∨ g.id2p.length ≤ idX) :
    g.adjacency.getD idX [] = [] := by
  rcases h with h | h
  · rcases Nat.lt_or_ge idX g.id2p.length with hlt | hge
    · exact (hInv.unused_mem idX (hInv.unused_complete idX hlt h)).2.2
    · exact getD_ge _ _ _ (by rw [hInv.len_adj]; exact hge)
  · exact getD_ge _ _ _ (by rw [hInv.len_adj]; exact h)

/-- Membership in the adjacency array after `add_edge`'s two pushes. -/
theorem mem_add_adj {A : List (List Nat)} {id0 id1 : Nat} (hne : id0 ≠ id1)
    (h0 : id0 < A.length) (h1 : id1 < A.length) (i j : Nat) :
    (j ∈ ((A.set id0 ((A.getD id0 []) ++ [id1])).set id1
        (((A.set id0 ((A.getD id0 []) ++ [id1])).getD id1 []) ++ [id0])).getD i []
    ↔ (j ∈ A.getD i [] ∨ (i = id0 ∧ j = id1) ∨ (i = id1 ∧ j = id0))) := by
  have hA1len : (A.set id0 ((A.getD id0 []) ++ [id1])).length = A.length := by simp
  have hA1_at : ∀ k, (A.set id0 ((A.getD id0 []) ++ [id1])).getD k []
      = if k = id0 then (A.getD id0 []) ++ [id1] else A.getD k [] := by
    intro k
    by_cases hk : k = id0
    · subst hk
      rw [getD_set_self _ _ _ _ h0, if_pos rfl]
    · rw [getD_set_ne _ _ _ _ _ (fun h => hk h.symm), if_neg hk]
  by_cases hi1 : i = id1
  · subst hi1
    rw [getD_set_self _ _ _ _ (by rw [hA1len]; exact h1)]
    rw [hA1_at, if_neg (fun h => hne h.symm)]
    rw [List.mem_append, List.mem_singleton]
    constructor
    · rintro (h | h)
      · exact Or.inl h
      · exact Or.inr (Or.inr ⟨rfl, h⟩)
    · rintro (h | ⟨hii, _⟩ | ⟨_, hjj⟩)
      · exact Or.inl h
      · exact absurd hii.symm hne
      · exact Or.inr hjj
  · rw [getD_set_ne _ _ _ _ _ (fun h => hi1 h.symm), hA1_at]
    by_cases hi0 : i = id0
    · subst hi0
      rw [if_pos rfl, List.mem_append, List.mem_singleton]
      constructor
      · rintro (h | h)
        · exact Or.inl h
        · exact Or.inr (Or.inl ⟨rfl, h⟩)
      · rintro (h | ⟨_, hjj⟩ | ⟨hii, _⟩)
        · exact Or.inl h
        · exact Or.inr hjj
        · exact absurd hii hi1
    · rw [if_neg hi0]
      constructor
      · exact Or.inl
      · rintro (h | ⟨hii, _⟩ | ⟨hii, _⟩)
        · exact h
        · exact absurd hii hi0
        · exact absurd hii hi1

theorem nodup_append_singleton {l : List Nat} {a : Nat} (h : l.Nodup) (ha : a ∉ l) :
    (l ++ [a]).Nodup := by
  induction l with
  | nil => simp
  | cons x xs ih =>
    rcases List.nodup_cons.mp h with ⟨hx, hxs⟩
    have hax : a ∉ xs := fun hm => ha (List.mem_cons_of_mem _ hm)
    have hxa : x ≠ a := fun hxa => ha (by rw [← hxa]; exact List.mem_cons_self _ _)
    rw [List.cons_append]
    refine List.nodup_cons.mpr ⟨?_, ih hxs hax⟩
    intro hmem
    rcases List.mem_append.mp hmem with hm | hm
    · exact hx hm
    · rw [List.mem_singleton] at hm
      exact hxa hm

theorem add_edge_spec (g : Graph) (p0 p1 : PeerId) (hInv : GraphInv g) (hne : p0 ≠ p1) :
    ∃ g', g.add_edge p0 p1 = some g' ∧ GraphInv g' ∧ g'.source = g.source ∧
      (∀ x y, g'.contains_edge x y = true ↔
        (g.contains_edge x y = true ∨ (x = p0 ∧ y = p1) ∨ (x = p1 ∧ y = p0))) := by
  by_cases hc : g.contains_edge p0 p1 = true
  · refine ⟨g, by simp [Graph.add_edge, hne, hc], hInv, rfl, ?_⟩
    intro x y
    constructor
    · exact Or.inl
    · rintro (h | ⟨hxe, hye⟩ | ⟨hxe, hye⟩)
      · exact h
      · rw [hxe, hye]
        exact hc
      · rw [hxe, hye, contains_edge_symm hInv.toGraphInvCore]
        exact hc
  · have hcf : g.contains_edge p0 p1 = false := Bool.eq_false_iff.mpr hc
    obtain ⟨g1, id0, h1, S1⟩ := get_id_spec g p0 hInv.toGraphInvCore
    have hC1 : GraphInvCore g1 := core_preserved hInv.toGraphInvCore S1
    obtain ⟨g2, id1, h2, S2⟩ := get_id_spec g1 p1 hC1
    have hC2 : GraphInvCore g2 := core_preserved hC1 S2
    have hne' : p1 ≠ p0 := fun h => hne h.symm
    have hl0 : lookupA g2.p2id p0 = some id0 := by
      rw [S2.p2id_view, if_neg hne, S1.p2id_view, if_pos rfl]
    have hl1 : lookupA g2.p2id p1 = some id1 := by
      rw [S2.p2id_view, if_pos rfl]
    have hid01 : id0 ≠ id1 := by
      intro hcc
      have ha := (hC2.p2id_sound p0 id0 hl0).2.2
      have hb := (hC2.p2id_sound p1 id1 hl1).2.2
      rw [hcc] at ha
      exact hne (ha.symm.trans hb)
    have hid0_lt : id0 < g2.id2p.length := (hC2.p2id_sound _ _ hl0).1
    have hid1_lt : id1 < g2.id2p.length := (hC2.p2id_sound _ _ hl1).1
    have hu0 : g2.used.getD id0 false = true := (hC2.p2id_sound _ _ hl0).2.1
    have hu1 : g2.used.getD id1 false = true := (hC2.p2id_sound _ _ hl1).2.1
    have hlen01 : g.id2p.length ≤ g1.id2p.length := by
      rcases S1.len_cases with ⟨h, _⟩ | ⟨h, _⟩ <;> omega
    have hlen12 : g1.id2p.length ≤ g2.id2p.length := by
      rcases S2.len_cases with ⟨h, _⟩ | ⟨h, _⟩ <;> omega
    have hadj2 : ∀ j, g2.adjacency.getD j [] = g.adjacency.getD j [] :=
      fun j => (S2.adj_view j).trans (S1.adj_view j)
    have T1 : ∀ p i, lookupA g.p2id p = some i → lookupA g2.p2id p = some i := by
      intro p i hp
      by_cases hpp1 : p = p1
      · rw [hpp1] at hp ⊢
        have hg1 : lookupA g1.p2id p1 = some i := by
          rw [S1.p2id_view, if_neg hne']
          exact hp
        rcases S2.fresh_cases with hs | ⟨hs, _⟩
        · rw [hg1] at hs
          injection hs with hii
          rw [hl1, hii]
        · rw [hg1] at hs
          cases hs
      · by_cases hpp0 : p = p0
        · rw [hpp0] at hp ⊢
          rcases S1.fresh_cases with hs | ⟨hs, _⟩
          · rw [hp] at hs
            injection hs with hii
            rw [hl0, hii]
          · rw [hp] at hs
            cases hs
        · rw [S2.p2id_view, if_neg hpp1, S1.p2id_view, if_neg hpp0]
          exact hp
    have T2 : ∀ p i, lookupA g2.p2id p = some i →
        (p = p0 ∧ i = id0) ∨ (p = p1 ∧ i = id1) ∨
        (lookupA g.p2id p = some i ∧ p ≠ p0 ∧ p ≠ p1) := by
      intro p i hp
      by_cases hpp1 : p = p1
      · rw [hpp1, hl1] at hp
        injection hp with hii
        exact Or.inr (Or.inl ⟨hpp1, hii.symm⟩)
      · by_cases hpp0 : p = p0
        · rw [hpp0, hl0] at hp
          injection hp with hii
          exact Or.inl ⟨hpp0, hii.symm⟩
        · rw [S2.p2id_view, if_neg hpp1, S1.p2id_view, if_neg hpp0] at hp
          exact Or.inr (Or.inr ⟨hp, hpp0, hpp1⟩)
    have hnotmem : id1 ∉ g2.adjacency.getD id0 [] := by
      rw [hadj2]
      intro hmem
      rcases S2.fresh_cases with hs2 | ⟨_, hcase2⟩
      · have hg_p1 : lookupA g.p2id p1 = some id1 := by
          rw [S1.p2id_view, if_neg hne'] at hs2
          exact hs2
        rcases S1.fresh_cases with hs1 | ⟨_, hcase1⟩
        · apply hc
          unfold Graph.contains_edge
          rw [hs1, hg_p1]
          exact contains_mem.mpr hmem
        · rw [adj_empty_of_unused hInv.toGraphInvCore id0 hcase1] at hmem
          cases hmem
      · rcases hcase2 with hu | hge
        · rw [S1.used_view, if_neg (fun hcc => hid01 hcc.symm)] at hu
          have hmu := hInv.adj_used id0 id1 hmem
          rw [hu] at hmu
          cases hmu
        · have hlt := hInv.adj_lt id0 id1 hmem
          omega
    have hnotmem' : id0 ∉ g2.adjacency.getD id1 [] := by
      intro hmem
      exact hnotmem ((hC2.adj_symm id0 id1).mpr hmem)
    have h0A : id0 < g2.adjacency.length := by
      rw [hC2.len_adj]
      exact hid0_lt
    have h1A : id1 < g2.adjacency.length := by
      rw [hC2.len_adj]
      exact hid1_lt
    have M := fun i j => mem_add_adj (A := g2.adjacency) hid01 h0A h1A i j
    set A1 := g2.adjacency.set id0 ((g2.adjacency.getD id0 []) ++ [id1]) with hA1def
    set A2 := A1.set id1 ((A1.getD id1 []) ++ [id0]) with hA2def
    have hA2len : A2.length = g2.adjacency.length := by
      rw [hA2def, hA1def]
      simp
    have hA2_other : ∀ i, i ≠ id0 → i ≠ id1 → A2.getD i [] = g2.adjacency.getD i [] := by
      intro i hi0 hi1
      rw [hA2def, getD_set_ne _ _ _ _ _ (fun h => hi1 h.symm),
        hA1def, getD_set_ne _ _ _ _ _ (fun h => hi0 h.symm)]
    have hA2_id0 : A2.getD id0 [] = (g2.adjacency.getD id0 []) ++ [id1] := by
      rw [hA2def, getD_set_ne _ _ _ _ _ (fun h => hid01 h.symm), hA1def,
        getD_set_self _ _ _ _ h0A]
    have hA2_id1 : A2.getD id1 [] = (g2.adjacency.getD id1 []) ++ [id0] := by
      rw [hA2def, getD_set_self _ _ _ _ (by rw [hA1def]; simpa using h1A), hA1def,
        getD_set_ne _ _ _ _ _ hid01]
    refine ⟨{ g2 with adjacency := A2, total_active_edges := g2.total_active_edges + 1 },
      ?_, ⟨⟨hC2.len_used, ?_, hC2.src_id, hC2.src_lt, hC2.src_used, hC2.src_peer,
        hC2.src_p2id, hC2.p2id_sound, hC2.used_p2id, ?_, hC2.unused_complete,
        hC2.unused_nodup, ?_, ?_, ?_, ?_, ?_⟩, ?_⟩, S2.src.trans S1.src, ?_⟩
    · rw [hA2def, hA1def]
      simp [Graph.add_edge, hne, hcf, h1, h2]
    · show A2.length = g2.id2p.length
      rw [hA2len]
      exact hC2.len_adj
    · intro i hi
      obtain ⟨hlt, hus, hadj⟩ := hC2.unused_mem i hi
      have hi0 : i ≠ id0 := by
        intro hcc
        rw [hcc, hu0] at hus
        cases hus
      have hi1 : i ≠ id1 := by
        intro hcc
        rw [hcc, hu1] at hus
        cases hus
      refine ⟨hlt, hus, ?_⟩
      show A2.getD i [] = []
      rw [hA2_other i hi0 hi1]
      exact hadj
    · intro i j hj
      rcases (M i j).mp hj with hmm | ⟨_, hje⟩ | ⟨_, hje⟩
      · exact hC2.adj_lt i j hmm
      · rw [hje]
        exact hid1_lt
      · rw [hje]
        exact hid0_lt
    · intro i j hj
      rcases (M i j).mp hj with hmm | ⟨_, hje⟩ | ⟨_, hje⟩
      · exact hC2.adj_used i j hmm
      · rw [hje]
        exact hu1
      · rw [hje]
        exact hu0
    · intro i j
      constructor
      · intro h
        rcases (M i j).mp h with hmm | ⟨hie, hje⟩ | ⟨hie, hje⟩
        · exact (M j i).mpr (Or.inl ((hC2.adj_symm i j).mp hmm))
        · exact (M j i).mpr (Or.inr (Or.inr ⟨hje, hie⟩))
        · exact (M j i).mpr (Or.inr (Or.inl ⟨hje, hie⟩))
      · intro h
        rcases (M j i).mp h with hmm | ⟨hie, hje⟩ | ⟨hie, hje⟩
        · exact (M i j).mpr (Or.inl ((hC2.adj_symm j i).mp hmm))
        · exact (M i j).mpr (Or.inr (Or.inr ⟨hje, hie⟩))
        · exact (M i j).mpr (Or.inr (Or.inl ⟨hje, hie⟩))
    · intro i
      show (A2.getD i []).Nodup
      by_cases hi0 : i = id0
      · rw [hi0, hA2_id0]
        exact nodup_append_singleton (hC2.adj_nodup id0) hnotmem
      · by_cases hi1 : i = id1
        · rw [hi1, hA2_id1]
          exact nodup_append_singleton (hC2.adj_nodup id1) hnotmem'
        · rw [hA2_other i hi0 hi1]
          exact hC2.adj_nodup i
    · intro i hi
      rcases (M i i).mp hi with hmm | ⟨h1', h2'⟩ | ⟨h1', h2'⟩
      · exact hC2.adj_irrefl i hmm
      · exact hid01 (h1' ▸ h2' ▸ rfl)
      · exact hid01 (h2' ▸ h1' ▸ rfl)
    · intro i hi hui hne0
      by_cases hi0 : i = id0
      · show A2.getD i [] ≠ []
        rw [hi0, hA2_id0]
        simp
      · by_cases hi1 : i = id1
        · show A2.getD i [] ≠ []
          rw [hi1, hA2_id1]
          simp
        · show A2.getD i [] ≠ []
          rw [hA2_other i hi0 hi1, hadj2]
          have hug1 : g1.used.getD i false = true := by
            have hv := S2.used_view i
            rw [if_neg hi1] at hv
            rw [← hv]
            exact hui
          have hug : g.used.getD i false = true := by
            have hv := S1.used_view i
            rw [if_neg hi0] at hv
            rw [← hv]
            exact hug1
          have hilt : i < g.id2p.length := by
            by_contra hcc
            push_neg at hcc
            rw [getD_ge _ _ _ (by rw [hInv.len_used]; omega)] at hug
            cases hug
          exact hInv.used_nonempty i hilt hug hne0
    · intro x y
      constructor
      · intro hxy
        unfold Graph.contains_edge at hxy
        cases hx : lookupA g2.p2id x with
        | none => simp [hx] at hxy
        | some ix =>
          cases hy : lookupA g2.p2id y with
          | none => simp [hx, hy] at hxy
          | some iy =>
            simp only [hx, hy] at hxy
            have hmem : iy ∈ A2.getD ix [] := contains_mem.mp hxy
            rcases (M ix iy).mp hmem with hmm | ⟨hie, hje⟩ | ⟨hie, hje⟩
            · left
              rw [hadj2] at hmm
              have hgx : lookupA g.p2id x = some ix := by
                rcases T2 x ix hx with ⟨hxe, hie⟩ | ⟨hxe, hie⟩ | ⟨hh, _, _⟩
                · rcases S1.fresh_cases with hs | ⟨_, hcond⟩
                  · rw [hxe, hie]
                    exact hs
                  · rw [hie] at hmm
                    rw [adj_empty_of_unused hInv.toGraphInvCore id0 hcond] at hmm
                    cases hmm
                · rcases S2.fresh_cases with hs | ⟨_, hcond⟩
                  · rw [S1.p2id_view, if_neg hne'] at hs
                    rw [hxe, hie]
                    exact hs
                  · have hcond' :
                        g.used.getD id1 false = false ∨ g.id2p.length ≤ id1 := by
                      rcases hcond with hu | hge
                      · left
                        rw [S1.used_view, if_neg (fun hcc => hid01 hcc.symm)] at hu
                        exact hu
                      · right
                        omega
                    rw [hie] at hmm
                    rw [adj_empty_of_unused hInv.toGraphInvCore id1 hcond'] at hmm
                    cases hmm
                · exact hh
              have hgy : lookupA g.p2id y = some iy := by
                rcases T2 y iy hy with ⟨hye, hie⟩ | ⟨hye, hie⟩ | ⟨hh, _, _⟩
                · rcases S1.fresh_cases with hs | ⟨_, hcond⟩
                  · rw [hye, hie]
                    exact hs
                  · rw [hie] at hmm
                    rcases hcond with hu | hge
                    · have hmu := hInv.adj_used ix id0 hmm
                      rw [hu] at hmu
                      cases hmu
                    · have := hInv.adj_lt ix id0 hmm
                      omega
                · rcases S2.fresh_cases with hs | ⟨_, hcond⟩
                  · rw [S1.p2id_view, if_neg hne'] at hs
                    rw [hye, hie]
                    exact hs
                  · rw [hie] at hmm
                    rcases hcond with hu | hge
                    · rw [S1.used_view, if_neg (fun hcc => hid01 hcc.symm)] at hu
                      have hmu := hInv.adj_used ix id1 hmm
                      rw [hu] at hmu
                      cases hmu
                    · have := hInv.adj_lt ix id1 hmm
                      omega
                · exact hh
              unfold Graph.contains_edge
              rw [hgx, hgy]
              exact contains_mem.mpr hmm
            · right
              left
              rw [hie] at hx
              rw [hje] at hy
              have hx2 := (hC2.p2id_sound x id0 hx).2.2
              have hx0 := (hC2.p2id_sound p0 id0 hl0).2.2
              have hy2 := (hC2.p2id_sound y id1 hy).2.2
              have hy1 := (hC2.p2id_sound p1 id1 hl1).2.2
              exact ⟨hx2.symm.trans hx0, hy2.symm.trans hy1⟩
            · right
              right
              rw [hie] at hx
              rw [hje] at hy
              have hx2 := (hC2.p2id_sound x id1 hx).2.2
              have hx1 := (hC2.p2id_sound p1 id1 hl1).2.2
              have hy2 := (hC2.p2id_sound y id0 hy).2.2
              have hy0 := (hC2.p2id_sound p0 id0 hl0).2.2
              exact ⟨hx2.symm.trans hx1, hy2.symm.trans hy0⟩
      · rintro (hxy | ⟨hxe, hye⟩ | ⟨hxe, hye⟩)
        · unfold Graph.contains_edge at hxy ⊢
          cases hx : lookupA g.p2id x with
          | none => simp [hx] at hxy
          | some ix =>
            cases hy : lookupA g.p2id y with
            | none => simp [hx, hy] at hxy
            | some iy =>
              simp only [hx, hy] at hxy
              rw [T1 x ix hx, T1 y iy hy]
              apply contains_mem.mpr
              apply (M ix iy).mpr
              left
              rw [hadj2]
              exact contains_mem.mp hxy
        · rw [hxe, hye]
          unfold Graph.contains_edge
          rw [hl0, hl1]
          exact contains_mem.mpr ((M id0 id1).mpr (Or.inr (Or.inl ⟨rfl, rfl⟩)))
        · rw [hxe, hye]
          unfold Graph.contains_edge
          rw [hl1, hl0]
          exact contains_mem.mpr ((M id1 id0).mpr (Or.inr (Or.inr ⟨rfl, rfl⟩)))

theorem filter_nil (l : List Nat) (idX : Nat)
    (h : l.filter (fun x => !decide (x = idX)) = []) : ∀ a ∈ l, a = idX := by
  intro a ha
  by_contra hne'
  have hm : a ∈ l.filter (fun x => !decide (x = idX)) :=
    List.mem_filter.mpr ⟨ha, by simpa using hne'⟩
  rw [h] at hm
  cases hm

/-- Invariant and containment characterization of the state after
`remove_edge`'s adjacency filtering and the two conditional slot releases,
given `getD`/`lookupA` views of that state.  `b0`/`b1` record whether the
slot of `p0`/`p1` was released. -/
theorem remove_edge_final (g g' : Graph) (hInv : GraphInv g)
    (p0 p1 : PeerId) (id0 id1 : Nat) (b0 b1 : Bool)
    (hl0 : lookupA g.p2id p0 = some id0) (hl1 : lookupA g.p2id p1 = some id1)
    (hid01 : id0 ≠ id1)
    (adj_id0 : g'.adjacency.getD id0 []
      = (g.adjacency.getD id0 []).filter (fun x => !decide (x = id1)))
    (adj_id1 : g'.adjacency.getD id1 []
      = (g.adjacency.getD id1 []).filter (fun x => !decide (x = id0)))
    (adj_other : ∀ j, j ≠ id0 → j ≠ id1 →
      g'.adjacency.getD j [] = g.adjacency.getD j [])
    (la : g'.adjacency.length = g.adjacency.length)
    (lu : g'.used.length = g.used.length)
    (id2p_eq : g'.id2p = g.id2p)
    (src : g'.source = g.source) (srcid : g'.source_id = g.source_id)
    (hb0 : b0 = true ↔ (g'.adjacency.getD id0 [] = [] ∧ id0 ≠ 0))
    (hb1 : b1 = true ↔ (g'.adjacency.getD id1 [] = [] ∧ id1 ≠ 0))
    (used_view : ∀ j, g'.used.getD j false =
      if b0 = true ∧ j = id0 then false
      else if b1 = true ∧ j = id1 then false
      else g.used.getD j false)
    (unused_view : ∀ j, j ∈ g'.unused ↔
      (j ∈ g.unused ∨ (b0 = true ∧ j = id0) ∨ (b1 = true ∧ j = id1)))
    (unud : g'.unused.Nodup)
    (p2id_view : ∀ p, lookupA g'.p2id p =
      if b0 = true ∧ p = p0 then none
      else if b1 = true ∧ p = p1 then none
      else lookupA g.p2id p) :
    GraphInv g' ∧
      (∀ x y, g'.contains_edge x y = true ↔
        (g.contains_edge x y = true ∧
          ¬ ((x = p0 ∧ y = p1) ∨ (x = p1 ∧ y = p0)))) := by
  obtain ⟨hid0_lt, hu0g, hi0p⟩ := hInv.p2id_sound p0 id0 hl0
  obtain ⟨hid1_lt, hu1g, hi1p⟩ := hInv.p2id_sound p1 id1 hl1
  have memA : ∀ i j, j ∈ g'.adjacency.getD i [] ↔
      (j ∈ g.adjacency.getD i [] ∧
        ¬ ((i = id0 ∧ j = id1) ∨ (i = id1 ∧ j = id0))) := by
    intro i j
    by_cases hi0 : i = id0
    · rw [hi0, adj_id0, List.mem_filter]
      constructor
      · rintro ⟨hm, hp⟩
        have hp' : j ≠ id1 := by simpa using hp
        refine ⟨hm, ?_⟩
        rintro (⟨_, hj⟩ | ⟨hi, _⟩)
        · exact hp' hj
        · exact hid01 hi
      · rintro ⟨hm, hnp⟩
        have hj1 : j ≠ id1 := fun hj => hnp (Or.inl ⟨rfl, hj⟩)
        exact ⟨hm, by simpa using hj1⟩
    · by_cases hi1 : i = id1
      · rw [hi1, adj_id1, List.mem_filter]
        constructor
        · rintro ⟨hm, hp⟩
          have hp' : j ≠ id0 := by simpa using hp
          refine ⟨hm, ?_⟩
          rintro (⟨hi, _⟩ | ⟨_, hj⟩)
          · exact hid01 hi.symm
          · exact hp' hj
        · rintro ⟨hm, hnp⟩
          have hj0 : j ≠ id0 := fun hj => hnp (Or.inr ⟨rfl, hj⟩)
          exact ⟨hm, by simpa using hj0⟩
      · rw [adj_other i hi0 hi1]
        constructor
        · intro hm
          refine ⟨hm, ?_⟩
          rintro (⟨hi, _⟩ | ⟨hi, _⟩)
          · exact hi0 hi
          · exact hi1 hi
        · exact fun h => h.1
  refine ⟨⟨⟨?_, ?_, ?_, ?_, ?_, ?_, ?_, ?_, ?_, ?_, ?_, unud, ?_, ?_, ?_, ?_, ?_⟩,
    ?_⟩, ?_⟩
  · rw [lu, id2p_eq]
    exact hInv.len_used
  · rw [la, id2p_eq]
    exact hInv.len_adj
  · rw [srcid]
    exact hInv.src_id
  · rw [id2p_eq]
    exact hInv.src_lt
  · have hc0 : ¬ (b0 = true ∧ (0 : Nat) = id0) := by
      rintro ⟨hb, h0⟩
      exact (hb0.mp hb).2 h0.symm
    have hc1 : ¬ (b1 = true ∧ (0 : Nat) = id1) := by
      rintro ⟨hb, h0⟩
      exact (hb1.mp hb).2 h0.symm
    rw [used_view 0, if_neg hc0, if_neg hc1]
    exact hInv.src_used
  · rw [id2p_eq, src]
    exact hInv.src_peer
  · rw [src, p2id_view]
    have hcs0 : ¬ (b0 = true ∧ g.source = p0) := by
      rintro ⟨hb, hsp⟩
      have h := hInv.src_p2id
      rw [hsp, hl0] at h
      injection h with h
      exact (hb0.mp hb).2 h
    have hcs1 : ¬ (b1 = true ∧ g.source = p1) := by
      rintro ⟨hb, hsp⟩
      have h := hInv.src_p2id
      rw [hsp, hl1] at h
      injection h with h
      exact (hb1.mp hb).2 h
    rw [if_neg hcs0, if_neg hcs1]
    exact hInv.src_p2id
  · intro p i hpl
    rw [p2id_view] at hpl
    by_cases hcb0 : b0 = true ∧ p = p0
    · rw [if_pos hcb0] at hpl
      cases hpl
    · rw [if_neg hcb0] at hpl
      by_cases hcb1 : b1 = true ∧ p = p1
      · rw [if_pos hcb1] at hpl
        cases hpl
      · rw [if_neg hcb1] at hpl
        obtain ⟨h1, h2, h3⟩ := hInv.p2id_sound p i hpl
        have hni0 : ¬ (b0 = true ∧ i = id0) := by
          rintro ⟨hb, hi⟩
          apply hcb0
          refine ⟨hb, ?_⟩
          rw [hi] at h3
          exact (hi0p.symm.trans h3).symm
        have hni1 : ¬ (b1 = true ∧ i = id1) := by
          rintro ⟨hb, hi⟩
          apply hcb1
          refine ⟨hb, ?_⟩
          rw [hi] at h3
          exact (hi1p.symm.trans h3).symm
        refine ⟨by rw [id2p_eq]; exact h1, ?_, by rw [id2p_eq]; exact h3⟩
        rw [used_view i, if_neg hni0, if_neg hni1]
        exact h2
  · intro i hi hui
    rw [id2p_eq] at hi ⊢
    rw [used_view i] at hui
    by_cases hcb0 : b0 = true ∧ i = id0
    · rw [if_pos hcb0] at hui
      cases hui
    · rw [if_neg hcb0] at hui
      by_cases hcb1 : b1 = true ∧ i = id1
      · rw [if_pos hcb1] at hui
        cases hui
      · rw [if_neg hcb1] at hui
        have hold := hInv.used_p2id i hi hui
        rw [p2id_view]
        have hn0 : ¬ (b0 = true ∧ g.id2p.getD i 0 = p0) := by
          rintro ⟨hb, hip⟩
          rw [hip, hl0] at hold
          injection hold with hh
          exact hcb0 ⟨hb, hh.symm⟩
        have hn1 : ¬ (b1 = true ∧ g.id2p.getD i 0 = p1) := by
          rintro ⟨hb, hip⟩
          rw [hip, hl1] at hold
          injection hold with hh
          exact hcb1 ⟨hb, hh.symm⟩
        rw [if_neg hn0, if_neg hn1]
        exact hold
  · intro j hj
    rcases (unused_view j).mp hj with hj' | ⟨hb, hj'⟩ | ⟨hb, hj'⟩
    · obtain ⟨h1, h2, h3⟩ := hInv.unused_mem j hj'
      have hjne0 : j ≠ id0 := by
        intro hcc
        rw [hcc, hu0g] at h2
        cases h2
      have hjne1 : j ≠ id1 := by
        intro hcc
        rw [hcc, hu1g] at h2
        cases h2
      refine ⟨by rw [id2p_eq]; exact h1, ?_, ?_⟩
      · rw [used_view j, if_neg (fun hc => hjne0 hc.2), if_neg (fun hc => hjne1 hc.2)]
        exact h2
      · rw [adj_other j hjne0 hjne1]
        exact h3
    · refine ⟨by rw [id2p_eq, hj']; exact hid0_lt, ?_, ?_⟩
      · rw [used_view j, if_pos ⟨hb, hj'⟩]
      · rw [hj']
        exact (hb0.mp hb).1
    · refine ⟨by rw [id2p_eq, hj']; exact hid1_lt, ?_, ?_⟩
      · rw [used_view j]
        have hn0 : ¬ (b0 = true ∧ j = id0) := by
          rintro ⟨_, hj0⟩
          rw [hj'] at hj0
          exact hid01 hj0.symm
        rw [if_neg hn0, if_pos ⟨hb, hj'⟩]
      · rw [hj']
        exact (hb1.mp hb).1
  · intro j hjlt hju
    rw [id2p_eq] at hjlt
    rw [used_view j] at hju
    by_cases hcb0 : b0 = true ∧ j = id0
    · exact (unused_view j).mpr (Or.inr (Or.inl hcb0))
    · rw [if_neg hcb0] at hju
      by_cases hcb1 : b1 = true ∧ j = id1
      · exact (unused_view j).mpr (Or.inr (Or.inr hcb1))
      · rw [if_neg hcb1] at hju
        exact (unused_view j).mpr (Or.inl (hInv.unused_complete j hjlt hju))
  · intro i j hj
    rw [id2p_eq]
    exact hInv.adj_lt i j ((memA i j).mp hj).1
  · intro i j hj
    obtain ⟨hm, hnp⟩ := (memA i j).mp hj
    have hold := hInv.adj_used i j hm
    rw [used_view j]
    have hn0 : ¬ (b0 = true ∧ j = id0) := by
      rintro ⟨hb, hj0⟩
      have hsym : i ∈ g.adjacency.getD id0 [] := by
        rw [← hj0]
        exact (hInv.adj_symm i j).mp hm
      have hfe : (g.adjacency.getD id0 []).filter (fun x => !decide (x = id1))
          = [] := by
        rw [← adj_id0]
        exact (hb0.mp hb).1
      have hieq : i = id1 := filter_nil _ _ hfe i hsym
      exact hnp (Or.inr ⟨hieq, hj0⟩)
    have hn1 : ¬ (b1 = true ∧ j = id1) := by
      rintro ⟨hb, hj1⟩
      have hsym : i ∈ g.adjacency.getD id1 [] := by
        rw [← hj1]
        exact (hInv.adj_symm i j).mp hm
      have hfe : (g.adjacency.getD id1 []).filter (fun x => !decide (x = id0))
          = [] := by
        rw [← adj_id1]
        exact (hb1.mp hb).1
      have hieq : i = id0 := filter_nil _ _ hfe i hsym
      exact hnp (Or.inl ⟨hieq, hj1⟩)
    rw [if_neg hn0, if_neg hn1]
    exact hold
  · intro i j
    rw [memA i j, memA j i]
    constructor
    · rintro ⟨hm, hnp⟩
      refine ⟨(hInv.adj_symm i j).mp hm, ?_⟩
      rintro (⟨h1', h2'⟩ | ⟨h1', h2'⟩)
      · exact hnp (Or.inr ⟨h2', h1'⟩)
      · exact hnp (Or.inl ⟨h2', h1'⟩)
    · rintro ⟨hm, hnp⟩
      refine ⟨(hInv.adj_symm j i).mp hm, ?_⟩
      rintro (⟨h1', h2'⟩ | ⟨h1', h2'⟩)
      · exact hnp (Or.inr ⟨h2', h1'⟩)
      · exact hnp (Or.inl ⟨h2', h1'⟩)
  · intro i
    by_cases hi0 : i = id0
    · rw [hi0, adj_id0]
      exact List.Nodup.filter _ (hInv.adj_nodup id0)
    · by_cases hi1 : i = id1
      · rw [hi1, adj_id1]
        exact List.Nodup.filter _ (hInv.adj_nodup id1)
      · rw [adj_other i hi0 hi1]
        exact hInv.adj_nodup i
  · intro i hi
    exact hInv.adj_irrefl i ((memA i i).mp hi).1
  · intro i hlt hui hne0
    rw [id2p_eq] at hlt
    rw [used_view i] at hui
    by_cases hcb0 : b0 = true ∧ i = id0
    · rw [if_pos hcb0] at hui
      cases hui
    · rw [if_neg hcb0] at hui
      by_cases hcb1 : b1 = true ∧ i = id1
      · rw [if_pos hcb1] at hui
        cases hui
      · rw [if_neg hcb1] at hui
        by_cases hi0 : i = id0
        · have hb0f : b0 ≠ true := fun hb => hcb0 ⟨hb, hi0⟩
          rw [hi0]
          intro hempty
          apply hb0f
          apply hb0.mpr
          refine ⟨hempty, ?_⟩
          rw [← hi0]
          exact hne0
        · by_cases hi1 : i = id1
          · have hb1f : b1 ≠ true := fun hb => hcb1 ⟨hb, hi1⟩
            rw [hi1]
            intro hempty
            apply hb1f
            apply hb1.mpr
            refine ⟨hempty, ?_⟩
            rw [← hi1]
            exact hne0
          · rw [adj_other i hi0 hi1]
            exact hInv.used_nonempty i hlt hui hne0
  · intro x y
    constructor
    · intro hxy
      unfold Graph.contains_edge at hxy
      cases hx : lookupA g'.p2id x with
      | none => simp [hx] at hxy
      | some ix =>
        cases hy : lookupA g'.p2id y with
        | none => simp [hx, hy] at hxy
        | some iy =>
          simp only [hx, hy] at hxy
          obtain ⟨hm, hnp⟩ := (memA ix iy).mp (contains_mem.mp hxy)
          rw [p2id_view] at hx
          by_cases hc0x : b0 = true ∧ x = p0
          · rw [if_pos hc0x] at hx
            cases hx
          · rw [if_neg hc0x] at hx
            by_cases hc1x : b1 = true ∧ x = p1
            · rw [if_pos hc1x] at hx
              cases hx
            · rw [if_neg hc1x] at hx
              rw [p2id_view] at hy
              by_cases hc0y : b0 = true ∧ y = p0
              · rw [if_pos hc0y] at hy
                cases hy
              · rw [if_neg hc0y] at hy
                by_cases hc1y : b1 = true ∧ y = p1
                · rw [if_pos hc1y] at hy
                  cases hy
                · rw [if_neg hc1y] at hy
                  constructor
                  · unfold Graph.contains_edge
                    rw [hx, hy]
                    exact contains_mem.mpr hm
                  · rintro (⟨hxe, hye⟩ | ⟨hxe, hye⟩)
                    · rw [hxe, hl0] at hx
                      injection hx with h0
                      rw [hye, hl1] at hy
                      injection hy with h1
                      exact hnp (Or.inl ⟨h0.symm, h1.symm⟩)
                    · rw [hxe, hl1] at hx
                      injection hx with h0
                      rw [hye, hl0] at hy
                      injection hy with h1
                      exact hnp (Or.inr ⟨h0.symm, h1.symm⟩)
    · rintro ⟨hxy, hnm⟩
      unfold Graph.contains_edge at hxy
      cases hx : lookupA g.p2id x with
      | none => simp [hx] at hxy
      | some ix =>
        cases hy : lookupA g.p2id y with
        | none => simp [hx, hy] at hxy
        | some iy =>
          simp only [hx, hy] at hxy
          have hmem : iy ∈ g.adjacency.getD ix [] := contains_mem.mp hxy
          have hnc0x : ¬ (b0 = true ∧ x = p0) := by
            rintro ⟨hb, hxe⟩
            have hx' := hx
            rw [hxe, hl0] at hx'
            injection hx' with h0
            have hfe : (g.adjacency.getD id0 []).filter
                (fun x => !decide (x = id1)) = [] := by
              rw [← adj_id0]
              exact (hb0.mp hb).1
            have hiy : iy = id1 := filter_nil _ _ hfe iy (by rw [h0]; exact hmem)
            have hyy := (hInv.p2id_sound y iy hy).2.2
            rw [hiy] at hyy
            exact hnm (Or.inl ⟨hxe, (hi1p.symm.trans hyy).symm⟩)
          have hnc1x : ¬ (b1 = true ∧ x = p1) := by
            rintro ⟨hb, hxe⟩
            have hx' := hx
            rw [hxe, hl1] at hx'
            injection hx' with h0
            have hfe : (g.adjacency.getD id1 []).filter
                (fun x => !decide (x = id0)) = [] := by
              rw [← adj_id1]
              exact (hb1.mp hb).1
            have hiy : iy = id0 := filter_nil _ _ hfe iy (by rw [h0]; exact hmem)
            have hyy := (hInv.p2id_sound y iy hy).2.2
            rw [hiy] at hyy
            exact hnm (Or.inr ⟨hxe, (hi0p.symm.trans hyy).symm⟩)
          have hnc0y : ¬ (b0 = true ∧ y = p0) := by
            rintro ⟨hb, hye⟩
            have hy' := hy
            rw [hye, hl0] at hy'
            injection hy' with h0
            have hfe : (g.adjacency.getD id0 []).filter
                (fun x => !decide (x = id1)) = [] := by
              rw [← adj_id0]
              exact (hb0.mp hb).1
            have hsym : ix ∈ g.adjacency.getD id0 [] := by
              rw [h0]
              exact (hInv.adj_symm ix iy).mp hmem
            have hix : ix = id1 := filter_nil _ _ hfe ix hsym
            have hxx := (hInv.p2id_sound x ix hx).2.2
            rw [hix] at hxx
            exact hnm (Or.inr ⟨(hi1p.symm.trans hxx).symm, hye⟩)
          have hnc1y : ¬ (b1 = true ∧ y = p1) := by
            rintro ⟨hb, hye⟩
            have hy' := hy
            rw [hye, hl1] at hy'
            injection hy' with h0
            have hfe : (g.adjacency.getD id1 []).filter
                (fun x => !decide (x = id0)) = [] := by
              rw [← adj_id1]
              exact (hb1.mp hb).1
            have hsym : ix ∈ g.adjacency.getD id1 [] := by
              rw [h0]
              exact (hInv.adj_symm ix iy).mp hmem
            have hix : ix = id0 := filter_nil _ _ hfe ix hsym
            have hxx := (hInv.p2id_sound x ix hx).2.2
            rw [hix] at hxx
            exact hnm (Or.inl ⟨(hi0p.symm.trans hxx).symm, hye⟩)
          have hx' : lookupA g'.p2id x = some ix := by
            rw [p2id_view, if_neg hnc0x, if_neg hnc1x]
            exact hx
          have hy' : lookupA g'.p2id y = some iy := by
            rw [p2id_view, if_neg hnc0y, if_neg hnc1y]
            exact hy
          unfold Graph.contains_edge
          rw [hx', hy']
          apply contains_mem.mpr
          apply (memA ix iy).mpr
          refine ⟨hmem, ?_⟩
          rintro (⟨hix, hiy⟩ | ⟨hix, hiy⟩)
          · have hxx := (hInv.p2id_sound x ix hx).2.2
            rw [hix] at hxx
            have hyy := (hInv.p2id_sound y iy hy).2.2
            rw [hiy] at hyy
            exact hnm (Or.inl ⟨(hi0p.symm.trans hxx).symm, (hi1p.symm.trans hyy).symm⟩)
          · have hxx := (hInv.p2id_sound x ix hx).2.2
            rw [hix] at hxx
            have hyy := (hInv.p2id_sound y iy hy).2.2
            rw [hiy] at hyy
            exact hnm (Or.inr ⟨(hi1p.symm.trans hxx).symm, (hi0p.symm.trans hyy).symm⟩)

theorem getD_lt_irrel {α : Type} (l : List α) (i : Nat) (d1 d2 : α)
    (h : i < l.length) : l.getD i d1 = l.getD i d2 := by
  rw [List.getD_eq_getElem?_getD, List.getD_eq_getElem?_getD,
    List.getElem?_eq_getElem h]
  rfl

theorem isEmpty_iff_nil (l : List Nat) : l.isEmpty = true ↔ l = [] := by
  cases l <;> simp

theorem remove_if_unused_eval_pos (s : PeerId) (sid : Nat) (m : List (PeerId × Nat))
    (ip : List PeerId) (u : List Bool) (un : List Nat) (A : List (List Nat)) (t : Nat)
    (id : Nat) (h : (A.getD id []).isEmpty = true ∧ id ≠ sid) :
    (Graph.mk s sid m ip u un A t).remove_if_unused id =
      Graph.mk s sid (eraseA m (ip.getD id s)) ip (u.set id false) (id :: un) A t := by
  unfold Graph.remove_if_unused
  rw [if_pos h]

theorem remove_if_unused_eval_neg (s : PeerId) (sid : Nat) (m : List (PeerId × Nat))
    (ip : List PeerId) (u : List Bool) (un : List Nat) (A : List (List Nat)) (t : Nat)
    (id : Nat) (h : ¬ ((A.getD id []).isEmpty = true ∧ id ≠ sid)) :
    (Graph.mk s sid m ip u un A t).remove_if_unused id =
      Graph.mk s sid m ip u un A t := by
  unfold Graph.remove_if_unused
  rw [if_neg h]

/-- The final `total_active_edges -= 1` of `Graph::remove_edge`. -/
def decTotal (g : Graph) : Graph :=
  { g with total_active_edges := g.total_active_edges - 1 }

theorem remove_edge_eval (g : Graph) (p0 p1 : PeerId) (id0 id1 : Nat)
    (hne : ¬ p0 = p1) (hc : g.contains_edge p0 p1 = true)
    (hl0 : lookupA g.p2id p0 = some id0) (hl1 : lookupA g.p2id p1 = some id1) :
    g.remove_edge p0 p1 = some (decTotal
      (((Graph.mk g.source g.source_id g.p2id g.id2p g.used g.unused
        ((g.adjacency.set id0
            ((g.adjacency.getD id0 []).filter (fun x => !decide (x = id1)))).set id1
          (((g.adjacency.set id0
              ((g.adjacency.getD id0 []).filter (fun x => !decide (x = id1)))).getD id1
              []).filter
            (fun x => !decide (x = id0))))
        g.total_active_edges).remove_if_unused id0).remove_if_unused id1)) := by
  have hg0 : g.get_id p0 = some (g, id0) := by
    unfold Graph.get_id
    rw [hl0]
  have hg1 : g.get_id p1 = some (g, id1) := by
    unfold Graph.get_id
    rw [hl1]
  unfold Graph.remove_edge
  rw [if_neg hne, if_pos hc]
  simp only [hg0, hg1, decTotal]

/-- `Graph.remove_edge` from an invariant state with distinct peers succeeds,
preserves the invariant and removes exactly the undirected edge `{p0, p1}`
from the contained-edge relation. -/
theorem remove_edge_spec (g : Graph) (p0 p1 : PeerId) (hInv : GraphInv g)
    (hne : p0 ≠ p1) :
    ∃ g', g.remove_edge p0 p1 = some g' ∧ GraphInv g' ∧ g'.source = g.source ∧
      (∀ x y, g'.contains_edge x y = true ↔
        (g.contains_edge x y = true ∧
          ¬ ((x = p0 ∧ y = p1) ∨ (x = p1 ∧ y = p0)))) := by
  by_cases hc : g.contains_edge p0 p1 = true
  · obtain ⟨id0, id1, hl0, hl1, hmem⟩ :
        ∃ i0 i1, lookupA g.p2id p0 = some i0 ∧ lookupA g.p2id p1 = some i1 ∧
          i1 ∈ g.adjacency.getD i0 [] := by
      unfold Graph.contains_edge at hc
      cases hx : lookupA g.p2id p0 with
      | none =>
        cases hy : lookupA g.p2id p1 <;> rw [hx, hy] at hc <;> simp at hc
      | some i0 =>
        cases hy : lookupA g.p2id p1 with
        | none =>
          rw [hx, hy] at hc
          simp at hc
        | some i1 =>
          rw [hx, hy] at hc
          exact ⟨i0, i1, rfl, rfl, contains_mem.mp hc⟩
    have hid01 : id0 ≠ id1 := by
      intro hcc
      rw [← hcc] at hmem
      exact hInv.adj_irrefl id0 hmem
    obtain ⟨hid0_lt, hu0g, hi0p⟩ := hInv.p2id_sound p0 id0 hl0
    obtain ⟨hid1_lt, hu1g, hi1p⟩ := hInv.p2id_sound p1 id1 hl1
    have hlen_used : g.used.length = g.id2p.length := hInv.len_used
    have hlen_adj : g.adjacency.length = g.id2p.length := hInv.len_adj
    have hsrc_id : g.source_id = 0 := hInv.src_id
    have h0A : id0 < g.adjacency.length := by
      rw [hlen_adj]
      exact hid0_lt
    have h1A : id1 < g.adjacency.length := by
      rw [hlen_adj]
      exact hid1_lt
    have hK0 : g.id2p.getD id0 g.source = p0 := by
      rw [getD_lt_irrel g.id2p id0 g.source 0 hid0_lt]
      exact hi0p
    have hK1 : g.id2p.getD id1 g.source = p1 := by
      rw [getD_lt_irrel g.id2p id1 g.source 0 hid1_lt]
      exact hi1p
    have hid0_notun : id0 ∉ g.unused := by
      intro hmm
      have h' := (hInv.unused_mem id0 hmm).2.1
      rw [hu0g] at h'
      exact Bool.noConfusion h'
    have hid1_notun : id1 ∉ g.unused := by
      intro hmm
      have h' := (hInv.unused_mem id1 hmm).2.1
      rw [hu1g] at h'
      exact Bool.noConfusion h'
    have heval := remove_edge_eval g p0 p1 id0 id1 hne hc hl0 hl1
    set F0 := (g.adjacency.getD id0 []).filter (fun x => !decide (x = id1)) with hF0
    set A1 := g.adjacency.set id0 F0 with hA1
    set F1 := (A1.getD id1 []).filter (fun x => !decide (x = id0)) with hF1
    set A2 := A1.set id1 F1 with hA2
    have hA1_id1 : A1.getD id1 [] = g.adjacency.getD id1 [] := by
      rw [hA1]
      exact getD_set_ne g.adjacency id0 id1 F0 [] hid01
    have hF1' : F1 = (g.adjacency.getD id1 []).filter (fun x => !decide (x = id0)) := by
      rw [hF1, hA1_id1]
    have hA2_id0 : A2.getD id0 [] = F0 := by
      rw [hA2, getD_set_ne A1 id1 id0 F1 [] (fun h => hid01 h.symm), hA1,
        getD_set_self g.adjacency id0 F0 [] h0A]
    have hA2_id1 : A2.getD id1 [] = F1 := by
      rw [hA2]
      exact getD_set_self A1 id1 F1 [] (by rw [hA1, length_set_eq]; exact h1A)
    have hA2_other : ∀ j, j ≠ id0 → j ≠ id1 → A2.getD j [] = g.adjacency.getD j [] := by
      intro j hj0 hj1
      rw [hA2, getD_set_ne A1 id1 j F1 [] (fun h => hj1 h.symm), hA1,
        getD_set_ne g.adjacency id0 j F0 [] (fun h => hj0 h.symm)]
    have hA2_len : A2.length = g.adjacency.length := by
      rw [hA2, hA1, length_set_eq, length_set_eq]
    by_cases hcnd0 : (A2.getD id0 []).isEmpty = true ∧ id0 ≠ g.source_id
    · by_cases hcnd1 : (A2.getD id1 []).isEmpty = true ∧ id1 ≠ g.source_id
      · -- both slots released
        have hA20_nil : A2.getD id0 [] = [] := (isEmpty_iff_nil _).mp hcnd0.1
        have hA21_nil : A2.getD id1 [] = [] := (isEmpty_iff_nil _).mp hcnd1.1
        have hid0_0 : id0 ≠ 0 := by
          rw [← hsrc_id]
          exact hcnd0.2
        have hid1_0 : id1 ≠ 0 := by
          rw [← hsrc_id]
          exact hcnd1.2
        rw [remove_if_unused_eval_pos g.source g.source_id g.p2id g.id2p g.used g.unused
            A2 g.total_active_edges id0 hcnd0,
          remove_if_unused_eval_pos g.source g.source_id
            (eraseA g.p2id (g.id2p.getD id0 g.source)) g.id2p (g.used.set id0 false)
            (id0 :: g.unused) A2 g.total_active_edges id1 hcnd1] at heval
        obtain ⟨hInv', hchar⟩ := remove_edge_final g
          (decTotal (Graph.mk g.source g.source_id
            (eraseA (eraseA g.p2id (g.id2p.getD id0 g.source)) (g.id2p.getD id1 g.source))
            g.id2p ((g.used.set id0 false).set id1 false) (id1 :: id0 :: g.unused) A2
            g.total_active_edges))
          hInv p0 p1 id0 id1 true true hl0 hl1 hid01
          (by show A2.getD id0 [] = _
              rw [hA2_id0])
          (by show A2.getD id1 [] = _
              rw [hA2_id1]
              exact hF1')
          (by intro j hj0 hj1
              show A2.getD j [] = _
              exact hA2_other j hj0 hj1)
          (by show A2.length = _
              exact hA2_len)
          (by show ((g.used.set id0 false).set id1 false).length = _
              rw [length_set_eq, length_set_eq])
          rfl rfl rfl
          (iff_of_true rfl ⟨hA20_nil, hid0_0⟩)
          (iff_of_true rfl ⟨hA21_nil, hid1_0⟩)
          (by intro j
              show ((g.used.set id0 false).set id1 false).getD j false = _
              by_cases hj1 : j = id1
              · rw [hj1, getD_set_self (g.used.set id0 false) id1 false false
                    (by rw [length_set_eq, hlen_used]; exact hid1_lt),
                  if_neg (show ¬ (true = true ∧ id1 = id0) from fun h => hid01 h.2.symm),
                  if_pos (show true = true ∧ id1 = id1 from ⟨rfl, rfl⟩)]
              · rw [getD_set_ne (g.used.set id0 false) id1 j false false
                    (fun h => hj1 h.symm)]
                by_cases hj0 : j = id0
                · rw [hj0, getD_set_self g.used id0 false false
                      (by rw [hlen_used]; exact hid0_lt),
                    if_pos (show true = true ∧ id0 = id0 from ⟨rfl, rfl⟩)]
                · rw [getD_set_ne g.used id0 j false false (fun h => hj0 h.symm),
                    if_neg (show ¬ (true = true ∧ j = id0) from fun h => hj0 h.2),
                    if_neg (show ¬ (true = true ∧ j = id1) from fun h => hj1 h.2)])
          (by intro j
              show j ∈ id1 :: id0 :: g.unused ↔ _
              constructor
              · intro hmm
                rcases List.mem_cons.mp hmm with h | hmm2
                · exact Or.inr (Or.inr ⟨rfl, h⟩)
                · rcases List.mem_cons.mp hmm2 with h | h
                  · exact Or.inr (Or.inl ⟨rfl, h⟩)
                  · exact Or.inl h
              · rintro (h | h | h)
                · exact List.mem_cons.mpr (Or.inr (List.mem_cons.mpr (Or.inr h)))
                · exact List.mem_cons.mpr (Or.inr (List.mem_cons.mpr (Or.inl h.2)))
                · exact List.mem_cons.mpr (Or.inl h.2))
          (by show (id1 :: id0 :: g.unused).Nodup
              refine List.nodup_cons.mpr
                ⟨?_, List.nodup_cons.mpr ⟨hid0_notun, hInv.unused_nodup⟩⟩
              intro hmm
              rcases List.mem_cons.mp hmm with h | h
              · exact hid01 h.symm
              · exact hid1_notun h)
          (by intro p
              show lookupA (eraseA (eraseA g.p2id (g.id2p.getD id0 g.source))
                (g.id2p.getD id1 g.source)) p = _
              rw [hK0, hK1, lookupA_eraseA, lookupA_eraseA]
              by_cases hp0 : p = p0 <;> by_cases hp1 : p = p1
              · exact absurd (hp0.symm.trans hp1) hne
              · rw [if_neg (show ¬ p1 = p from fun h => hp1 h.symm),
                  if_pos (show p0 = p from hp0.symm),
                  if_pos (show true = true ∧ p = p0 from ⟨rfl, hp0⟩)]
              · rw [if_pos (show p1 = p from hp1.symm),
                  if_neg (show ¬ (true = true ∧ p = p0) from fun h => hp0 h.2),
                  if_pos (show true = true ∧ p = p1 from ⟨rfl, hp1⟩)]
              · rw [if_neg (show ¬ p1 = p from fun h => hp1 h.symm),
                  if_neg (show ¬ p0 = p from fun h => hp0 h.symm),
                  if_neg (show ¬ (true = true ∧ p = p0) from fun h => hp0 h.2),
                  if_neg (show ¬ (true = true ∧ p = p1) from fun h => hp1 h.2)])
        exact ⟨_, heval, hInv', rfl, hchar⟩
      · -- slot of p0 released, slot of p1 kept
        have hA20_nil : A2.getD id0 [] = [] := (isEmpty_iff_nil _).mp hcnd0.1
        have hid0_0 : id0 ≠ 0 := by
          rw [← hsrc_id]
          exact hcnd0.2
        have hnb1 : ¬ (A2.getD id1 [] = [] ∧ id1 ≠ 0) := by
          rintro ⟨h1, h2⟩
          refine hcnd1 ⟨(isEmpty_iff_nil _).mpr h1, ?_⟩
          rw [hsrc_id]
          exact h2
        rw [remove_if_unused_eval_pos g.source g.source_id g.p2id g.id2p g.used g.unused
            A2 g.total_active_edges id0 hcnd0,
          remove_if_unused_eval_neg g.source g.source_id
            (eraseA g.p2id (g.id2p.getD id0 g.source)) g.id2p (g.used.set id0 false)
            (id0 :: g.unused) A2 g.total_active_edges id1 hcnd1] at heval
        obtain ⟨hInv', hchar⟩ := remove_edge_final g
          (decTotal (Graph.mk g.source g.source_id
            (eraseA g.p2id (g.id2p.getD id0 g.source))
            g.id2p (g.used.set id0 false) (id0 :: g.unused) A2 g.total_active_edges))
          hInv p0 p1 id0 id1 true false hl0 hl1 hid01
          (by show A2.getD id0 [] = _
              rw [hA2_id0])
          (by show A2.getD id1 [] = _
              rw [hA2_id1]
              exact hF1')
          (by intro j hj0 hj1
              show A2.getD j [] = _
              exact hA2_other j hj0 hj1)
          (by show A2.length = _
              exact hA2_len)
          (by show (g.used.set id0 false).length = _
              rw [length_set_eq])
          rfl rfl rfl
          (iff_of_true rfl ⟨hA20_nil, hid0_0⟩)
          (iff_of_false (by decide) hnb1)
          (by intro j
              show (g.used.set id0 false).getD j false = _
              by_cases hj0 : j = id0
              · rw [hj0, getD_set_self g.used id0 false false
                    (by rw [hlen_used]; exact hid0_lt),
                  if_pos (show true = true ∧ id0 = id0 from ⟨rfl, rfl⟩)]
              · rw [getD_set_ne g.used id0 j false false (fun h => hj0 h.symm),
                  if_neg (show ¬ (true = true ∧ j = id0) from fun h => hj0 h.2),
                  if_neg (show ¬ (false = true ∧ j = id1) from
                    fun h => Bool.noConfusion h.1)])
          (by intro j
              show j ∈ id0 :: g.unused ↔ _
              constructor
              · intro hmm
                rcases List.mem_cons.mp hmm with h | h
                · exact Or.inr (Or.inl ⟨rfl, h⟩)
                · exact Or.inl h
              · rintro (h | h | h)
                · exact List.mem_cons.mpr (Or.inr h)
                · exact List.mem_cons.mpr (Or.inl h.2)
                · exact absurd h.1 (by decide))
          (by show (id0 :: g.unused).Nodup
              exact List.nodup_cons.mpr ⟨hid0_notun, hInv.unused_nodup⟩)
          (by intro p
              show lookupA (eraseA g.p2id (g.id2p.getD id0 g.source)) p = _
              rw [hK0, lookupA_eraseA]
              by_cases hp0 : p = p0
              · rw [if_pos (show p0 = p from hp0.symm),
                  if_pos (show true = true ∧ p = p0 from ⟨rfl, hp0⟩)]
              · rw [if_neg (show ¬ p0 = p from fun h => hp0 h.symm),
                  if_neg (show ¬ (true = true ∧ p = p0) from fun h => hp0 h.2),
                  if_neg (show ¬ (false = true ∧ p = p1) from
                    fun h => Bool.noConfusion h.1)])
        exact ⟨_, heval, hInv', rfl, hchar⟩
    · by_cases hcnd1 : (A2.getD id1 []).isEmpty = true ∧ id1 ≠ g.source_id
      · -- slot of p0 kept, slot of p1 released
        have hA21_nil : A2.getD id1 [] = [] := (isEmpty_iff_nil _).mp hcnd1.1
        have hid1_0 : id1 ≠ 0 := by
          rw [← hsrc_id]
          exact hcnd1.2
        have hnb0 : ¬ (A2.getD id0 [] = [] ∧ id0 ≠ 0) := by
          rintro ⟨h1, h2⟩
          refine hcnd0 ⟨(isEmpty_iff_nil _).mpr h1, ?_⟩
          rw [hsrc_id]
          exact h2
        rw [remove_if_unused_eval_neg g.source g.source_id g.p2id g.id2p g.used g.unused
            A2 g.total_active_edges id0 hcnd0,
          remove_if_unused_eval_pos g.source g.source_id g.p2id g.id2p g.used g.unused
            A2 g.total_active_edges id1 hcnd1] at heval
        obtain ⟨hInv', hchar⟩ := remove_edge_final g
          (decTotal (Graph.mk g.source g.source_id
            (eraseA g.p2id (g.id2p.getD id1 g.source))
            g.id2p (g.used.set id1 false) (id1 :: g.unused) A2 g.total_active_edges))
          hInv p0 p1 id0 id1 false true hl0 hl1 hid01
          (by show A2.getD id0 [] = _
              rw [hA2_id0])
          (by show A2.getD id1 [] = _
              rw [hA2_id1]
              exact hF1')
          (by intro j hj0 hj1
              show A2.getD j [] = _
              exact hA2_other j hj0 hj1)
          (by show A2.length = _
              exact hA2_len)
          (by show (g.used.set id1 false).length = _
              rw [length_set_eq])
          rfl rfl rfl
          (iff_of_false (by decide) hnb0)
          (iff_of_true rfl ⟨hA21_nil, hid1_0⟩)
          (by intro j
              show (g.used.set id1 false).getD j false = _
              by_cases hj1 : j = id1
              · rw [hj1, getD_set_self g.used id1 false false
                    (by rw [hlen_used]; exact hid1_lt),
                  if_neg (show ¬ (false = true ∧ id1 = id0) from
                    fun h => Bool.noConfusion h.1),
                  if_pos (show true = true ∧ id1 = id1 from ⟨rfl, rfl⟩)]
              · rw [getD_set_ne g.used id1 j false false (fun h => hj1 h.symm),
                  if_neg (show ¬ (false = true ∧ j = id0) from
                    fun h => Bool.noConfusion h.1),
                  if_neg (show ¬ (true = true ∧ j = id1) from fun h => hj1 h.2)])
          (by intro j
              show j ∈ id1 :: g.unused ↔ _
              constructor
              · intro hmm
                rcases List.mem_cons.mp hmm with h | h
                · exact Or.inr (Or.inr ⟨rfl, h⟩)
                · exact Or.inl h
              · rintro (h | h | h)
                · exact List.mem_cons.mpr (Or.inr h)
                · exact absurd h.1 (by decide)
                · exact List.mem_cons.mpr (Or.inl h.2))
          (by show (id1 :: g.unused).Nodup
              exact List.nodup_cons.mpr ⟨hid1_notun, hInv.unused_nodup⟩)
          (by intro p
              show lookupA (eraseA g.p2id (g.id2p.getD id1 g.source)) p = _
              rw [hK1, lookupA_eraseA]
              by_cases hp1 : p = p1
              · rw [if_pos (show p1 = p from hp1.symm),
                  if_neg (show ¬ (false = true ∧ p = p0) from
                    fun h => Bool.noConfusion h.1),
                  if_pos (show true = true ∧ p = p1 from ⟨rfl, hp1⟩)]
              · rw [if_neg (show ¬ p1 = p from fun h => hp1 h.symm),
                  if_neg (show ¬ (false = true ∧ p = p0) from
                    fun h => Bool.noConfusion h.1),
                  if_neg (show ¬ (true = true ∧ p = p1) from fun h => hp1 h.2)])
        exact ⟨_, heval, hInv', rfl, hchar⟩
      · -- both slots kept
        have hnb0 : ¬ (A2.getD id0 [] = [] ∧ id0 ≠ 0) := by
          rintro ⟨h1, h2⟩
          refine hcnd0 ⟨(isEmpty_iff_nil _).mpr h1, ?_⟩
          rw [hsrc_id]
          exact h2
        have hnb1 : ¬ (A2.getD id1 [] = [] ∧ id1 ≠ 0) := by
          rintro ⟨h1, h2⟩
          refine hcnd1 ⟨(isEmpty_iff_nil _).mpr h1, ?_⟩
          rw [hsrc_id]
          exact h2
        rw [remove_if_unused_eval_neg g.source g.source_id g.p2id g.id2p g.used g.unused
            A2 g.total_active_edges id0 hcnd0,
          remove_if_unused_eval_neg g.source g.source_id g.p2id g.id2p g.used g.unused
            A2 g.total_active_edges id1 hcnd1] at heval
        obtain ⟨hInv', hchar⟩ := remove_edge_final g
          (decTotal (Graph.mk g.source g.source_id g.p2id g.id2p g.used g.unused A2
            g.total_active_edges))
          hInv p0 p1 id0 id1 false false hl0 hl1 hid01
          (by show A2.getD id0 [] = _
              rw [hA2_id0])
          (by show A2.getD id1 [] = _
              rw [hA2_id1]
              exact hF1')
          (by intro j hj0 hj1
              show A2.getD j [] = _
              exact hA2_other j hj0 hj1)
          (by show A2.length = _
              exact hA2_len)
          rfl rfl rfl rfl
          (iff_of_false (by decide) hnb0)
          (iff_of_false (by decide) hnb1)
          (by intro j
              show g.used.getD j false = _
              rw [if_neg (show ¬ (false = true ∧ j = id0) from
                  fun h => Bool.noConfusion h.1),
                if_neg (show ¬ (false = true ∧ j = id1) from
                  fun h => Bool.noConfusion h.1)])
          (by intro j
              show j ∈ g.unused ↔ _
              constructor
              · exact fun h => Or.inl h
              · rintro (h | h | h)
                · exact h
                · exact absurd h.1 (by decide)
                · exact absurd h.1 (by decide))
          hInv.unused_nodup
          (by intro p
              show lookupA g.p2id p = _
              rw [if_neg (show ¬ (false = true ∧ p = p0) from
                  fun h => Bool.noConfusion h.1),
                if_neg (show ¬ (false = true ∧ p = p1) from
                  fun h => Bool.noConfusion h.1)])
        exact ⟨_, heval, hInv', rfl, hchar⟩
  · refine ⟨g, ?_, hInv, rfl, ?_⟩
    · unfold Graph.remove_edge
      rw [if_neg hne, if_neg hc]
    · intro x y
      constructor
      · intro h
        refine ⟨h, ?_⟩
        rintro (⟨hx, hy⟩ | ⟨hx, hy⟩)
        · rw [hx, hy] at h
          exact hc h
        · rw [hx, hy] at h
          rw [contains_edge_symm hInv.toGraphInvCore p1 p0] at h
          exact hc h
      · exact fun h => h.1

/-! ### Claim C6: invariants of arbitrary add/remove sequences -/

/-- A call to `Graph::add_edge` or `Graph::remove_edge`. -/
inductive GraphOp where
  | add (p0 p1 : PeerId)
  | rem (p0 p1 : PeerId)
deriving DecidableEq, Repr

def applyOp (g : Graph) : GraphOp → Option Graph
  | .add p0 p1 => g.add_edge p0 p1
  | .rem p0 p1 => g.remove_edge p0 p1

/-- Run a sequence of graph operations; `none` if any call panics. -/
def runGraphOps (g : Graph) : List GraphOp → Option Graph
  | [] => some g
  | op :: rest =>
    match applyOp g op with
    | none => none
    | some g2 => runGraphOps g2 rest

theorem runGraphOps_inv (ops : List GraphOp) :
    ∀ g, GraphInv g → ∀ g', runGraphOps g ops = some g' → GraphInv g' := by
  induction ops with
  | nil =>
    intro g hInv g' h
    unfold runGraphOps at h
    injection h with h2
    rw [← h2]
    exact hInv
  | cons op rest ih =>
    intro g hInv g' h
    unfold runGraphOps at h
    cases happ : applyOp g op with
    | none =>
      rw [happ] at h
      exact Option.noConfusion h
    | some g2 =>
      rw [happ] at h
      have hInv2 : GraphInv g2 := by
        cases op with
        | add p0 p1 =>
          by_cases hpq : p0 = p1
          · rw [hpq] at happ
            simp [applyOp, Graph.add_edge] at happ
          · obtain ⟨g3, heq, hInv3, _, _⟩ := add_edge_spec g p0 p1 hInv hpq
            have happ' : g.add_edge p0 p1 = some g2 := happ
            rw [heq] at happ'
            injection happ' with h2
            rw [← h2]
            exact hInv3
        | rem p0 p1 =>
          by_cases hpq : p0 = p1
          · rw [hpq] at happ
            simp [applyOp, Graph.remove_edge] at happ
          · obtain ⟨g3, heq, hInv3, _, _⟩ := remove_edge_spec g p0 p1 hInv hpq
            have happ' : g.remove_edge p0 p1 = some g2 := happ
            rw [heq] at happ'
            injection happ' with h2
            rw [← h2]
            exact hInv3
      exact ih g2 hInv2 g' h

/-- C6.  After any successful sequence of `Graph::add_edge` /
`Graph::remove_edge` calls from a fresh graph: adjacency is symmetric; the
source slot is used; a slot is used iff `p2id` maps its `id2p` peer back to
that slot; and every non-source slot with an empty adjacency list sits on
the free list and is not the target of any `p2id` binding.  The spec's
phrasing "used[i] iff p2id contains id2p[i]" is weaker and false: after
slot reuse a freed slot's stale `id2p` entry can equal a live peer that is
a `p2id` key bound to a different slot (see the counterexample). -/
theorem C6_graph_invariants (source : PeerId) (ops : List GraphOp) (g : Graph)
    (h : runGraphOps (Graph.new source) ops = some g) :
    (∀ i j, j ∈ g.adjacency.getD i [] ↔ i ∈ g.adjacency.getD j []) ∧
    g.used.getD g.source_id false = true ∧
    (∀ i, i < g.id2p.length →
      (g.used.getD i false = true ↔ lookupA g.p2id (g.id2p.getD i 0) = some i)) ∧
    (∀ i, i < g.id2p.length → i ≠ g.source_id → g.adjacency.getD i [] = [] →
      i ∈ g.unused ∧ ∀ p, lookupA g.p2id p ≠ some i) := by
  have hInv : GraphInv g := runGraphOps_inv ops (Graph.new source) (graphInv_new source) g h
  refine ⟨hInv.adj_symm, ?_, ?_, ?_⟩
  · rw [hInv.src_id]
    exact hInv.src_used
  · intro i hi
    constructor
    · exact hInv.used_p2id i hi
    · intro hl
      exact (hInv.p2id_sound (g.id2p.getD i 0) i hl).2.1
  · intro i hi hisrc hadj
    have hi0 : i ≠ 0 := by
      rw [← hInv.src_id]
      exact hisrc
    have hused : g.used.getD i false = false := by
      cases hu : g.used.getD i false with
      | false => rfl
      | true => exact absurd hadj (hInv.used_nonempty i hi hu hi0)
    refine ⟨hInv.unused_complete i hi hused, ?_⟩
    intro p hl
    have := (hInv.p2id_sound p i hl).2.1
    rw [hused] at this
    exact Bool.noConfusion this

theorem C6_witness :
    runGraphOps (Graph.new 0) [GraphOp.add 1 2] =
      some (Graph.mk 0 0 [(2, 2), (1, 1), (0, 0)] [0, 1, 2] [true, true, true] []
        [[], [2], [1]] 1) ∧
    ((∀ i j, j ∈ (Graph.mk 0 0 [(2, 2), (1, 1), (0, 0)] [0, 1, 2]
          [true, true, true] [] [[], [2], [1]] 1).adjacency.getD i [] ↔
        i ∈ (Graph.mk 0 0 [(2, 2), (1, 1), (0, 0)] [0, 1, 2]
          [true, true, true] [] [[], [2], [1]] 1).adjacency.getD j []) ∧
      (Graph.mk 0 0 [(2, 2), (1, 1), (0, 0)] [0, 1, 2] [true, true, true] []
        [[], [2], [1]] 1).used.getD
        (Graph.mk 0 0 [(2, 2), (1, 1), (0, 0)] [0, 1, 2] [true, true, true] []
          [[], [2], [1]] 1).source_id false = true ∧
      (∀ i, i < (Graph.mk 0 0 [(2, 2), (1, 1), (0, 0)] [0, 1, 2]
          [true, true, true] [] [[], [2], [1]] 1).id2p.length →
        ((Graph.mk 0 0 [(2, 2), (1, 1), (0, 0)] [0, 1, 2] [true, true, true] []
            [[], [2], [1]] 1).used.getD i false = true ↔
          lookupA (Graph.mk 0 0 [(2, 2), (1, 1), (0, 0)] [0, 1, 2]
              [true, true, true] [] [[], [2], [1]] 1).p2id
            ((Graph.mk 0 0 [(2, 2), (1, 1), (0, 0)] [0, 1, 2] [true, true, true] []
              [[], [2], [1]] 1).id2p.getD i 0) = some i)) ∧
      (∀ i, i < (Graph.mk 0 0 [(2, 2), (1, 1), (0, 0)] [0, 1, 2]
          [true, true, true] [] [[], [2], [1]] 1).id2p.length →
        i ≠ (Graph.mk 0 0 [(2, 2), (1, 1), (0, 0)] [0, 1, 2] [true, true, true] []
          [[], [2], [1]] 1).source_id →
        (Graph.mk 0 0 [(2, 2), (1, 1), (0, 0)] [0, 1, 2] [true, true, true] []
          [[], [2], [1]] 1).adjacency.getD i [] = [] →
        i ∈ (Graph.mk 0 0 [(2, 2), (1, 1), (0, 0)] [0, 1, 2] [true, true, true] []
          [[], [2], [1]] 1).unused ∧
        ∀ p, lookupA (Graph.mk 0 0 [(2, 2), (1, 1), (0, 0)] [0, 1, 2]
          [true, true, true] [] [[], [2], [1]] 1).p2id p ≠ some i)) :=
  ⟨by decide,
    C6_graph_invariants 0 [GraphOp.add 1 2]
      (Graph.mk 0 0 [(2, 2), (1, 1), (0, 0)] [0, 1, 2] [true, true, true] []
        [[], [2], [1]] 1) (by decide)⟩

/-- After `add 1 2, add 3 4, rem 1 2, rem 3 4, add 1 5`, peer 1 is re-added
into the freed slot 4, so the freed slot 1 is unused while its stale
`id2p` entry (peer 1) is a `p2id` key: the spec's biconditional
"used[i] iff p2id contains id2p[i]" fails right-to-left. -/
theorem C6_counterexample :
    ∃ g, runGraphOps (Graph.new 0)
        [GraphOp.add 1 2, GraphOp.add 3 4, GraphOp.rem 1 2, GraphOp.rem 3 4,
          GraphOp.add 1 5] = some g ∧
      1 < g.id2p.length ∧ g.used.getD 1 false = false ∧
      (lookupA g.p2id (g.id2p.getD 1 0)).isSome = true :=
  ⟨_, rfl, by decide, by decide, by decide⟩

/-! ### `Graph::calculate_distance` (BFS with first-hop route bitsets) -/

/-- Initial loop of `calculate_distance`: enqueue the first `MAX_NUM_PEERS`
source neighbors with distance 1 and a singleton routes bit.  `u128` bit
operations are modelled on `Nat`: the shift index is capped below 128 by the
`take MAX_NUM_PEERS`, so no 128-bit overflow is dropped. -/
def initLoop : List Nat → Nat → List Nat × List Int × List Nat →
    List Nat × List Int × List Nat
  | [], _, st => st
  | neighbor :: rest, id, (queue, distance, routes) =>
    initLoop rest (id + 1)
      (queue ++ [neighbor], distance.set neighbor 1,
        routes.set neighbor (Nat.shiftLeft 1 id))

/-- Inner `for` loop of the BFS: relax every neighbor of `cur`. -/
def bfsInner (cur : Nat) (cur_distance : Int) :
    List Nat → List Int × List Nat × List Nat → List Int × List Nat × List Nat
  | [], st => st
  | neighbor :: rest, (distance, routes, queue) =>
    let d0 := distance.getD neighbor (-1)
    let distance1 := if d0 = -1 then distance.set neighbor (cur_distance + 1) else distance
    let queue1 := if d0 = -1 then queue ++ [neighbor] else queue
    let routes1 :=
      if distance1.getD neighbor (-1) = cur_distance + 1 then
        routes.set neighbor (Nat.lor (routes.getD neighbor 0) (routes.getD cur 0))
      else routes
    bfsInner cur cur_distance rest (distance1, routes1, queue1)

/-- The BFS `while let Some(cur_peer) = queue.pop_front()` loop, with explicit
fuel.  Every pop either empties the queue or processes one node; the caller
passes fuel exceeding the total number of possible pops. -/
def bfsLoop (adjacency : List (List Nat)) :
    Nat → List Nat → List Int → List Nat → List Int × List Nat
  | 0, _, distance, routes => (distance, routes)
  | _ + 1, [], distance, routes => (distance, routes)
  | fuel + 1, cur :: rest, distance, routes =>
    let cur_distance := distance.getD cur (-1)
    match bfsInner cur cur_distance (adjacency.getD cur []) (distance, routes, rest) with
    | (distance2, routes2, queue2) => bfsLoop adjacency fuel queue2 distance2 routes2

/-- Bit-test loop of `compute_result`: collect the peers of the source
neighbors whose bit is set in `cur_route`. -/
def bitsLoop (id2p : List PeerId) : List Nat → Nat → Nat → List PeerId
  | [], _, _ => []
  | neighbor :: rest, id, cur_route =>
    if Nat.land cur_route (Nat.shiftLeft 1 id) ≠ 0 then
      id2p.getD neighbor 0 :: bitsLoop id2p rest (id + 1) cur_route
    else bitsLoop id2p rest (id + 1) cur_route

/-- Main loop of `compute_result` over the enumerated `routes` vector. -/
def resultLoop (g : Graph) (neighbors : List Nat) (distance : List Int) :
    List Nat → Nat → List (PeerId × List PeerId) → List (PeerId × List PeerId)
  | [], _, res => res
  | cur_route :: rest, key, res =>
    if key = g.source_id ∨ distance.getD key (-1) = -1 ∨ cur_route = 0 ∨
        g.used.getD key false = false then
      resultLoop g neighbors distance rest (key + 1) res
    else
      resultLoop g neighbors distance rest (key + 1)
        (insertA res (g.id2p.getD key 0) (bitsLoop g.id2p neighbors 0 cur_route))

/-- `Graph::compute_result`. -/
def Graph.compute_result (g : Graph) (routes : List Nat) (distance : List Int) :
    List (PeerId × List PeerId) :=
  let neighbors := (g.adjacency.getD g.source_id []).take MAX_NUM_PEERS
  resultLoop g neighbors distance routes 0 []

/-- `Graph::calculate_distance`.  The fuel `2 * nodes + 1` dominates the
number of loop iterations: each iteration pops one node, and the sum of
queue length and undiscovered-node count decreases by one per pop. -/
def Graph.calculate_distance (g : Graph) : List (PeerId × List PeerId) :=
  let nodes := g.id2p.length
  let distance0 := (List.replicate nodes (-1 : Int)).set g.source_id 0
  let routes0 := List.replicate nodes (0 : Nat)
  match initLoop ((g.adjacency.getD g.source_id []).take MAX_NUM_PEERS) 0
      ([], distance0, routes0) with
  | (queue1, distance1, routes1) =>
    match bfsLoop g.adjacency (2 * nodes + 1) queue1 distance1 routes1 with
    | (distance2, routes2) => g.compute_result routes2 distance2

/-! ### `RoutingTableActor` (routing_table_actor.rs).  The store is the three
columns the actor reads and writes; `chrono::Utc::now()` is an explicit
`now : Int` argument (seconds); `StoreUpdate` batches are modelled by
applying the batched deletes at the commit point while reads during the
loop go to the committed store, exactly as in the code. -/

def SAVE_PEERS_MAX_TIME : Nat := 7200

structure Store where
  lastComponentNonce : Option Nat
  peerComponent : List (PeerId × Nat)
  componentEdges : List (Nat × List Edge)
deriving DecidableEq, Repr

def emptyStore : Store := ⟨none, [], []⟩

structure RoutingTableActor where
  edges_info : List ((PeerId × PeerId) × Edge)
  raw_graph : Graph
  peer_forwarding : List (PeerId × List PeerId)
  peer_last_time_reachable : List (PeerId × Int)
  store : Store
  component_nonce : Nat
deriving DecidableEq, Repr

namespace RoutingTableActor

/-- `RoutingTableActor::new`. -/
def new (peer_id : PeerId) (store : Store) : RoutingTableActor :=
  { edges_info := []
    raw_graph := Graph.new peer_id
    peer_forwarding := []
    peer_last_time_reachable := []
    store := store
    component_nonce :=
      match store.lastComponentNonce with
      | none => 0
      | some nonce => nonce + 1 }

/-- `RoutingTableActor::find_nonce`. -/
def find_nonce (rta : RoutingTableActor) (key : PeerId × PeerId) : Nat :=
  match lookupA rta.edges_info key with
  | none => 0
  | some e => e.nonce

/-- `RoutingTableActor::add_edge`: `none` is a panic of the inner graph
call; the `Bool` is the return value (`true` = accepted). -/
def add_edge (rta : RoutingTableActor) (edge : Edge) :
    Option (RoutingTableActor × Bool) :=
  let key := edge.get_pair
  if edge.nonce ≤ rta.find_nonce key then
    some (rta, false)
  else
    match edge.edge_type with
    | .Added =>
      match rta.raw_graph.add_edge key.1 key.2 with
      | none => none
      | some g2 =>
        some ({ rta with
          raw_graph := g2
          edges_info := insertA rta.edges_info key edge }, true)
    | .Removed =>
      match rta.raw_graph.remove_edge key.1 key.2 with
      | none => none
      | some g2 =>
        some ({ rta with
          raw_graph := g2
          edges_info := insertA rta.edges_info key edge }, true)

end RoutingTableActor

/-- Per-endpoint body of the inner loop of `RoutingTableActor::touch`:
re-tracks an endpoint of a loaded component edge and schedules the delete of
its `PeerComponent` entry. -/
def touchPeerStep (me : PeerId) (nonce : Nat) (now : Int)
    (st : RoutingTableActor × List PeerId) (p : PeerId) :
    RoutingTableActor × List PeerId :=
  if p = me ∨ (lookupA st.1.peer_last_time_reachable p).isSome then st
  else
    match lookupA st.1.store.peerComponent p with
    | some cur_nonce =>
      if cur_nonce = nonce then
        ({ st.1 with
            peer_last_time_reachable :=
              insertA st.1.peer_last_time_reachable p
                (now - (SAVE_PEERS_MAX_TIME : Int)) },
          st.2 ++ [p])
      else st
    | none => st

/-- Edge loop of `RoutingTableActor::touch`: for each loaded edge, re-track
both endpoints and re-ingest the edge through the normal add path. -/
def touchLoop (me : PeerId) (nonce : Nat) (now : Int) :
    List Edge → RoutingTableActor → List PeerId →
    Option (RoutingTableActor × List PeerId)
  | [], rta, dels => some (rta, dels)
  | edge :: rest, rta, dels =>
    let st1 := touchPeerStep me nonce now
      (touchPeerStep me nonce now (rta, dels) edge.peer0) edge.peer1
    match st1.1.add_edge edge with
    | none => none
    | some (rta2, _) => touchLoop me nonce now rest rta2 st1.2

namespace RoutingTableActor

/-- `RoutingTableActor::touch`. -/
def touch (rta : RoutingTableActor) (peer_id : PeerId) (now : Int) :
    Option RoutingTableActor :=
  if peer_id = rta.raw_graph.source ∨
      (lookupA rta.peer_last_time_reachable peer_id).isSome then
    some rta
  else
    match lookupA rta.store.peerComponent peer_id with
    | some nonce =>
      match lookupA rta.store.componentEdges nonce with
      | some edges =>
        match touchLoop rta.raw_graph.source nonce now edges rta [] with
        | none => none
        | some (rta1, dels) =>
          some { rta1 with store :=
            { lastComponentNonce := rta1.store.lastComponentNonce
              peerComponent := dels.foldl (fun m p => eraseA m p)
                rta1.store.peerComponent
              componentEdges := eraseA rta1.store.componentEdges nonce } }
      | none =>
        some { rta with store :=
          { rta.store with componentEdges := eraseA rta.store.componentEdges nonce } }
    | none =>
      some { rta with
        peer_last_time_reachable := insertA rta.peer_last_time_reachable peer_id now }

end RoutingTableActor

/-- The `for edge in edges` loop of `RoutingTableActor::process_edges`. -/
def processLoop (now : Int) :
    List Edge → RoutingTableActor → Bool → List Edge →
    Option (RoutingTableActor × Bool × List Edge)
  | [], rta, new_edge, result => some (rta, new_edge, result)
  | edge :: rest, rta, new_edge, result =>
    let key := edge.get_pair
    match rta.touch key.1 now with
    | none => none
    | some rta1 =>
      match rta1.touch key.2 now with
      | none => none
      | some rta2 =>
        match rta2.add_edge edge with
        | none => none
        | some (rta3, accepted) =>
          if accepted then processLoop now rest rta3 true (result ++ [edge])
          else processLoop now rest rta3 new_edge result

namespace RoutingTableActor

/-- `RoutingTableActor::process_edges`: returns the final state, the
`new_edge` flag and the accepted edges. -/
def process_edges (rta : RoutingTableActor) (edges : List Edge) (now : Int) :
    Option (RoutingTableActor × Bool × List Edge) :=
  processLoop now edges rta false []

/-- `RoutingTableActor::remove_edge`. -/
def remove_edge (rta : RoutingTableActor) (edge : Edge) :
    Option RoutingTableActor :=
  let key := (edge.peer0, edge.peer1)
  match lookupA rta.edges_info key with
  | some _ =>
    match rta.raw_graph.remove_edge edge.peer0 edge.peer1 with
    | none => none
    | some g2 =>
      some { rta with
        edges_info := eraseA rta.edges_info key
        raw_graph := g2 }
  | none => some rta

end RoutingTableActor

/-- The running minimum over `peer_last_time_reachable` folded inside the
`filter_map` of `try_save_edges`. -/
def oldestTime (m : List (PeerId × Int)) (now : Int) : Int :=
  m.foldl (fun acc kv => min acc kv.2) now

/-- The `to_save` set of `try_save_edges`: peers unreachable for at least
`timeout` seconds. -/
def staleKeys (m : List (PeerId × Int)) (timeout : Nat) (now : Int) : List PeerId :=
  (m.filter (fun kv => decide ((timeout : Int) ≤ now - kv.2))).map (fun kv => kv.1)

namespace RoutingTableActor

/-- `RoutingTableActor::try_save_edges`.  The iteration order of the Rust
`HashMap` is determinized to the association-list order. -/
def try_save_edges (rta : RoutingTableActor) (force_pruning : Bool)
    (timeout : Nat) (now : Int) : RoutingTableActor × List Edge :=
  if force_pruning = false ∧
      now - oldestTime rta.peer_last_time_reachable now < (SAVE_PEERS_MAX_TIME : Int) then
    (rta, [])
  else
    ({ rta with
        component_nonce := rta.component_nonce + 1
        peer_last_time_reachable := rta.peer_last_time_reachable.filter
          (fun kv =>
            !((staleKeys rta.peer_last_time_reachable timeout now).contains kv.1))
        edges_info := rta.edges_info.filter
          (fun kv =>
            !((staleKeys rta.peer_last_time_reachable timeout now).contains kv.1.1 ||
              (staleKeys rta.peer_last_time_reachable timeout now).contains kv.1.2))
        store :=
          { lastComponentNonce := some rta.component_nonce
            peerComponent := (staleKeys rta.peer_last_time_reachable timeout now).foldl
              (fun m p => insertA m p rta.component_nonce) rta.store.peerComponent
            componentEdges := insertA rta.store.componentEdges rta.component_nonce
              ((rta.edges_info.filter
                (fun kv =>
                  (staleKeys rta.peer_last_time_reachable timeout now).contains kv.1.1 ||
                  (staleKeys rta.peer_last_time_reachable timeout now).contains
                    kv.1.2)).map
                (fun kv => kv.2)) } },
      (rta.edges_info.filter
        (fun kv =>
          (staleKeys rta.peer_last_time_reachable timeout now).contains kv.1.1 ||
          (staleKeys rta.peer_last_time_reachable timeout now).contains kv.1.2)).map
        (fun kv => kv.2))

/-- `RoutingTableActor::update`. -/
def update (rta : RoutingTableActor)
    (can_save_edges force_pruning : Bool) (timeout : Nat) (now : Int) :
    RoutingTableActor × List Edge :=
  let pf := rta.raw_graph.calculate_distance
  let rta1 := { rta with
    peer_forwarding := pf
    peer_last_time_reachable := pf.foldl
      (fun m kv => insertA m kv.1 now) rta.peer_last_time_reachable }
  if can_save_edges then rta1.try_save_edges force_pruning timeout now
  else (rta1, [])

end RoutingTableActor

/-- One externally triggered actor operation. -/
inductive ActorOp where
  | process (edges : List Edge) (now : Int)
  | removeEdge (edge : Edge)
  | updateOp (can_save_edges force_pruning : Bool) (timeout : Nat) (now : Int)
  | touchOp (peer : PeerId) (now : Int)

def applyActorOp (rta : RoutingTableActor) : ActorOp → Option RoutingTableActor
  | .process edges now =>
    match rta.process_edges edges now with
    | none => none
    | some (rta1, _, _) => some rta1
  | .removeEdge edge => rta.remove_edge edge
  | .updateOp cs fp t now => some (rta.update cs fp t now).1
  | .touchOp p now => rta.touch p now

def runActor (rta : RoutingTableActor) : List ActorOp → Option RoutingTableActor
  | [] => some rta
  | op :: rest =>
    match applyActorOp rta op with
    | none => none
    | some rta1 => runActor rta1 rest

/-! ### Actor lemmas -/

theorem touch_clean (rta : RoutingTableActor) (p : PeerId) (now : Int)
    (h : rta.store.peerComponent = []) :
    ∃ l, rta.touch p now = some { rta with peer_last_time_reachable := l } := by
  unfold RoutingTableActor.touch
  by_cases hg : p = rta.raw_graph.source ∨
      (lookupA rta.peer_last_time_reachable p).isSome
  · refine ⟨rta.peer_last_time_reachable, ?_⟩
    rw [if_pos hg]
  · refine ⟨insertA rta.peer_last_time_reachable p now, ?_⟩
    rw [if_neg hg, h]
    rfl

theorem add_edge_eval_reject (rta : RoutingTableActor) (edge : Edge)
    (hn : edge.nonce ≤ rta.find_nonce edge.get_pair) :
    rta.add_edge edge = some (rta, false) := by
  unfold RoutingTableActor.add_edge
  rw [if_pos hn]

theorem add_edge_eval_accept (rta : RoutingTableActor) (edge : Edge)
    (hInv : GraphInv rta.raw_graph) (hne : edge.peer0 ≠ edge.peer1)
    (hn : rta.find_nonce edge.get_pair < edge.nonce) :
    ∃ g2, rta.add_edge edge =
        some ({ rta with
          raw_graph := g2
          edges_info := insertA rta.edges_info edge.get_pair edge }, true) ∧
      GraphInv g2 ∧ g2.source = rta.raw_graph.source ∧
      (∀ x y, g2.contains_edge x y = true ↔
        (if edge.edge_type = EdgeType.Added then
          (rta.raw_graph.contains_edge x y = true ∨
            (x = edge.peer0 ∧ y = edge.peer1) ∨ (x = edge.peer1 ∧ y = edge.peer0))
        else
          (rta.raw_graph.contains_edge x y = true ∧
            ¬ ((x = edge.peer0 ∧ y = edge.peer1) ∨
              (x = edge.peer1 ∧ y = edge.peer0))))) := by
  have hn' : ¬ edge.nonce ≤ rta.find_nonce (edge.peer0, edge.peer1) := Nat.not_le.mpr hn
  cases het : edge.edge_type with
  | Added =>
    obtain ⟨g2, heq, hInv2, hsrc, hchar⟩ :=
      add_edge_spec rta.raw_graph edge.peer0 edge.peer1 hInv hne
    refine ⟨g2, ?_, hInv2, hsrc, ?_⟩
    · simp [RoutingTableActor.add_edge, Edge.get_pair, hn', het, heq]
    · intro x y
      rw [if_pos rfl]
      exact hchar x y
  | Removed =>
    obtain ⟨g2, heq, hInv2, hsrc, hchar⟩ :=
      remove_edge_spec rta.raw_graph edge.peer0 edge.peer1 hInv hne
    refine ⟨g2, ?_, hInv2, hsrc, ?_⟩
    · simp [RoutingTableActor.add_edge, Edge.get_pair, hn', het, heq]
    · intro x y
      rw [if_neg (show ¬ (EdgeType.Removed = EdgeType.Added) from
        fun hx => EdgeType.noConfusion hx)]
      exact hchar x y

theorem processLoop_cons_accept (rta : RoutingTableActor) (e : Edge) (rest : List Edge)
    (now : Int) (b : Bool) (acc : List Edge)
    (hclean : rta.store.peerComponent = [])
    (hInv : GraphInv rta.raw_graph) (hne : e.peer0 ≠ e.peer1)
    (hn : rta.find_nonce e.get_pair < e.nonce) :
    ∃ g2 l, (processLoop now (e :: rest) rta b acc =
        processLoop now rest
          { rta with
            raw_graph := g2
            peer_last_time_reachable := l
            edges_info := insertA rta.edges_info e.get_pair e }
          true (acc ++ [e]) ∧
        GraphInv g2 ∧ g2.source = rta.raw_graph.source) ∧
      (∀ x y, g2.contains_edge x y = true ↔
        (if e.edge_type = EdgeType.Added then
          (rta.raw_graph.contains_edge x y = true ∨
            (x = e.peer0 ∧ y = e.peer1) ∨ (x = e.peer1 ∧ y = e.peer0))
        else
          (rta.raw_graph.contains_edge x y = true ∧
            ¬ ((x = e.peer0 ∧ y = e.peer1) ∨ (x = e.peer1 ∧ y = e.peer0))))) := by
  obtain ⟨l1, ht1⟩ := touch_clean rta e.get_pair.1 now hclean
  obtain ⟨l2, ht2⟩ := touch_clean { rta with peer_last_time_reachable := l1 }
    e.get_pair.2 now hclean
  obtain ⟨g2, ha, hInv2, hsrc, hchar⟩ := add_edge_eval_accept
    { { rta with peer_last_time_reachable := l1 } with peer_last_time_reachable := l2 }
    e hInv hne hn
  refine ⟨g2, l2, ⟨?_, hInv2, hsrc⟩, hchar⟩
  rw [processLoop]
  simp only [ht1, ht2, ha]
  rw [if_pos trivial]

theorem processLoop_cons_reject (rta : RoutingTableActor) (e : Edge) (rest : List Edge)
    (now : Int) (b : Bool) (acc : List Edge)
    (hclean : rta.store.peerComponent = [])
    (hn : e.nonce ≤ rta.find_nonce e.get_pair) :
    ∃ l, processLoop now (e :: rest) rta b acc =
      processLoop now rest { rta with peer_last_time_reachable := l } b acc := by
  obtain ⟨l1, ht1⟩ := touch_clean rta e.get_pair.1 now hclean
  obtain ⟨l2, ht2⟩ := touch_clean { rta with peer_last_time_reachable := l1 }
    e.get_pair.2 now hclean
  have ha : ({ { rta with peer_last_time_reachable := l1 } with
        peer_last_time_reachable := l2 } : RoutingTableActor).add_edge e =
      some ({ { rta with peer_last_time_reachable := l1 } with
        peer_last_time_reachable := l2 }, false) :=
    add_edge_eval_reject _ e hn
  refine ⟨l2, ?_⟩
  rw [processLoop]
  simp only [ht1, ht2, ha]
  rw [if_neg (show ¬ (false = true) from fun hx => Bool.noConfusion hx)]

theorem processLoop_some (now : Int) (edges : List Edge) :
    ∀ rta b acc, GraphInv rta.raw_graph → rta.store.peerComponent = [] →
      (∀ e ∈ edges, e.peer0 ≠ e.peer1) →
      ∃ out, processLoop now edges rta b acc = some out ∧
        GraphInv out.1.raw_graph ∧ out.1.store.peerComponent = [] := by
  induction edges with
  | nil =>
    intro rta b acc hInv hclean _
    exact ⟨(rta, b, acc), rfl, hInv, hclean⟩
  | cons e rest ih =>
    intro rta b acc hInv hclean hd
    have hd_e : e.peer0 ≠ e.peer1 := hd e (List.mem_cons_self e rest)
    have hd_rest : ∀ x ∈ rest, x.peer0 ≠ x.peer1 :=
      fun x hx => hd x (List.mem_cons_of_mem e hx)
    by_cases hn : e.nonce ≤ rta.find_nonce e.get_pair
    · obtain ⟨l, hstep⟩ := processLoop_cons_reject rta e rest now b acc hclean hn
      obtain ⟨out, hrun, ho1, ho2⟩ := ih { rta with peer_last_time_reachable := l }
        b acc hInv hclean hd_rest
      exact ⟨out, by rw [hstep, hrun], ho1, ho2⟩
    · obtain ⟨g2, l, ⟨hstep, hInv2, _⟩, _⟩ := processLoop_cons_accept rta e rest now b acc
        hclean hInv hd_e (Nat.not_le.mp hn)
      obtain ⟨out, hrun, ho1, ho2⟩ := ih
        { rta with
          raw_graph := g2
          peer_last_time_reachable := l
          edges_info := insertA rta.edges_info e.get_pair e }
        true (acc ++ [e]) hInv2 hclean hd_rest
      exact ⟨out, by rw [hstep, hrun], ho1, ho2⟩

/-- Sequences of `process_edges` calls, each with its own clock reading. -/
def runProcessBatches (rta : RoutingTableActor) :
    List (List Edge × Int) → Option RoutingTableActor
  | [] => some rta
  | batch :: rest =>
    match rta.process_edges batch.1 batch.2 with
    | none => none
    | some (rta1, _, _) => runProcessBatches rta1 rest

theorem runProcessBatches_some (batches : List (List Edge × Int)) :
    ∀ rta, GraphInv rta.raw_graph → rta.store.peerComponent = [] →
      (∀ bt ∈ batches, ∀ e ∈ bt.1, e.peer0 ≠ e.peer1) →
      ∃ rta2, runProcessBatches rta batches = some rta2 := by
  induction batches with
  | nil =>
    intro rta _ _ _
    exact ⟨rta, rfl⟩
  | cons bt rest ih =>
    intro rta hInv hclean hw
    obtain ⟨⟨rta1, nb, res⟩, hrun, ho1, ho2⟩ := processLoop_some bt.2 bt.1 rta false []
      hInv hclean (hw bt (List.mem_cons_self bt rest))
    obtain ⟨rta2, h2⟩ := ih rta1 ho1 ho2 (fun x hx => hw x (List.mem_cons_of_mem bt hx))
    refine ⟨rta2, ?_⟩
    unfold runProcessBatches
    simp only [RoutingTableActor.process_edges, hrun]
    exact h2

theorem find_nonce_some (rta : RoutingTableActor) (k : PeerId × PeerId) (e : Edge)
    (h : lookupA rta.edges_info k = some e) : rta.find_nonce k = e.nonce := by
  unfold RoutingTableActor.find_nonce
  rw [h]

theorem find_nonce_none (rta : RoutingTableActor) (k : PeerId × PeerId)
    (h : lookupA rta.edges_info k = none) : rta.find_nonce k = 0 := by
  unfold RoutingTableActor.find_nonce
  rw [h]

theorem process_single_accept (rta : RoutingTableActor) (e : Edge) (now : Int)
    (hclean : rta.store.peerComponent = []) (hInv : GraphInv rta.raw_graph)
    (hne : e.peer0 ≠ e.peer1) (hn : rta.find_nonce e.get_pair < e.nonce) :
    ∃ g2 l, rta.process_edges [e] now =
        some ({ rta with
          raw_graph := g2
          peer_last_time_reachable := l
          edges_info := insertA rta.edges_info e.get_pair e }, true, [] ++ [e]) ∧
      GraphInv g2 := by
  obtain ⟨g2, l, ⟨hstep, hInv2, _⟩, _⟩ := processLoop_cons_accept rta e [] now false []
    hclean hInv hne hn
  refine ⟨g2, l, ?_, hInv2⟩
  show processLoop now [e] rta false [] = _
  rw [hstep, processLoop]

theorem process_single_reject (rta : RoutingTableActor) (e : Edge) (now : Int)
    (hclean : rta.store.peerComponent = [])
    (hn : e.nonce ≤ rta.find_nonce e.get_pair) :
    ∃ l, rta.process_edges [e] now =
      some ({ rta with peer_last_time_reachable := l }, false, []) := by
  obtain ⟨l, hstep⟩ := processLoop_cons_reject rta e [] now false [] hclean hn
  refine ⟨l, ?_⟩
  show processLoop now [e] rta false [] = _
  rw [hstep, processLoop]

theorem process_pair_dominance (rta : RoutingTableActor) (ea eb : Edge) (p0 p1 : PeerId)
    (now : Int)
    (hInv : GraphInv rta.raw_graph) (hclean : rta.store.peerComponent = [])
    (hka : ea.get_pair = (p0, p1)) (hkb : eb.get_pair = (p0, p1)) (hne : p0 ≠ p1)
    (hna : 1 ≤ ea.nonce) (_hnb : 1 ≤ eb.nonce)
    (habs : lookupA rta.edges_info (p0, p1) = none) :
    ∃ out, rta.process_edges [ea, eb] now = some out ∧
      ∃ e, lookupA out.1.edges_info (p0, p1) = some e ∧
        e.nonce = max ea.nonce eb.nonce ∧ (e = ea ∨ e = eb) := by
  have ha0 : ea.peer0 = p0 := congrArg Prod.fst hka
  have ha1 : ea.peer1 = p1 := congrArg Prod.snd hka
  have hb0 : eb.peer0 = p0 := congrArg Prod.fst hkb
  have hb1 : eb.peer1 = p1 := congrArg Prod.snd hkb
  have hnea : ea.peer0 ≠ ea.peer1 := by
    rw [ha0, ha1]
    exact hne
  have hneb : eb.peer0 ≠ eb.peer1 := by
    rw [hb0, hb1]
    exact hne
  obtain ⟨g2, l, ⟨hstep1, hInv2, _⟩, _⟩ := processLoop_cons_accept rta ea [eb] now false []
    hclean hInv hnea (by rw [hka, find_nonce_none rta (p0, p1) habs]; exact hna)
  have hlk1 : lookupA (insertA rta.edges_info ea.get_pair ea) (p0, p1) = some ea := by
    rw [hka, lookupA_insertA, if_pos rfl]
  set R1 : RoutingTableActor := { rta with
    raw_graph := g2
    peer_last_time_reachable := l
    edges_info := insertA rta.edges_info ea.get_pair ea }
  have hfn1 : R1.find_nonce eb.get_pair = ea.nonce := by
    rw [hkb]
    exact find_nonce_some R1 (p0, p1) ea hlk1
  by_cases hcmp : eb.nonce ≤ ea.nonce
  · obtain ⟨l2, hstep2⟩ := processLoop_cons_reject R1 eb [] now true ([] ++ [ea]) hclean
      (by rw [hfn1]; exact hcmp)
    refine ⟨({ R1 with peer_last_time_reachable := l2 }, true, [] ++ [ea]), ?_, ea,
      hlk1, by omega, Or.inl rfl⟩
    show processLoop now [ea, eb] rta false [] = _
    rw [hstep1, hstep2, processLoop]
  · obtain ⟨g3, l2, ⟨hstep2, _, _⟩, _⟩ := processLoop_cons_accept R1 eb [] now true
      ([] ++ [ea]) hclean hInv2 hneb (by rw [hfn1]; omega)
    refine ⟨({ R1 with
        raw_graph := g3
        peer_last_time_reachable := l2
        edges_info := insertA R1.edges_info eb.get_pair eb }, true, ([] ++ [ea]) ++ [eb]),
      ?_, eb, ?_, by omega, Or.inr rfl⟩
    · show processLoop now [ea, eb] rta false [] = _
      rw [hstep1, hstep2, processLoop]
    · show lookupA (insertA R1.edges_info eb.get_pair eb) (p0, p1) = some eb
      rw [hkb, lookupA_insertA, if_pos rfl]

/-- C4.  From a state with a clean store where the canonical key `(p0, p1)`
is absent, processing two same-key edges with positive nonces in either
order, or in successive batches, always leaves the `edges_info` entry for
that key holding an edge of nonce `max n1 n2` which is one of the two; and
an edge whose nonce is at most the stored nonce is dropped: it does not
appear in the accepted output and leaves `edges_info` and the graph
unchanged. -/
theorem C4_nonce_dominance (rta : RoutingTableActor) (e1 e2 : Edge) (p0 p1 : PeerId)
    (now : Int)
    (hInv : GraphInv rta.raw_graph) (hclean : rta.store.peerComponent = [])
    (hk1 : e1.get_pair = (p0, p1)) (hk2 : e2.get_pair = (p0, p1)) (hne : p0 ≠ p1)
    (hn1 : 1 ≤ e1.nonce) (hn2 : 1 ≤ e2.nonce)
    (habs : lookupA rta.edges_info (p0, p1) = none) :
    (∃ out, rta.process_edges [e1, e2] now = some out ∧
      ∃ e, lookupA out.1.edges_info (p0, p1) = some e ∧
        e.nonce = max e1.nonce e2.nonce ∧ (e = e1 ∨ e = e2)) ∧
    (∃ out, rta.process_edges [e2, e1] now = some out ∧
      ∃ e, lookupA out.1.edges_info (p0, p1) = some e ∧
        e.nonce = max e1.nonce e2.nonce ∧ (e = e1 ∨ e = e2)) ∧
    (∃ out1 out2, rta.process_edges [e1] now = some out1 ∧
      out1.1.process_edges [e2] now = some out2 ∧
      ∃ e, lookupA out2.1.edges_info (p0, p1) = some e ∧
        e.nonce = max e1.nonce e2.nonce ∧ (e = e1 ∨ e = e2)) ∧
    (∀ (rta' : RoutingTableActor) (e e' : Edge),
      rta'.store.peerComponent = [] →
      lookupA rta'.edges_info e.get_pair = some e' → e.nonce ≤ e'.nonce →
      ∃ out, rta'.process_edges [e] now = some out ∧
        out.1.edges_info = rta'.edges_info ∧ out.1.raw_graph = rta'.raw_graph ∧
        out.2.1 = false ∧ out.2.2 = ([] : List Edge)) := by
  refine ⟨?_, ?_, ?_, ?_⟩
  · exact process_pair_dominance rta e1 e2 p0 p1 now hInv hclean hk1 hk2 hne hn1 hn2 habs
  · obtain ⟨out, ho, e, hl, hnn, hor⟩ :=
      process_pair_dominance rta e2 e1 p0 p1 now hInv hclean hk2 hk1 hne hn2 hn1 habs
    exact ⟨out, ho, e, hl, by rw [hnn, Nat.max_comm], hor.symm⟩
  · have ha0 : e1.peer0 = p0 := congrArg Prod.fst hk1
    have ha1 : e1.peer1 = p1 := congrArg Prod.snd hk1
    have hb0 : e2.peer0 = p0 := congrArg Prod.fst hk2
    have hb1 : e2.peer1 = p1 := congrArg Prod.snd hk2
    have hne1 : e1.peer0 ≠ e1.peer1 := by
      rw [ha0, ha1]
      exact hne
    have hne2 : e2.peer0 ≠ e2.peer1 := by
      rw [hb0, hb1]
      exact hne
    obtain ⟨g2, l, hp1, hInv2⟩ := process_single_accept rta e1 now hclean hInv hne1
      (by rw [hk1, find_nonce_none rta (p0, p1) habs]; exact hn1)
    have hlk1 : lookupA (insertA rta.edges_info e1.get_pair e1) (p0, p1) = some e1 := by
      rw [hk1, lookupA_insertA, if_pos rfl]
    set R1 : RoutingTableActor := { rta with
      raw_graph := g2
      peer_last_time_reachable := l
      edges_info := insertA rta.edges_info e1.get_pair e1 }
    have hfn1 : R1.find_nonce e2.get_pair = e1.nonce := by
      rw [hk2]
      exact find_nonce_some R1 (p0, p1) e1 hlk1
    by_cases hcmp : e2.nonce ≤ e1.nonce
    · obtain ⟨l2, hp2⟩ := process_single_reject R1 e2 now hclean (by rw [hfn1]; exact hcmp)
      exact ⟨(R1, true, [] ++ [e1]), ({ R1 with peer_last_time_reachable := l2 }, false, []),
        hp1, hp2, e1, hlk1, by omega, Or.inl rfl⟩
    · obtain ⟨g3, l2, hp2, _⟩ := process_single_accept R1 e2 now hclean hInv2
        hne2 (by rw [hfn1]; omega)
      refine ⟨(R1, true, [] ++ [e1]),
        ({ R1 with
          raw_graph := g3
          peer_last_time_reachable := l2
          edges_info := insertA R1.edges_info e2.get_pair e2 }, true, [] ++ [e2]),
        hp1, hp2, e2, ?_, by omega, Or.inr rfl⟩
      show lookupA (insertA R1.edges_info e2.get_pair e2) (p0, p1) = some e2
      rw [hk2, lookupA_insertA, if_pos rfl]
  · intro rta' e e' hclean' hlk hle
    obtain ⟨l, hp⟩ := process_single_reject rta' e now hclean'
      (by rw [find_nonce_some rta' e.get_pair e' hlk]; exact hle)
    exact ⟨({ rta' with peer_last_time_reachable := l }, false, []), hp, rfl, rfl, rfl, rfl⟩

theorem C4_witness :
    (GraphInv (RoutingTableActor.new 0 emptyStore).raw_graph ∧
      (Edge.mk 1 2 1 Signature.empty Signature.empty none).get_pair = (1, 2) ∧
      (Edge.mk 1 2 3 Signature.empty Signature.empty none).get_pair = (1, 2) ∧
      (1 : PeerId) ≠ 2 ∧
      lookupA (RoutingTableActor.new 0 emptyStore).edges_info
        ((1 : PeerId), (2 : PeerId)) = none) ∧
    (∃ out, (RoutingTableActor.new 0 emptyStore).process_edges
        [Edge.mk 1 2 1 Signature.empty Signature.empty none,
          Edge.mk 1 2 3 Signature.empty Signature.empty none] 0 = some out ∧
      ∃ e, lookupA out.1.edges_info (1, 2) = some e ∧
        e.nonce = max (Edge.mk 1 2 1 Signature.empty Signature.empty none).nonce
          (Edge.mk 1 2 3 Signature.empty Signature.empty none).nonce ∧
        (e = Edge.mk 1 2 1 Signature.empty Signature.empty none ∨
          e = Edge.mk 1 2 3 Signature.empty Signature.empty none)) :=
  ⟨⟨graphInv_new 0, rfl, rfl, by decide, rfl⟩,
    (C4_nonce_dominance (RoutingTableActor.new 0 emptyStore)
      (Edge.mk 1 2 1 Signature.empty Signature.empty none)
      (Edge.mk 1 2 3 Signature.empty Signature.empty none) 1 2 0
      (graphInv_new 0) rfl rfl rfl (by decide) (by decide) (by decide) rfl).1⟩

/-- C10.  For every sequence of batches whose edges all have distinct
endpoints, `process_edges` from a fresh actor never reaches the `assert_ne!`
panic branches of `Graph::add_edge` / `Graph::remove_edge` (every run
returns `some`); and the ingestion path itself performs no endpoint check:
a single self-edge batch reaches the assertion and the run panics
(`none`). -/
theorem C10_assert_safety :
    (∀ (me : PeerId) (batches : List (List Edge × Int)),
      (∀ bt ∈ batches, ∀ e ∈ bt.1, e.peer0 ≠ e.peer1) →
      ∃ rta2, runProcessBatches (RoutingTableActor.new me emptyStore) batches =
        some rta2) ∧
    (RoutingTableActor.new 0 emptyStore).process_edges
      [Edge.mk 1 1 1 Signature.empty Signature.empty none] 0 = none := by
  constructor
  · intro me batches hw
    exact runProcessBatches_some batches (RoutingTableActor.new me emptyStore)
      (graphInv_new me) rfl hw
  · rfl

theorem C10_witness :
    (∀ bt ∈ [([Edge.mk 1 2 1 Signature.empty Signature.empty none], (0 : Int))],
      ∀ e ∈ bt.1, e.peer0 ≠ e.peer1) ∧
    ∃ rta2, runProcessBatches (RoutingTableActor.new 0 emptyStore)
      [([Edge.mk 1 2 1 Signature.empty Signature.empty none], (0 : Int))] = some rta2 :=
  ⟨by decide, C10_assert_safety.1 0
    [([Edge.mk 1 2 1 Signature.empty Signature.empty none], (0 : Int))] (by decide)⟩

theorem contains_edge_irrefl {g : Graph} (hInv : GraphInvCore g) (p : PeerId) :
    g.contains_edge p p = false := by
  cases hl : lookupA g.p2id p with
  | none => simp [Graph.contains_edge, hl]
  | some id =>
    simp only [Graph.contains_edge, hl]
    rw [Bool.eq_false_iff]
    intro hc
    exact hInv.adj_irrefl id (contains_mem.mp hc)

/-- Operations without pruning: `update` may only run with
`can_save_edges = false`, and processed edges are canonical. -/
def opOK : ActorOp → Bool
  | .process edges _ => edges.all (fun e => decide (e.peer0 < e.peer1))
  | .removeEdge _ => true
  | .updateOp cs _ _ _ => !cs
  | .touchOp _ _ => true

/-- Inductive invariant tying `raw_graph` to the `edges_info` EdgeLog on
runs without pruning. -/
structure ActorInv (rta : RoutingTableActor) : Prop where
  ginv : GraphInv rta.raw_graph
  clean : rta.store.peerComponent = []
  keys_canon : ∀ k e, lookupA rta.edges_info k = some e → k.1 < k.2
  edge_iff : ∀ x y, x < y →
    (rta.raw_graph.contains_edge x y = true ↔
      ∃ e, lookupA rta.edges_info (x, y) = some e ∧ e.edge_type = EdgeType.Added)

theorem actorInv_pltr (rta : RoutingTableActor) (l : List (PeerId × Int))
    (h : ActorInv rta) : ActorInv { rta with peer_last_time_reachable := l } :=
  ⟨h.ginv, h.clean, h.keys_canon, h.edge_iff⟩

theorem actorInv_add_edge (rta : RoutingTableActor) (edge : Edge)
    (h : ActorInv rta) (hcanon : edge.peer0 < edge.peer1) :
    ∃ rta2 b, rta.add_edge edge = some (rta2, b) ∧ ActorInv rta2 := by
  by_cases hn : edge.nonce ≤ rta.find_nonce edge.get_pair
  · exact ⟨rta, false, add_edge_eval_reject rta edge hn, h⟩
  · have hne : edge.peer0 ≠ edge.peer1 := Nat.ne_of_lt hcanon
    obtain ⟨g2, ha, hInv2, _, hchar⟩ := add_edge_eval_accept rta edge h.ginv hne
      (Nat.not_le.mp hn)
    refine ⟨_, true, ha, hInv2, h.clean, ?_, ?_⟩
    · intro k e hk
      have hk' : lookupA (insertA rta.edges_info edge.get_pair edge) k = some e := hk
      rw [lookupA_insertA] at hk'
      by_cases hq : edge.get_pair = k
      · have h1 : k.1 = edge.peer0 := by rw [← hq]; rfl
        have h2 : k.2 = edge.peer1 := by rw [← hq]; rfl
        rw [h1, h2]
        exact hcanon
      · rw [if_neg hq] at hk'
        exact h.keys_canon k e hk'
    · intro x y hxy
      have hg := hchar x y
      have hlk : lookupA (insertA rta.edges_info edge.get_pair edge) (x, y) =
          if edge.get_pair = (x, y) then some edge
          else lookupA rta.edges_info (x, y) := lookupA_insertA _ _ _ _
      by_cases hq : edge.get_pair = (x, y)
      · have hx : edge.peer0 = x := congrArg Prod.fst hq
        have hy : edge.peer1 = y := congrArg Prod.snd hq
        cases het : edge.edge_type with
        | Added =>
          rw [het, if_pos rfl] at hg
          constructor
          · intro _
            refine ⟨edge, ?_, het⟩
            show lookupA (insertA rta.edges_info edge.get_pair edge) (x, y) = some edge
            rw [hlk, if_pos hq]
          · intro _
            exact hg.mpr (Or.inr (Or.inl ⟨hx.symm, hy.symm⟩))
        | Removed =>
          rw [het, if_neg (show ¬ (EdgeType.Removed = EdgeType.Added) from
            fun hz => EdgeType.noConfusion hz)] at hg
          constructor
          · intro hc
            exact absurd (Or.inl ⟨hx.symm, hy.symm⟩) (hg.mp hc).2
          · rintro ⟨e', he', hty⟩
            have he'' : lookupA (insertA rta.edges_info edge.get_pair edge) (x, y) =
              some e' := he'
            rw [hlk, if_pos hq] at he''
            injection he'' with hee
            rw [← hee] at hty
            rw [het] at hty
            exact absurd hty (fun hz => EdgeType.noConfusion hz)
      · have hnp : ¬ ((x = edge.peer0 ∧ y = edge.peer1) ∨
            (x = edge.peer1 ∧ y = edge.peer0)) := by
          rintro (⟨hx, hy⟩ | ⟨hx, hy⟩)
          · refine hq ?_
            show (edge.peer0, edge.peer1) = (x, y)
            rw [hx, hy]
          · have h5 : edge.peer1 < edge.peer0 := by
              rw [← hx, ← hy]
              exact hxy
            exact Nat.lt_asymm hcanon h5
        have hold : rta.raw_graph.contains_edge x y = true ↔
            ∃ e, lookupA rta.edges_info (x, y) = some e ∧
              e.edge_type = EdgeType.Added := h.edge_iff x y hxy
        have hsame : lookupA (insertA rta.edges_info edge.get_pair edge) (x, y) =
            lookupA rta.edges_info (x, y) := by
          rw [hlk, if_neg hq]
        cases het : edge.edge_type with
        | Added =>
          rw [het, if_pos rfl] at hg
          constructor
          · intro hc
            rcases hg.mp hc with hc' | hp | hp
            · obtain ⟨e', he', hty⟩ := hold.mp hc'
              refine ⟨e', ?_, hty⟩
              show lookupA (insertA rta.edges_info edge.get_pair edge) (x, y) = some e'
              rw [hsame]
              exact he'
            · exact absurd (Or.inl hp) hnp
            · exact absurd (Or.inr hp) hnp
          · rintro ⟨e', he', hty⟩
            have he'' : lookupA (insertA rta.edges_info edge.get_pair edge) (x, y) =
              some e' := he'
            rw [hsame] at he''
            exact hg.mpr (Or.inl (hold.mpr ⟨e', he'', hty⟩))
        | Removed =>
          rw [het, if_neg (show ¬ (EdgeType.Removed = EdgeType.Added) from
            fun hz => EdgeType.noConfusion hz)] at hg
          constructor
          · intro hc
            obtain ⟨e', he', hty⟩ := hold.mp (hg.mp hc).1
            refine ⟨e', ?_, hty⟩
            show lookupA (insertA rta.edges_info edge.get_pair edge) (x, y) = some e'
            rw [hsame]
            exact he'
          · rintro ⟨e', he', hty⟩
            have he'' : lookupA (insertA rta.edges_info edge.get_pair edge) (x, y) =
              some e' := he'
            rw [hsame] at he''
            exact hg.mpr ⟨hold.mpr ⟨e', he'', hty⟩, hnp⟩

theorem actorInv_remove_edge (rta : RoutingTableActor) (edge : Edge)
    (h : ActorInv rta) :
    ∃ rta2, rta.remove_edge edge = some rta2 ∧ ActorInv rta2 := by
  cases hlk : lookupA rta.edges_info (edge.peer0, edge.peer1) with
  | none =>
    refine ⟨rta, ?_, h⟩
    unfold RoutingTableActor.remove_edge
    simp only [hlk]
  | some e0 =>
    have hcan : edge.peer0 < edge.peer1 := h.keys_canon (edge.peer0, edge.peer1) e0 hlk
    obtain ⟨g2, heq, hInv2, _, hchar⟩ := remove_edge_spec rta.raw_graph edge.peer0
      edge.peer1 h.ginv (Nat.ne_of_lt hcan)
    refine ⟨{ rta with
      edges_info := eraseA rta.edges_info (edge.peer0, edge.peer1)
      raw_graph := g2 }, ?_, hInv2, h.clean, ?_, ?_⟩
    · unfold RoutingTableActor.remove_edge
      simp only [hlk, heq]
    · intro k e hk
      have hk' : lookupA (eraseA rta.edges_info (edge.peer0, edge.peer1)) k =
        some e := hk
      rw [lookupA_eraseA] at hk'
      by_cases hq : (edge.peer0, edge.peer1) = k
      · rw [if_pos hq] at hk'
        exact Option.noConfusion hk'
      · rw [if_neg hq] at hk'
        exact h.keys_canon k e hk'
    · intro x y hxy
      have hg := hchar x y
      by_cases hq : (edge.peer0, edge.peer1) = (x, y)
      · have hx : edge.peer0 = x := congrArg Prod.fst hq
        have hy : edge.peer1 = y := congrArg Prod.snd hq
        constructor
        · intro hc
          exact absurd (Or.inl ⟨hx.symm, hy.symm⟩) (hg.mp hc).2
        · rintro ⟨e', he', _⟩
          have he'' : lookupA (eraseA rta.edges_info (edge.peer0, edge.peer1)) (x, y) =
            some e' := he'
          rw [lookupA_eraseA, if_pos hq] at he''
          exact Option.noConfusion he''
      · have hnp : ¬ ((x = edge.peer0 ∧ y = edge.peer1) ∨
            (x = edge.peer1 ∧ y = edge.peer0)) := by
          rintro (⟨hx, hy⟩ | ⟨hx, hy⟩)
          · refine hq ?_
            rw [hx, hy]
          · have h5 : edge.peer1 < edge.peer0 := by
              rw [← hx, ← hy]
              exact hxy
            exact Nat.lt_asymm hcan h5
        have hsame : lookupA (eraseA rta.edges_info (edge.peer0, edge.peer1)) (x, y) =
            lookupA rta.edges_info (x, y) := by
          rw [lookupA_eraseA, if_neg hq]
        constructor
        · intro hc
          obtain ⟨e', he', hty⟩ := (h.edge_iff x y hxy).mp (hg.mp hc).1
          refine ⟨e', ?_, hty⟩
          show lookupA (eraseA rta.edges_info (edge.peer0, edge.peer1)) (x, y) = some e'
          rw [hsame]
          exact he'
        · rintro ⟨e', he', hty⟩
          have he'' : lookupA (eraseA rta.edges_info (edge.peer0, edge.peer1)) (x, y) =
            some e' := he'
          rw [hsame] at he''
          exact hg.mpr ⟨(h.edge_iff x y hxy).mpr ⟨e', he'', hty⟩, hnp⟩

theorem actorInv_update_nosave (rta : RoutingTableActor) (fp : Bool) (t : Nat)
    (now : Int) (h : ActorInv rta) :
    ActorInv (rta.update false fp t now).1 :=
  ⟨h.ginv, h.clean, h.keys_canon, h.edge_iff⟩

theorem processLoop_actorInv (now : Int) (edges : List Edge) :
    ∀ rta b acc, ActorInv rta → (∀ e ∈ edges, e.peer0 < e.peer1) →
      ∃ out, processLoop now edges rta b acc = some out ∧ ActorInv out.1 := by
  induction edges with
  | nil =>
    intro rta b acc h _
    exact ⟨(rta, b, acc), rfl, h⟩
  | cons e rest ih =>
    intro rta b acc h hc
    have hc_e : e.peer0 < e.peer1 := hc e (List.mem_cons_self e rest)
    have hc_rest : ∀ x ∈ rest, x.peer0 < x.peer1 :=
      fun x hx => hc x (List.mem_cons_of_mem e hx)
    obtain ⟨l1, ht1⟩ := touch_clean rta e.get_pair.1 now h.clean
    obtain ⟨l2, ht2⟩ := touch_clean { rta with peer_last_time_reachable := l1 }
      e.get_pair.2 now h.clean
    obtain ⟨rta3, b3, ha, h3⟩ := actorInv_add_edge
      { { rta with peer_last_time_reachable := l1 } with peer_last_time_reachable := l2 }
      e (actorInv_pltr _ l2 (actorInv_pltr rta l1 h)) hc_e
    cases b3 with
    | true =>
      obtain ⟨out, hrun, ho⟩ := ih rta3 true (acc ++ [e]) h3 hc_rest
      refine ⟨out, ?_, ho⟩
      rw [processLoop]
      simp only [ht1, ht2, ha]
      rw [if_pos trivial]
      exact hrun
    | false =>
      obtain ⟨out, hrun, ho⟩ := ih rta3 b acc h3 hc_rest
      refine ⟨out, ?_, ho⟩
      rw [processLoop]
      simp only [ht1, ht2, ha]
      rw [if_neg (show ¬ (false = true) from fun hx => Bool.noConfusion hx)]
      exact hrun

theorem runActor_actorInv (ops : List ActorOp) :
    ∀ rta, ActorInv rta → (∀ op ∈ ops, opOK op = true) →
      ∀ rta2, runActor rta ops = some rta2 → ActorInv rta2 := by
  induction ops with
  | nil =>
    intro rta h _ rta2 hr
    unfold runActor at hr
    injection hr with h2
    rw [← h2]
    exact h
  | cons op rest ih =>
    intro rta h hok rta2 hr
    unfold runActor at hr
    cases happ : applyActorOp rta op with
    | none =>
      rw [happ] at hr
      exact Option.noConfusion hr
    | some rta1 =>
      rw [happ] at hr
      have hokop := hok op (List.mem_cons_self op rest)
      have h1 : ActorInv rta1 := by
        cases op with
        | process edges now =>
          have hc : ∀ e ∈ edges, e.peer0 < e.peer1 := by
            intro e he
            simp only [opOK, List.all_eq_true] at hokop
            have := hokop e he
            simpa using this
          obtain ⟨⟨o1, o2, o3⟩, hrun, ho⟩ := processLoop_actorInv now edges rta false [] h hc
          simp only [applyActorOp, RoutingTableActor.process_edges, hrun] at happ
          injection happ with h2
          rw [← h2]
          exact ho
        | removeEdge edge =>
          obtain ⟨rta2', hre, ho⟩ := actorInv_remove_edge rta edge h
          simp only [applyActorOp, hre] at happ
          injection happ with h2
          rw [← h2]
          exact ho
        | updateOp cs fp t now =>
          have hcs : cs = false := by
            simp only [opOK] at hokop
            cases cs
            · rfl
            · exact absurd hokop (by decide)
          rw [hcs] at happ
          simp only [applyActorOp] at happ
          injection happ with h2
          rw [← h2]
          exact actorInv_update_nosave rta fp t now h
        | touchOp p now =>
          obtain ⟨l, htc⟩ := touch_clean rta p now h.clean
          simp only [applyActorOp, htc] at happ
          injection happ with h2
          rw [← h2]
          exact actorInv_pltr rta l h
      exact ih rta1 h1 (fun x hx => hok x (List.mem_cons_of_mem op hx)) rta2 hr

/-- C6-style initial state for the actor invariant. -/
theorem actorInv_new (me : PeerId) : ActorInv (RoutingTableActor.new me emptyStore) := by
  refine ⟨graphInv_new me, rfl, ?_, ?_⟩
  · intro k e hk
    exact Option.noConfusion hk
  · intro x y _
    constructor
    · intro hc
      exfalso
      unfold Graph.contains_edge at hc
      cases h1 : lookupA (RoutingTableActor.new me emptyStore).raw_graph.p2id x with
      | none =>
        rw [h1] at hc
        simp at hc
      | some i0 =>
        cases h2 : lookupA (RoutingTableActor.new me emptyStore).raw_graph.p2id y with
        | none =>
          rw [h1, h2] at hc
          simp at hc
        | some i1 =>
          rw [h1, h2] at hc
          have hmem := contains_mem.mp hc
          have hnil : (RoutingTableActor.new me
              emptyStore).raw_graph.adjacency.getD i0 [] = [] := by
            cases i0 <;> rfl
          rw [hnil] at hmem
          exact absurd hmem (List.not_mem_nil i1)
    · rintro ⟨e, he, _⟩
      exact Option.noConfusion he

/-- C7.  On every run without pruning (each `update` has
`can_save_edges = false`) over canonical edges from a fresh actor, the raw
graph contains the undirected edge `{p, q}` iff the EdgeLog maps the
canonical key to an Added (odd-nonce) edge.  The claim's unrestricted form
is false: pruning removes EdgeLog entries but never touches the raw graph
(see the counterexample). -/
theorem C7_graph_edgelog (me : PeerId) (ops : List ActorOp) (rta : RoutingTableActor)
    (hok : ∀ op ∈ ops, opOK op = true)
    (hrun : runActor (RoutingTableActor.new me emptyStore) ops = some rta) :
    ∀ p q, rta.raw_graph.contains_edge p q = true ↔
      ∃ e, lookupA rta.edges_info (Edge.key p q) = some e ∧
        e.edge_type = EdgeType.Added := by
  have hInvF : ActorInv rta :=
    runActor_actorInv ops (RoutingTableActor.new me emptyStore) (actorInv_new me)
      hok rta hrun
  intro p q
  rcases Nat.lt_trichotomy p q with hlt | heq | hgt
  · have hkey : Edge.key p q = (p, q) := by
      unfold Edge.key
      rw [if_pos hlt]
    rw [hkey]
    exact hInvF.edge_iff p q hlt
  · rw [← heq]
    constructor
    · intro hc
      rw [contains_edge_irrefl hInvF.ginv.toGraphInvCore p] at hc
      exact Bool.noConfusion hc
    · rintro ⟨e, he, _⟩
      have hcc := hInvF.keys_canon (Edge.key p p) e he
      have hkey : Edge.key p p = (p, p) := by
        unfold Edge.key
        rw [if_neg (lt_irrefl p)]
      rw [hkey] at hcc
      exact absurd hcc (lt_irrefl p)
  · have hkey : Edge.key p q = (q, p) := by
      unfold Edge.key
      rw [if_neg (Nat.lt_asymm hgt)]
    rw [hkey, contains_edge_symm hInvF.ginv.toGraphInvCore p q]
    exact hInvF.edge_iff q p hgt

theorem C7_witness :
    (∀ op ∈ [ActorOp.process [Edge.mk 1 2 1 Signature.empty Signature.empty none] 0],
      opOK op = true) ∧
    (∀ p q, (RoutingTableActor.mk
        [((1, 2), Edge.mk 1 2 1 Signature.empty Signature.empty none)]
        (Graph.mk 0 0 [(2, 2), (1, 1), (0, 0)] [0, 1, 2] [true, true, true] []
          [[], [2], [1]] 1)
        [] [(2, 0), (1, 0)] emptyStore 0).raw_graph.contains_edge p q = true ↔
      ∃ e, lookupA (RoutingTableActor.mk
          [((1, 2), Edge.mk 1 2 1 Signature.empty Signature.empty none)]
          (Graph.mk 0 0 [(2, 2), (1, 1), (0, 0)] [0, 1, 2] [true, true, true] []
            [[], [2], [1]] 1)
          [] [(2, 0), (1, 0)] emptyStore 0).edges_info (Edge.key p q) = some e ∧
        e.edge_type = EdgeType.Added) :=
  ⟨by decide,
    C7_graph_edgelog 0 [ActorOp.process [Edge.mk 1 2 1 Signature.empty Signature.empty none] 0]
      (RoutingTableActor.mk
        [((1, 2), Edge.mk 1 2 1 Signature.empty Signature.empty none)]
        (Graph.mk 0 0 [(2, 2), (1, 1), (0, 0)] [0, 1, 2] [true, true, true] []
          [[], [2], [1]] 1)
        [] [(2, 0), (1, 0)] emptyStore 0)
      (by decide) (by decide)⟩

/-- Pruning (`update` with `can_save_edges = true`, forced) removes the
EdgeLog entry of a stale edge but leaves the raw graph unchanged, breaking
the claimed iff. -/
theorem C7_counterexample :
    ∃ rta, runActor (RoutingTableActor.new 0 emptyStore)
        [ActorOp.process [Edge.mk 1 2 1 Signature.empty Signature.empty none] 0,
          ActorOp.updateOp true true 0 100] = some rta ∧
      rta.raw_graph.contains_edge 1 2 = true ∧
      lookupA rta.edges_info (Edge.key 1 2) = none :=
  ⟨_, rfl, by decide, by decide⟩

/-! ### List lemmas for the compaction round trip (claim C9) -/

theorem filter_all_true {α : Type} (l : List α) (f : α → Bool)
    (h : ∀ a ∈ l, f a = true) : l.filter f = l := by
  induction l with
  | nil => rfl
  | cons a t ih =>
    rw [List.filter_cons_of_pos (h a (List.mem_cons_self a t)),
      ih (fun x hx => h x (List.mem_cons_of_mem a hx))]

theorem filter_all_false {α : Type} (l : List α) (f : α → Bool)
    (h : ∀ a ∈ l, f a = false) : l.filter f = [] := by
  induction l with
  | nil => rfl
  | cons a t ih =>
    rw [List.filter_cons_of_neg (show ¬ f a = true from fun hc => by
        rw [h a (List.mem_cons_self a t)] at hc
        exact Bool.noConfusion hc),
      ih (fun x hx => h x (List.mem_cons_of_mem a hx))]

theorem mem_eraseA {α β : Type} [DecidableEq α] (l : List (α × β)) (a : α)
    (kv : α × β) (h : kv ∈ eraseA l a) : kv ∈ l := by
  induction l with
  | nil => exact h
  | cons x t ih =>
    by_cases hx : x.1 = a
    · rw [eraseA, if_pos hx] at h
      exact List.mem_cons_of_mem x (ih h)
    · rw [eraseA, if_neg hx] at h
      rcases List.mem_cons.mp h with h1 | h1
      · rw [h1]
        exact List.mem_cons_self x t
      · exact List.mem_cons_of_mem x (ih h1)

theorem mem_insertA {α β : Type} [DecidableEq α] (l : List (α × β)) (a : α) (b : β)
    (kv : α × β) (h : kv ∈ insertA l a b) : kv = (a, b) ∨ kv ∈ l := by
  unfold insertA at h
  rcases List.mem_cons.mp h with h1 | h1
  · exact Or.inl h1
  · exact Or.inr (mem_eraseA l a kv h1)

theorem mem_eraseA_of_ne {α β : Type} [DecidableEq α] (l : List (α × β)) (a : α)
    (kv : α × β) (h : kv ∈ l) (hne : kv.1 ≠ a) : kv ∈ eraseA l a := by
  induction l with
  | nil => exact h
  | cons x t ih =>
    rcases List.mem_cons.mp h with h1 | h1
    · rw [eraseA, if_neg (show ¬ x.1 = a from by rw [← h1]; exact hne), h1]
      exact List.mem_cons_self x (eraseA t a)
    · by_cases hx : x.1 = a
      · rw [eraseA, if_pos hx]
        exact ih h1
      · rw [eraseA, if_neg hx]
        exact List.mem_cons_of_mem x (ih h1)

theorem lookupA_isSome_mem {α β : Type} [DecidableEq α] (l : List (α × β)) (a : α)
    (h : (lookupA l a).isSome = true) : ∃ b, (a, b) ∈ l := by
  induction l with
  | nil => simp [lookupA] at h
  | cons x t ih =>
    by_cases hx : x.1 = a
    · refine ⟨x.2, ?_⟩
      rw [← hx]
      exact List.mem_cons_self x t
    · rw [lookupA, if_neg hx] at h
      obtain ⟨b, hb⟩ := ih h
      exact ⟨b, List.mem_cons_of_mem x hb⟩

theorem fold_insert_le (pf : List (PeerId × List PeerId)) :
    ∀ (m : List (PeerId × Int)) (now : Int), (∀ kv ∈ m, kv.2 ≤ now) →
      ∀ kv ∈ pf.foldl (fun m kv => insertA m kv.1 now) m, kv.2 ≤ now := by
  induction pf with
  | nil =>
    intro m now h kv hkv
    exact h kv hkv
  | cons a t ih =>
    intro m now h kv hkv
    refine ih (insertA m a.1 now) now ?_ kv hkv
    intro kv2 hkv2
    rcases mem_insertA m a.1 now kv2 hkv2 with h1 | h1
    · rw [h1]
    · exact h kv2 h1

theorem fold_insert_keys (pf : List (PeerId × List PeerId)) :
    ∀ (m : List (PeerId × Int)) (now : Int) (q : PeerId), (∃ t, (q, t) ∈ m) →
      ∃ t, (q, t) ∈ pf.foldl (fun m kv => insertA m kv.1 now) m := by
  induction pf with
  | nil =>
    intro m now q h
    exact h
  | cons a t ih =>
    intro m now q h
    refine ih _ now q ?_
    obtain ⟨tv, htv⟩ := h
    by_cases hq : a.1 = q
    · refine ⟨now, ?_⟩
      rw [← hq]
      exact List.mem_cons_self (a.1, now) (eraseA m a.1)
    · exact ⟨tv, List.mem_cons_of_mem _ (mem_eraseA_of_ne m a.1 (q, tv) htv
        (show (q, tv).1 ≠ a.1 from fun hc => hq hc.symm))⟩

theorem lookupA_fold_not_mem (l : List PeerId) :
    ∀ (m : List (PeerId × Nat)) (c : Nat) (p : PeerId), p ∉ l →
      lookupA (l.foldl (fun m q => insertA m q c) m) p = lookupA m p := by
  induction l with
  | nil =>
    intro m c p _
    rfl
  | cons a t ih =>
    intro m c p hp
    have hpa : p ≠ a := fun h => hp (by rw [h]; exact List.mem_cons_self a t)
    have hpt : p ∉ t := fun h => hp (List.mem_cons_of_mem a h)
    rw [List.foldl_cons, ih _ c p hpt, lookupA_insertA, if_neg (fun h => hpa h.symm)]

theorem lookupA_fold_mem (l : List PeerId) :
    ∀ (m : List (PeerId × Nat)) (c : Nat) (p : PeerId), p ∈ l →
      lookupA (l.foldl (fun m q => insertA m q c) m) p = some c := by
  induction l with
  | nil =>
    intro m c p hp
    exact absurd hp (List.not_mem_nil p)
  | cons a t ih =>
    intro m c p hp
    by_cases hpt : p ∈ t
    · rw [List.foldl_cons]
      exact ih _ c p hpt
    · have hpa : p = a := by
        rcases List.mem_cons.mp hp with h | h
        · exact h
        · exact absurd h hpt
      rw [List.foldl_cons, lookupA_fold_not_mem t _ c p hpt, lookupA_insertA,
        if_pos (by rw [hpa])]

theorem touchPeerStep_fields (me : PeerId) (c : Nat) (now2 : Int)
    (st : RoutingTableActor × List PeerId) (q : PeerId) :
    (touchPeerStep me c now2 st q).1.edges_info = st.1.edges_info ∧
    (touchPeerStep me c now2 st q).1.raw_graph = st.1.raw_graph ∧
    (touchPeerStep me c now2 st q).1.store = st.1.store := by
  unfold touchPeerStep
  split
  · exact ⟨rfl, rfl, rfl⟩
  · split
    · split
      · exact ⟨rfl, rfl, rfl⟩
      · exact ⟨rfl, rfl, rfl⟩
    · exact ⟨rfl, rfl, rfl⟩

theorem touchLoop_restore (me : PeerId) (c : Nat) (now2 : Int) (edges : List Edge) :
    ∀ (rta : RoutingTableActor) (dels : List PeerId),
      GraphInv rta.raw_graph →
      (∀ e ∈ edges, e.peer0 < e.peer1 ∧ 1 ≤ e.nonce) →
      (∀ e ∈ edges, lookupA rta.edges_info (e.peer0, e.peer1) = none) →
      (edges.map (fun e => ((e.peer0 : PeerId), (e.peer1 : PeerId)))).Nodup →
      ∃ rta2 dels2, touchLoop me c now2 edges rta dels = some (rta2, dels2) ∧
        GraphInv rta2.raw_graph ∧
        rta2.store = rta.store ∧
        (∀ e ∈ edges, lookupA rta2.edges_info (e.peer0, e.peer1) = some e) ∧
        (∀ e ∈ edges, e.edge_type = EdgeType.Added →
          rta2.raw_graph.contains_edge e.peer0 e.peer1 = true) ∧
        (∀ k : PeerId × PeerId, (∀ e ∈ edges, k ≠ (e.peer0, e.peer1)) →
          lookupA rta2.edges_info k = lookupA rta.edges_info k) ∧
        (∀ x y : PeerId,
          (∀ e ∈ edges,
            ¬ ((x = e.peer0 ∧ y = e.peer1) ∨ (x = e.peer1 ∧ y = e.peer0))) →
          rta2.raw_graph.contains_edge x y = rta.raw_graph.contains_edge x y) := by
  induction edges with
  | nil =>
    intro rta dels hG _ _ _
    exact ⟨rta, dels, rfl, hG, rfl, fun e he => absurd he (List.not_mem_nil e),
      fun e he => absurd he (List.not_mem_nil e), fun k _ => rfl, fun x y _ => rfl⟩
  | cons e rest ih =>
    intro rta dels hG hwf habs hnd
    obtain ⟨hei1, hrg1, hst1⟩ := touchPeerStep_fields me c now2 (rta, dels) e.peer0
    obtain ⟨hei2, hrg2, hst2⟩ := touchPeerStep_fields me c now2
      (touchPeerStep me c now2 (rta, dels) e.peer0) e.peer1
    set T2 := touchPeerStep me c now2
      (touchPeerStep me c now2 (rta, dels) e.peer0) e.peer1 with hT2
    have hei : T2.1.edges_info = rta.edges_info := by
      rw [hei2, hei1]
    have hrg : T2.1.raw_graph = rta.raw_graph := by
      rw [hrg2, hrg1]
    have hst : T2.1.store = rta.store := by
      rw [hst2, hst1]
    have hwf_e := hwf e (List.mem_cons_self e rest)
    have hne_e : e.peer0 ≠ e.peer1 := Nat.ne_of_lt hwf_e.1
    have habs_e : lookupA rta.edges_info ((e.peer0 : PeerId), (e.peer1 : PeerId)) = none :=
      habs e (List.mem_cons_self e rest)
    have hG2 : GraphInv T2.1.raw_graph := by
      rw [hrg]
      exact hG
    have hfn0 : T2.1.find_nonce e.get_pair = 0 := by
      unfold RoutingTableActor.find_nonce
      rw [hei]
      simp only [Edge.get_pair]
      rw [habs_e]
    have hfn : T2.1.find_nonce e.get_pair < e.nonce := by
      rw [hfn0]
      exact hwf_e.2
    obtain ⟨g2, ha, hInv2, hsrc2, hchar⟩ := add_edge_eval_accept T2.1 e hG2 hne_e hfn
    have hnd' := hnd
    rw [List.map_cons] at hnd'
    have hnotin : ((e.peer0 : PeerId), (e.peer1 : PeerId)) ∉
        rest.map (fun f => ((f.peer0 : PeerId), (f.peer1 : PeerId))) :=
      (List.nodup_cons.mp hnd').1
    have hndrest : (rest.map (fun f => ((f.peer0 : PeerId), (f.peer1 : PeerId)))).Nodup :=
      (List.nodup_cons.mp hnd').2
    have hwf_rest : ∀ f ∈ rest, f.peer0 < f.peer1 ∧ 1 ≤ f.nonce :=
      fun f hf => hwf f (List.mem_cons_of_mem e hf)
    have habs_rest : ∀ f ∈ rest,
        lookupA ({ T2.1 with
          raw_graph := g2
          edges_info := insertA T2.1.edges_info e.get_pair e }
            : RoutingTableActor).edges_info ((f.peer0 : PeerId), (f.peer1 : PeerId)) =
          none := by
      intro f hf
      have hkne : e.get_pair ≠ ((f.peer0 : PeerId), (f.peer1 : PeerId)) := by
        intro hc
        refine hnotin ?_
        rw [show ((e.peer0 : PeerId), (e.peer1 : PeerId)) = e.get_pair from rfl, hc]
        exact List.mem_map.mpr ⟨f, hf, rfl⟩
      show lookupA (insertA T2.1.edges_info e.get_pair e)
        ((f.peer0 : PeerId), (f.peer1 : PeerId)) = none
      rw [lookupA_insertA, if_neg hkne, hei]
      exact habs f (List.mem_cons_of_mem e hf)
    obtain ⟨rta2, dels2, hrun, hG3, hstore3, hlk3, hcont3, hprek3, hprec3⟩ :=
      ih { T2.1 with
          raw_graph := g2
          edges_info := insertA T2.1.edges_info e.get_pair e }
        T2.2 hInv2 hwf_rest habs_rest hndrest
    have hknr : ∀ f' ∈ rest,
        ((e.peer0 : PeerId), (e.peer1 : PeerId)) ≠ (f'.peer0, f'.peer1) := by
      intro f' hf' hc
      refine hnotin ?_
      rw [hc]
      exact List.mem_map.mpr ⟨f', hf', rfl⟩
    refine ⟨rta2, dels2, ?_, hG3, ?_, ?_, ?_, ?_, ?_⟩
    · rw [hT2] at ha
      rw [touchLoop]
      simp only [ha]
      exact hrun
    · rw [hstore3]
      show T2.1.store = rta.store
      exact hst
    · intro f hf
      rcases List.mem_cons.mp hf with h1 | h1
      · have hpres := hprek3 ((e.peer0 : PeerId), (e.peer1 : PeerId)) hknr
        rw [h1, hpres]
        show lookupA (insertA T2.1.edges_info e.get_pair e)
          ((e.peer0 : PeerId), (e.peer1 : PeerId)) = some e
        rw [lookupA_insertA,
          if_pos (show e.get_pair = ((e.peer0 : PeerId), (e.peer1 : PeerId)) from rfl)]
      · exact hlk3 f h1
    · intro f hf hty
      rcases List.mem_cons.mp hf with h1 | h1
      · have hpnr : ∀ f' ∈ rest,
            ¬ ((e.peer0 = f'.peer0 ∧ e.peer1 = f'.peer1) ∨
              (e.peer0 = f'.peer1 ∧ e.peer1 = f'.peer0)) := by
          intro f' hf' hc
          rcases hc with ⟨hc1, hc2⟩ | ⟨hc1, hc2⟩
          · exact hknr f' hf' (by rw [hc1, hc2])
          · have hf'wf := hwf f' (List.mem_cons_of_mem e hf')
            have h5 : f'.peer1 < f'.peer0 := by
              rw [← hc1, ← hc2]
              exact hwf_e.1
            exact Nat.lt_asymm hf'wf.1 h5
        have hpres := hprec3 e.peer0 e.peer1 hpnr
        rw [h1] at hty
        rw [h1, hpres]
        have hgc := hchar e.peer0 e.peer1
        rw [hty, if_pos rfl] at hgc
        exact hgc.mpr (Or.inr (Or.inl ⟨rfl, rfl⟩))
      · exact hcont3 f h1 hty
    · intro k hk
      have hpres := hprek3 k (fun f' hf' => hk f' (List.mem_cons_of_mem e hf'))
      rw [hpres]
      show lookupA (insertA T2.1.edges_info e.get_pair e) k = lookupA rta.edges_info k
      rw [lookupA_insertA,
        if_neg (show ¬ e.get_pair = k from
          fun hc => hk e (List.mem_cons_self e rest) hc.symm),
        hei]
    · intro x y hxy
      have hpres := hprec3 x y (fun f' hf' => hxy f' (List.mem_cons_of_mem e hf'))
      rw [hpres]
      have hgc := hchar x y
      have hxye := hxy e (List.mem_cons_self e rest)
      cases het : e.edge_type with
      | Added =>
        rw [het, if_pos rfl] at hgc
        have hsame : g2.contains_edge x y = T2.1.raw_graph.contains_edge x y := by
          cases hb : T2.1.raw_graph.contains_edge x y with
          | false =>
            rw [Bool.eq_false_iff]
            intro hgt
            rcases hgc.mp hgt with hold | hp | hp
            · rw [hb] at hold
              exact Bool.noConfusion hold
            · exact hxye (Or.inl hp)
            · exact hxye (Or.inr hp)
          | true => exact hgc.mpr (Or.inl hb)
        show g2.contains_edge x y = rta.raw_graph.contains_edge x y
        rw [hsame, hrg]
      | Removed =>
        rw [het, if_neg (show ¬ (EdgeType.Removed = EdgeType.Added) from
          fun hz => EdgeType.noConfusion hz)] at hgc
        have hsame : g2.contains_edge x y = T2.1.raw_graph.contains_edge x y := by
          cases hb : T2.1.raw_graph.contains_edge x y with
          | false =>
            rw [Bool.eq_false_iff]
            intro hgt
            have h6 := (hgc.mp hgt).1
            rw [hb] at h6
            exact Bool.noConfusion h6
          | true => exact hgc.mpr ⟨hb, hxye⟩
        show g2.contains_edge x y = rta.raw_graph.contains_edge x y
        rw [hsame, hrg]

/-- C9.  Pruning a fully-stale state into an on-disk component and then
touching any tracked non-source peer of that component restores every
pruned edge in the EdgeLog at its original canonical key with its original
nonce, keeps the Added edges present in the graph, and deletes the
component's `ComponentEdges` store entry. -/
theorem C9_compaction_round_trip (rta : RoutingTableActor) (now now2 : Int) (p : PeerId)
    (hG : GraphInv rta.raw_graph)
    (hkeys : (rta.edges_info.map (fun kv => kv.1)).Nodup)
    (hwf : ∀ kv ∈ rta.edges_info,
      kv.1 = ((kv.2.peer0 : PeerId), (kv.2.peer1 : PeerId)) ∧
      kv.2.peer0 < kv.2.peer1 ∧ 1 ≤ kv.2.nonce)
    (hplt : ∀ kv ∈ rta.peer_last_time_reachable, kv.2 ≤ now)
    (hcover : ∀ kv ∈ rta.edges_info,
      (lookupA rta.peer_last_time_reachable kv.2.peer0).isSome = true)
    (hp : (lookupA rta.peer_last_time_reachable p).isSome = true)
    (hpme : p ≠ rta.raw_graph.source) :
    (rta.update true true 0 now).2 = rta.edges_info.map (fun kv => kv.2) ∧
    ∃ rta2, (rta.update true true 0 now).1.touch p now2 = some rta2 ∧
      (∀ kv ∈ rta.edges_info, lookupA rta2.edges_info kv.1 = some kv.2) ∧
      (∀ kv ∈ rta.edges_info, kv.2.edge_type = EdgeType.Added →
        rta2.raw_graph.contains_edge kv.2.peer0 kv.2.peer1 = true) ∧
      lookupA rta2.store.componentEdges rta.component_nonce = none := by
  set pf := rta.raw_graph.calculate_distance with hpf
  set pltr1 := pf.foldl (fun m kv => insertA m kv.1 now)
    rta.peer_last_time_reachable with hpltr1
  set RTA1 : RoutingTableActor :=
    { rta with peer_forwarding := pf, peer_last_time_reachable := pltr1 } with hRTA1
  have hupd : rta.update true true 0 now = RTA1.try_save_edges true 0 now := rfl
  have hplt1 : ∀ kv ∈ pltr1, kv.2 ≤ now := by
    rw [hpltr1]
    exact fold_insert_le pf rta.peer_last_time_reachable now hplt
  have hsk : staleKeys RTA1.peer_last_time_reachable 0 now =
      pltr1.map (fun kv => kv.1) := by
    show staleKeys pltr1 0 now = pltr1.map (fun kv => kv.1)
    unfold staleKeys
    rw [filter_all_true pltr1 (fun kv => decide (((0 : Nat) : Int) ≤ now - kv.2))
      (fun kv hkv => decide_eq_true (show ((0 : Nat) : Int) ≤ now - kv.2 from by
        have h9 := hplt1 kv hkv
        omega))]
  have hkeys1 : ∀ q : PeerId, (lookupA rta.peer_last_time_reachable q).isSome = true →
      ∃ t, (q, t) ∈ pltr1 := by
    intro q hq
    rw [hpltr1]
    exact fold_insert_keys pf rta.peer_last_time_reachable now q
      (lookupA_isSome_mem _ q hq)
  have hts_mem : ∀ q : PeerId, (∃ t, (q, t) ∈ pltr1) →
      (staleKeys RTA1.peer_last_time_reachable 0 now).contains q = true := by
    intro q hq
    rw [hsk]
    obtain ⟨t, ht⟩ := hq
    exact contains_mem.mpr (List.mem_map.mpr ⟨(q, t), ht, rfl⟩)
  have hcov1 : ∀ kv ∈ rta.edges_info,
      ((staleKeys RTA1.peer_last_time_reachable 0 now).contains kv.1.1 ||
        (staleKeys RTA1.peer_last_time_reachable 0 now).contains kv.1.2) = true := by
    intro kv hkv
    have h1 : kv.1.1 = kv.2.peer0 := by
      rw [(hwf kv hkv).1]
    rw [h1, hts_mem kv.2.peer0 (hkeys1 kv.2.peer0 (hcover kv hkv)), Bool.true_or]
  have hremoved : RTA1.edges_info.filter
      (fun kv => (staleKeys RTA1.peer_last_time_reachable 0 now).contains kv.1.1 ||
        (staleKeys RTA1.peer_last_time_reachable 0 now).contains kv.1.2) =
      rta.edges_info := by
    show rta.edges_info.filter _ = rta.edges_info
    exact filter_all_true _ _ hcov1
  have hkept : RTA1.edges_info.filter
      (fun kv =>
        !((staleKeys RTA1.peer_last_time_reachable 0 now).contains kv.1.1 ||
          (staleKeys RTA1.peer_last_time_reachable 0 now).contains kv.1.2)) = [] := by
    show rta.edges_info.filter _ = []
    refine filter_all_false _ _ ?_
    intro kv hkv
    rw [hcov1 kv hkv]
    rfl
  have hplt2 : RTA1.peer_last_time_reachable.filter
      (fun kv =>
        !((staleKeys RTA1.peer_last_time_reachable 0 now).contains kv.1)) = [] := by
    show pltr1.filter _ = []
    refine filter_all_false _ _ ?_
    intro kv hkv
    rw [hts_mem kv.1 ⟨kv.2, hkv⟩]
    rfl
  set SK := pltr1.map (fun kv => kv.1) with hSK
  set PC := SK.foldl (fun m q => insertA m q rta.component_nonce)
    rta.store.peerComponent with hPC
  set REM := rta.edges_info.map (fun kv => kv.2) with hREM
  set RTA2 : RoutingTableActor := { rta with
    peer_forwarding := pf
    peer_last_time_reachable := []
    edges_info := []
    component_nonce := rta.component_nonce + 1
    store := Store.mk (some rta.component_nonce) PC
      (insertA rta.store.componentEdges rta.component_nonce REM) } with hRTA2
  have hstep : rta.update true true 0 now = (RTA2, REM) := by
    rw [hupd]
    unfold RoutingTableActor.try_save_edges
    rw [if_neg (show ¬ ((true : Bool) = false ∧
        now - oldestTime RTA1.peer_last_time_reachable now <
          (SAVE_PEERS_MAX_TIME : Int)) from fun h => Bool.noConfusion h.1)]
    rw [hremoved, hkept, hplt2, hsk]
  refine ⟨?_, ?_⟩
  · rw [hstep]
  · have hlkp : lookupA RTA2.store.peerComponent p = some rta.component_nonce := by
      show lookupA PC p = some rta.component_nonce
      rw [hPC]
      refine lookupA_fold_mem SK rta.store.peerComponent rta.component_nonce p ?_
      rw [hSK]
      obtain ⟨t, ht⟩ := hkeys1 p hp
      exact List.mem_map.mpr ⟨(p, t), ht, rfl⟩
    have hlkc : lookupA RTA2.store.componentEdges rta.component_nonce = some REM := by
      show lookupA (insertA rta.store.componentEdges rta.component_nonce REM)
        rta.component_nonce = some REM
      rw [lookupA_insertA, if_pos rfl]
    have hguard : ¬ (p = RTA2.raw_graph.source ∨
        (lookupA RTA2.peer_last_time_reachable p).isSome = true) := by
      rintro (h | h)
      · exact hpme h
      · exact Bool.noConfusion h
    have hwfR : ∀ e ∈ REM, e.peer0 < e.peer1 ∧ 1 ≤ e.nonce := by
      rw [hREM]
      intro e he
      obtain ⟨kv, hkv, hkve⟩ := List.mem_map.mp he
      rw [← hkve]
      exact ⟨(hwf kv hkv).2.1, (hwf kv hkv).2.2⟩
    have hndR : (REM.map (fun f => ((f.peer0 : PeerId), (f.peer1 : PeerId)))).Nodup := by
      rw [hREM, List.map_map]
      have hcongr : rta.edges_info.map
          ((fun f => ((f.peer0 : PeerId), (f.peer1 : PeerId))) ∘ (fun kv => kv.2)) =
          rta.edges_info.map (fun kv => kv.1) := by
        refine List.map_congr_left ?_
        intro kv hkv
        show ((kv.2.peer0 : PeerId), (kv.2.peer1 : PeerId)) = kv.1
        rw [(hwf kv hkv).1]
      rw [hcongr]
      exact hkeys
    obtain ⟨rta2L, dels2, hloop, hG2L, hst2L, hlk2, hcont2, hprek2, hprec2⟩ :=
      touchLoop_restore RTA2.raw_graph.source rta.component_nonce now2 REM RTA2 []
        (show GraphInv RTA2.raw_graph from hG) hwfR
        (fun e he => rfl) hndR
    refine ⟨{ rta2L with store :=
        { lastComponentNonce := rta2L.store.lastComponentNonce
          peerComponent := dels2.foldl (fun m q => eraseA m q) rta2L.store.peerComponent
          componentEdges := eraseA rta2L.store.componentEdges rta.component_nonce } },
      ?_, ?_, ?_, ?_⟩
    · rw [hstep]
      show RTA2.touch p now2 = _
      unfold RoutingTableActor.touch
      rw [if_neg hguard]
      simp only [hlkp, hlkc, hloop]
    · intro kv hkv
      have he : kv.2 ∈ REM := by
        rw [hREM]
        exact List.mem_map.mpr ⟨kv, hkv, rfl⟩
      show lookupA rta2L.edges_info kv.1 = some kv.2
      rw [(hwf kv hkv).1]
      exact hlk2 kv.2 he
    · intro kv hkv hty
      have he : kv.2 ∈ REM := by
        rw [hREM]
        exact List.mem_map.mpr ⟨kv, hkv, rfl⟩
      show rta2L.raw_graph.contains_edge kv.2.peer0 kv.2.peer1 = true
      exact hcont2 kv.2 he hty
    · show lookupA (eraseA rta2L.store.componentEdges rta.component_nonce)
        rta.component_nonce = none
      rw [lookupA_eraseA, if_pos rfl]

/-- Concrete actor state for the compaction round-trip witness: one Added
edge {1,2}, both peers reachable, component nonce 0. -/
def C9rta : RoutingTableActor :=
  RoutingTableActor.mk
    [((1, 2), Edge.mk 1 2 1 Signature.empty Signature.empty none)]
    (Graph.mk 0 0 [(2, 2), (1, 1), (0, 0)] [0, 1, 2] [true, true, true] []
      [[], [2], [1]] 1)
    [] [(2, 0), (1, 0)] emptyStore 0

theorem C9_witness :
    GraphInv C9rta.raw_graph ∧
    ((C9rta.update true true 0 10000).2 = C9rta.edges_info.map (fun kv => kv.2) ∧
      ∃ rta2, (C9rta.update true true 0 10000).1.touch 1 20000 = some rta2 ∧
        (∀ kv ∈ C9rta.edges_info, lookupA rta2.edges_info kv.1 = some kv.2) ∧
        (∀ kv ∈ C9rta.edges_info, kv.2.edge_type = EdgeType.Added →
          rta2.raw_graph.contains_edge kv.2.peer0 kv.2.peer1 = true) ∧
        lookupA rta2.store.componentEdges C9rta.component_nonce = none) :=
  ⟨runGraphOps_inv [GraphOp.add 1 2] (Graph.new 0) (graphInv_new 0)
      C9rta.raw_graph (by decide),
    C9_compaction_round_trip C9rta 10000 20000 1
      (runGraphOps_inv [GraphOp.add 1 2] (Graph.new 0) (graphInv_new 0)
        C9rta.raw_graph (by decide))
      (by decide) (by decide) (by decide) (by decide) (by decide) (by decide)⟩

/-! ### Walks and shortest distances in slot and peer space (claim C5) -/

/-- Walks of exact length `k` in the slot-level adjacency structure. -/
def swalkB (adj : List (List Nat)) : Nat → Nat → Nat → Bool
  | 0, u, v => decide (u = v)
  | k + 1, u, v => (adj.getD u []).any (fun w => swalkB adj k w v)

/-- `e` is the exact shortest-walk length from `u` to `v`. -/
def distIs (adj : List (List Nat)) (u v : Nat) (e : Nat) : Prop :=
  swalkB adj e u v = true ∧ ∀ j, j < e → swalkB adj j u v = false

/-- Walks of exact length `k` in the peer-level undirected graph, stepping
through `contains_edge`. -/
def walkB (g : Graph) : Nat → PeerId → PeerId → Bool
  | 0, p, q => decide (p = q)
  | k + 1, p, q => g.id2p.any (fun r => g.contains_edge p r && walkB g k r q)

/-- `e` is the exact shortest-walk length from peer `p` to peer `q`. -/
def pdistIs (g : Graph) (p q : PeerId) (e : Nat) : Prop :=
  walkB g e p q = true ∧ ∀ j, j < e → walkB g j p q = false

theorem swalkB_zero_iff (adj : List (List Nat)) (u v : Nat) :
    swalkB adj 0 u v = true ↔ u = v := by
  rw [swalkB]
  constructor
  · exact of_decide_eq_true
  · exact decide_eq_true

theorem swalkB_succ_iff (adj : List (List Nat)) (k u v : Nat) :
    swalkB adj (k + 1) u v = true ↔ ∃ w ∈ adj.getD u [], swalkB adj k w v = true := by
  rw [swalkB]
  exact List.any_eq_true

theorem swalkB_snoc (adj : List (List Nat)) (k u y x : Nat)
    (hw : swalkB adj k u y = true) (hx : x ∈ adj.getD y []) :
    swalkB adj (k + 1) u x = true := by
  induction k generalizing u with
  | zero =>
    have hu : u = y := (swalkB_zero_iff adj u y).mp hw
    subst hu
    exact (swalkB_succ_iff adj 0 u x).mpr ⟨x, hx, (swalkB_zero_iff adj x x).mpr rfl⟩
  | succ k ih =>
    obtain ⟨w, hwm, hww⟩ := (swalkB_succ_iff adj k u y).mp hw
    exact (swalkB_succ_iff adj (k + 1) u x).mpr ⟨w, hwm, ih w hww⟩

theorem swalkB_snoc_inv (adj : List (List Nat)) (k u x : Nat)
    (hw : swalkB adj (k + 1) u x = true) :
    ∃ y, swalkB adj k u y = true ∧ x ∈ adj.getD y [] := by
  induction k generalizing u with
  | zero =>
    obtain ⟨w, hwm, hww⟩ := (swalkB_succ_iff adj 0 u x).mp hw
    have hwx : w = x := (swalkB_zero_iff adj w x).mp hww
    subst hwx
    exact ⟨u, (swalkB_zero_iff adj u u).mpr rfl, hwm⟩
  | succ k ih =>
    obtain ⟨w, hwm, hww⟩ := (swalkB_succ_iff adj (k + 1) u x).mp hw
    obtain ⟨y, hy1, hy2⟩ := ih w hww
    exact ⟨y, (swalkB_succ_iff adj k u y).mpr ⟨w, hwm, hy1⟩, hy2⟩

theorem distIs_exists (adj : List (List Nat)) (u v : Nat) :
    ∀ k, swalkB adj k u v = true → ∃ e, e ≤ k ∧ distIs adj u v e := by
  intro k
  induction k using Nat.strong_induction_on with
  | _ k ih =>
    intro hk
    by_cases hmin : ∀ j, j < k → swalkB adj j u v = false
    · exact ⟨k, le_refl k, hk, hmin⟩
    · push_neg at hmin
      obtain ⟨j, hj, hjw⟩ := hmin
      have hjt : swalkB adj j u v = true := by
        cases h : swalkB adj j u v
        · exact absurd h hjw
        · rfl
      obtain ⟨e, he, hd⟩ := ih j hj hjt
      exact ⟨e, le_trans he (le_of_lt hj), hd⟩

theorem distIs_unique (adj : List (List Nat)) (u v : Nat) (e e' : Nat)
    (h1 : distIs adj u v e) (h2 : distIs adj u v e') : e = e' := by
  rcases Nat.lt_trichotomy e e' with h | h | h
  · have hf := h2.2 e h
    rw [h1.1] at hf
    exact Bool.noConfusion hf
  · exact h
  · have hf := h1.2 e' h
    rw [h2.1] at hf
    exact Bool.noConfusion hf

theorem distIs_self (adj : List (List Nat)) (u : Nat) : distIs adj u u 0 :=
  ⟨(swalkB_zero_iff adj u u).mpr rfl, fun j hj => absurd hj (Nat.not_lt_zero j)⟩

theorem distIs_zero_eq (adj : List (List Nat)) (u v : Nat) (h : distIs adj u v 0) :
    u = v :=
  (swalkB_zero_iff adj u v).mp h.1

theorem mem_getD {α : Type} (l : List α) (j : Nat) (d : α) (h : j < l.length) :
    l.getD j d ∈ l := by
  induction l generalizing j with
  | nil => simp at h
  | cons x xs ih =>
    cases j with
    | zero => exact List.mem_cons_self x xs
    | succ j' =>
      have hstep : (x :: xs).getD (j' + 1) d = xs.getD j' d := rfl
      rw [hstep]
      exact List.mem_cons_of_mem x (ih j' (by simpa using h))

theorem mem_exists_getD {α : Type} (l : List α) (x : α) (d : α) (h : x ∈ l) :
    ∃ j, j < l.length ∧ l.getD j d = x := by
  induction l with
  | nil => simp at h
  | cons a t ih =>
    rcases List.mem_cons.mp h with h1 | h2
    · exact ⟨0, by simp, h1.symm⟩
    · obtain ⟨j, hj, hx⟩ := ih h2
      refine ⟨j + 1, by simpa using Nat.succ_lt_succ hj, ?_⟩
      have hstep : (a :: t).getD (j + 1) d = t.getD j d := rfl
      rw [hstep]
      exact hx

theorem nodup_getD_inj {α : Type} (l : List α) (d : α) (hn : l.Nodup) (i j : Nat)
    (hi : i < l.length) (hj : j < l.length) (h : l.getD i d = l.getD j d) : i = j := by
  induction l generalizing i j with
  | nil => simp at hi
  | cons a t ih =>
    have hna : a ∉ t := (List.nodup_cons.mp hn).1
    have hnt : t.Nodup := (List.nodup_cons.mp hn).2
    cases i with
    | zero =>
      cases j with
      | zero => rfl
      | succ j' =>
        exfalso
        apply hna
        have hstep : (a :: t).getD (j' + 1) d = t.getD j' d := rfl
        rw [hstep] at h
        have h0 : (a :: t).getD 0 d = a := rfl
        rw [h0] at h
        rw [h]
        exact mem_getD t j' d (by simpa using hj)
    | succ i' =>
      cases j with
      | zero =>
        exfalso
        apply hna
        have hstep : (a :: t).getD (i' + 1) d = t.getD i' d := rfl
        rw [hstep] at h
        have h0 : (a :: t).getD 0 d = a := rfl
        rw [h0] at h
        rw [← h]
        exact mem_getD t i' d (by simpa using hi)
      | succ j' =>
        have hstep1 : (a :: t).getD (i' + 1) d = t.getD i' d := rfl
        have hstep2 : (a :: t).getD (j' + 1) d = t.getD j' d := rfl
        rw [hstep1, hstep2] at h
        have := ih hnt i' j' (by simpa using hi) (by simpa using hj) h
        omega

theorem getD_replicate {α : Type} (n : Nat) (a d : α) (j : Nat) :
    (List.replicate n a).getD j d = if j < n then a else d := by
  induction n generalizing j with
  | zero => simp [List.getD]
  | succ n ih =>
    cases j with
    | zero =>
      rw [if_pos (Nat.succ_pos n)]
      rfl
    | succ j' =>
      have hstep : (List.replicate (n + 1) a).getD (j' + 1) d =
          (List.replicate n a).getD j' d := rfl
      rw [hstep, ih j']
      by_cases h : j' < n
      · rw [if_pos h, if_pos (show j' + 1 < n + 1 from by omega)]
      · rw [if_neg h, if_neg (show ¬ j' + 1 < n + 1 from by omega)]

/-! ### Step evaluation and functional characterization of the BFS inner loop -/

theorem bfsInner_cons_new (cur : Nat) (c : Int) (y : Nat) (rest : List Nat)
    (dist : List Int) (routes queue : List Nat)
    (h : dist.getD y (-1) = -1) (hlt : y < dist.length) :
    bfsInner cur c (y :: rest) (dist, routes, queue) =
      bfsInner cur c rest
        (dist.set y (c + 1),
         routes.set y (Nat.lor (routes.getD y 0) (routes.getD cur 0)),
         queue ++ [y]) := by
  rw [bfsInner]
  simp only [h, if_true]
  rw [getD_set_self dist y (c + 1) (-1) hlt]
  rw [if_pos (show ((c : Int) + 1 = c + 1) from rfl)]

theorem bfsInner_cons_frontier (cur : Nat) (c : Int) (y : Nat) (rest : List Nat)
    (dist : List Int) (routes queue : List Nat)
    (h : dist.getD y (-1) ≠ -1) (h2 : dist.getD y (-1) = c + 1) :
    bfsInner cur c (y :: rest) (dist, routes, queue) =
      bfsInner cur c rest
        (dist, routes.set y (Nat.lor (routes.getD y 0) (routes.getD cur 0)), queue) := by
  rw [bfsInner]
  simp only [if_neg h]
  rw [h2]
  rw [if_pos (show ((c : Int) + 1 = c + 1) from rfl)]

theorem bfsInner_cons_skip (cur : Nat) (c : Int) (y : Nat) (rest : List Nat)
    (dist : List Int) (routes queue : List Nat)
    (h : dist.getD y (-1) ≠ -1) (h2 : dist.getD y (-1) ≠ c + 1) :
    bfsInner cur c (y :: rest) (dist, routes, queue) =
      bfsInner cur c rest (dist, routes, queue) := by
  rw [bfsInner]
  simp only [if_neg h]
  rw [if_neg h2]

theorem bfsInner_spec (cur : Nat) (c : Int) :
    ∀ (l : List Nat) (dist : List Int) (routes : List Nat) (queue : List Nat),
      cur ∉ l → l.Nodup →
      (∀ y ∈ l, y < dist.length) → routes.length = dist.length →
      ∃ dist2 routes2,
        bfsInner cur c l (dist, routes, queue) =
          (dist2, routes2,
            queue ++ l.filter (fun y => decide (dist.getD y (-1) = -1))) ∧
        dist2.length = dist.length ∧ routes2.length = dist.length ∧
        (∀ x, x ∈ l → dist.getD x (-1) = -1 → dist2.getD x (-1) = c + 1) ∧
        (∀ x, x ∈ l → dist.getD x (-1) ≠ -1 →
          dist2.getD x (-1) = dist.getD x (-1)) ∧
        (∀ x, x ∉ l → dist2.getD x (-1) = dist.getD x (-1)) ∧
        (∀ x, x ∈ l → (dist.getD x (-1) = -1 ∨ dist.getD x (-1) = c + 1) →
          routes2.getD x 0 = Nat.lor (routes.getD x 0) (routes.getD cur 0)) ∧
        (∀ x, x ∈ l → ¬(dist.getD x (-1) = -1 ∨ dist.getD x (-1) = c + 1) →
          routes2.getD x 0 = routes.getD x 0) ∧
        (∀ x, x ∉ l → routes2.getD x 0 = routes.getD x 0) := by
  intro l
  induction l with
  | nil =>
    intro dist routes queue _ _ _ hrl
    refine ⟨dist, routes, ?_, rfl, hrl, ?_, ?_, ?_, ?_, ?_, ?_⟩
    · simp [bfsInner]
    · exact fun x hx => absurd hx (List.not_mem_nil x)
    · exact fun x hx => absurd hx (List.not_mem_nil x)
    · exact fun x hx => rfl
    · exact fun x hx => absurd hx (List.not_mem_nil x)
    · exact fun x hx => absurd hx (List.not_mem_nil x)
    · exact fun x hx => rfl
  | cons y rest ih =>
    intro dist routes queue hcur hnd hb hrl
    have hcur_rest : cur ∉ rest := fun hc => hcur (List.mem_cons_of_mem y hc)
    have hcur_y : cur ≠ y := fun hc => hcur (hc ▸ List.mem_cons_self y rest)
    have hy_rest : y ∉ rest := (List.nodup_cons.mp hnd).1
    have hnd_rest : rest.Nodup := (List.nodup_cons.mp hnd).2
    have hy_lt : y < dist.length := hb y (List.mem_cons_self y rest)
    have hy_ltr : y < routes.length := by rw [hrl]; exact hy_lt
    rcases Classical.em (dist.getD y (-1) = -1) with h | h
    · -- newly discovered
      rw [bfsInner_cons_new cur c y rest dist routes queue h hy_lt]
      obtain ⟨dist2, routes2, heq, hl1, hl2, hd_new, hd_old, hd_out, hr_or,
        hr_keep, hr_out⟩ :=
        ih (dist.set y (c + 1))
          (routes.set y (Nat.lor (routes.getD y 0) (routes.getD cur 0)))
          (queue ++ [y]) hcur_rest hnd_rest
          (fun z hz => by rw [List.length_set]; exact hb z (List.mem_cons_of_mem y hz))
          (by rw [List.length_set, List.length_set, hrl])
      have hset_ne : ∀ z, z ∈ rest → (dist.set y (c + 1)).getD z (-1) = dist.getD z (-1) :=
        fun z hz => getD_set_ne dist y z (c + 1) (-1)
          (fun hc => hy_rest (hc ▸ hz))
      have hrset_ne : ∀ z, z ≠ y →
          (routes.set y (Nat.lor (routes.getD y 0) (routes.getD cur 0))).getD z 0 =
            routes.getD z 0 :=
        fun z hz => getD_set_ne routes y z _ 0 (fun hc => hz hc.symm)
      have hfil : rest.filter (fun z => decide ((dist.set y (c + 1)).getD z (-1) = -1)) =
          rest.filter (fun z => decide (dist.getD z (-1) = -1)) :=
        List.filter_congr (fun z hz => by rw [hset_ne z hz])
      refine ⟨dist2, routes2, ?_, ?_, ?_, ?_, ?_, ?_, ?_, ?_, ?_⟩
      · rw [heq, hfil]
        rw [List.filter_cons_of_pos (by rw [h]; rfl)]
        rw [List.append_assoc]
        rfl
      · rw [hl1, List.length_set]
      · rw [hl2, List.length_set]
      · intro x hx hxd
        rcases List.mem_cons.mp hx with hxy | hxr
        · subst hxy
          rw [hd_out x hy_rest]
          exact getD_set_self dist x (c + 1) (-1) hy_lt
        · rw [hd_new x hxr (by rw [hset_ne x hxr]; exact hxd)]
      · intro x hx hxd
        rcases List.mem_cons.mp hx with hxy | hxr
        · exact absurd (hxy ▸ h) hxd
        · rw [hd_old x hxr (by rw [hset_ne x hxr]; exact hxd), hset_ne x hxr]
      · intro x hx
        have hxy : x ≠ y := fun hc => hx (hc ▸ List.mem_cons_self y rest)
        have hxr : x ∉ rest := fun hc => hx (List.mem_cons_of_mem y hc)
        rw [hd_out x hxr]
        exact getD_set_ne dist y x (c + 1) (-1) (fun hc => hxy hc.symm)
      · intro x hx hxd
        rcases List.mem_cons.mp hx with hxy | hxr
        · subst hxy
          rw [hr_out x hy_rest]
          exact getD_set_self routes x _ 0 hy_ltr
        · have hor : (dist.set y (c + 1)).getD x (-1) = -1 ∨
              (dist.set y (c + 1)).getD x (-1) = c + 1 := by
            rw [hset_ne x hxr]; exact hxd
          rw [hr_or x hxr hor, hrset_ne x (fun hc => hy_rest (hc ▸ hxr)),
            hrset_ne cur hcur_y]
      · intro x hx hxd
        rcases List.mem_cons.mp hx with hxy | hxr
        · exact absurd (Or.inl (hxy ▸ h)) hxd
        · have hnor : ¬((dist.set y (c + 1)).getD x (-1) = -1 ∨
              (dist.set y (c + 1)).getD x (-1) = c + 1) := by
            rw [hset_ne x hxr]; exact hxd
          rw [hr_keep x hxr hnor, hrset_ne x (fun hc => hy_rest (hc ▸ hxr))]
      · intro x hx
        have hxy : x ≠ y := fun hc => hx (hc ▸ List.mem_cons_self y rest)
        have hxr : x ∉ rest := fun hc => hx (List.mem_cons_of_mem y hc)
        rw [hr_out x hxr, hrset_ne x hxy]
    · rcases Classical.em (dist.getD y (-1) = c + 1) with h2 | h2
      · -- frontier node: OR the routes
        rw [bfsInner_cons_frontier cur c y rest dist routes queue h h2]
        obtain ⟨dist2, routes2, heq, hl1, hl2, hd_new, hd_old, hd_out, hr_or,
          hr_keep, hr_out⟩ :=
          ih dist (routes.set y (Nat.lor (routes.getD y 0) (routes.getD cur 0)))
            queue hcur_rest hnd_rest
            (fun z hz => hb z (List.mem_cons_of_mem y hz))
            (by rw [List.length_set, hrl])
        have hrset_ne : ∀ z, z ≠ y →
            (routes.set y (Nat.lor (routes.getD y 0) (routes.getD cur 0))).getD z 0 =
              routes.getD z 0 :=
          fun z hz => getD_set_ne routes y z _ 0 (fun hc => hz hc.symm)
        refine ⟨dist2, routes2, ?_, hl1, hl2, ?_, ?_, ?_, ?_, ?_, ?_⟩
        · rw [heq]
          rw [List.filter_cons_of_neg (by rw [decide_eq_false h]; exact Bool.false_ne_true)]
        · intro x hx hxd
          rcases List.mem_cons.mp hx with hxy | hxr
          · exact absurd (hxy ▸ hxd) h
          · exact hd_new x hxr hxd
        · intro x hx hxd
          rcases List.mem_cons.mp hx with hxy | hxr
          · subst hxy
            exact hd_out x hy_rest
          · exact hd_old x hxr hxd
        · intro x hx
          exact hd_out x (fun hc => hx (List.mem_cons_of_mem y hc))
        · intro x hx hxd
          rcases List.mem_cons.mp hx with hxy | hxr
          · subst hxy
            rw [hr_out x hy_rest]
            exact getD_set_self routes x _ 0 hy_ltr
          · rw [hr_or x hxr hxd, hrset_ne x (fun hc => hy_rest (hc ▸ hxr)),
              hrset_ne cur hcur_y]
        · intro x hx hxd
          rcases List.mem_cons.mp hx with hxy | hxr
          · exact absurd (Or.inr (hxy ▸ h2)) hxd
          · rw [hr_keep x hxr hxd, hrset_ne x (fun hc => hy_rest (hc ▸ hxr))]
        · intro x hx
          have hxy : x ≠ y := fun hc => hx (hc ▸ List.mem_cons_self y rest)
          rw [hr_out x (fun hc => hx (List.mem_cons_of_mem y hc)), hrset_ne x hxy]
      · -- skipped neighbor
        rw [bfsInner_cons_skip cur c y rest dist routes queue h h2]
        obtain ⟨dist2, routes2, heq, hl1, hl2, hd_new, hd_old, hd_out, hr_or,
          hr_keep, hr_out⟩ :=
          ih dist routes queue hcur_rest hnd_rest
            (fun z hz => hb z (List.mem_cons_of_mem y hz)) hrl
        refine ⟨dist2, routes2, ?_, hl1, hl2, ?_, ?_, ?_, ?_, ?_, ?_⟩
        · rw [heq]
          rw [List.filter_cons_of_neg (by rw [decide_eq_false h]; exact Bool.false_ne_true)]
        · intro x hx hxd
          rcases List.mem_cons.mp hx with hxy | hxr
          · exact absurd (hxy ▸ hxd) h
          · exact hd_new x hxr hxd
        · intro x hx hxd
          rcases List.mem_cons.mp hx with hxy | hxr
          · subst hxy
            exact hd_out x hy_rest
          · exact hd_old x hxr hxd
        · intro x hx
          exact hd_out x (fun hc => hx (List.mem_cons_of_mem y hc))
        · intro x hx hxd
          rcases List.mem_cons.mp hx with hxy | hxr
          · exact absurd (hxy ▸ hxd) (by
              intro hor
              rcases hor with h9 | h9
              · exact h h9
              · exact h2 h9)
          · exact hr_or x hxr hxd
        · intro x hx hxd
          rcases List.mem_cons.mp hx with hxy | hxr
          · subst hxy
            exact hr_out x hy_rest
          · exact hr_keep x hxr hxd
        · intro x hx
          exact hr_out x (fun hc => hx (List.mem_cons_of_mem y hc))

/-! ### BFS loop invariant (claim C5) -/

/-- Well-formedness of the slot adjacency structure, as established by
`GraphInv`: bounded, symmetric, duplicate-free and irreflexive. -/
structure AdjOK (adj : List (List Nat)) (n : Nat) : Prop where
  lt : ∀ i j, j ∈ adj.getD i [] → j < n
  symm : ∀ i j, j ∈ adj.getD i [] ↔ i ∈ adj.getD j []
  nodup : ∀ i, (adj.getD i []).Nodup
  irrefl : ∀ i, i ∉ adj.getD i []

/-- Bit `i` of the routes bitset of node `x` should be set exactly when the
`i`-th neighbor of the source lies on a shortest path from `s` to `x`. -/
def FirstHopS (adj : List (List Nat)) (s x i : Nat) : Prop :=
  i < (adj.getD s []).length ∧
  ∃ e, distIs adj s x (e + 1) ∧ distIs adj ((adj.getD s []).getD i 0) x e

/-- Number of undiscovered slots; the BFS termination measure combines it
with the queue length. -/
def undisc (n : Nat) (dist : List Int) : Nat :=
  ((Finset.range n).filter (fun x => dist.getD x (-1) = -1)).card

/-- The invariant of the BFS `while` loop of `calculate_distance`.  The queue
is `q1 ++ q2` with `q1` at distance `d` and `q2` at distance `d + 1`;
discovered distances are exact shortest-walk lengths; routes of nodes within
distance `d` are final first-hop bitsets, and routes of the `d + 1` frontier
accumulate the OR over their already-processed distance-`d` predecessors. -/
structure BfsInv (adj : List (List Nat)) (n s : Nat) (q1 q2 : List Nat)
    (dist : List Int) (routes : List Nat) (d : Nat) : Prop where
  hd1 : 1 ≤ d
  len_dist : dist.length = n
  len_routes : routes.length = n
  src_lt : s < n
  src_dist : dist.getD s (-1) = 0
  vals : ∀ x, dist.getD x (-1) = -1 ∨
    ∃ e : Nat, dist.getD x (-1) = (e : Int) ∧ e ≤ d + 1 ∧ x < n ∧ distIs adj s x e
  complete : ∀ (x : Nat) (e : Nat), e ≤ d → distIs adj s x e →
    dist.getD x (-1) = (e : Int)
  q1_mem : ∀ x ∈ q1, dist.getD x (-1) = (d : Int)
  q2_mem : ∀ x ∈ q2, dist.getD x (-1) = (d : Int) + 1
  q_nodup : (q1 ++ q2).Nodup
  disc_in_q2 : ∀ x, dist.getD x (-1) = (d : Int) + 1 → x ∈ q2
  processed_closed : ∀ y, dist.getD y (-1) ≠ -1 → y ∉ q1 → y ∉ q2 →
    ∀ x ∈ adj.getD y [], dist.getD x (-1) ≠ -1
  routes_undisc : ∀ x, dist.getD x (-1) = -1 → routes.getD x 0 = 0
  routes_final : ∀ (x : Nat) (e : Nat), dist.getD x (-1) = (e : Int) → e ≤ d →
    x ≠ s → ∀ i, (routes.getD x 0).testBit i = true ↔ FirstHopS adj s x i
  routes_partial : ∀ x, dist.getD x (-1) = (d : Int) + 1 →
    ∀ i, (routes.getD x 0).testBit i = true ↔
      ∃ y, y ∈ adj.getD x [] ∧ dist.getD y (-1) = (d : Int) ∧ y ∉ q1 ∧ y ∉ q2 ∧
        (routes.getD y 0).testBit i = true

/-- When the distance-`d` segment of the queue is exhausted, the invariant
re-indexes: the `d + 1` segment becomes the current front. -/
theorem bfs_relabel (adj : List (List Nat)) (n s : Nat) (hA : AdjOK adj n)
    (q2 : List Nat) (dist : List Int) (routes : List Nat) (d : Nat)
    (hInv : BfsInv adj n s [] q2 dist routes d) :
    BfsInv adj n s q2 [] dist routes (d + 1) := by
  refine ⟨by omega, hInv.len_dist, hInv.len_routes, hInv.src_lt, hInv.src_dist,
    ?_, ?_, ?_, ?_, ?_, ?_, ?_, hInv.routes_undisc, ?_, ?_⟩
  · intro x
    rcases hInv.vals x with h | ⟨e, h1, h2, h3, h4⟩
    · exact Or.inl h
    · exact Or.inr ⟨e, h1, by omega, h3, h4⟩
  · intro x e he hdx
    by_cases hle : e ≤ d
    · exact hInv.complete x e hle hdx
    · have hed : e = d + 1 := by omega
      subst hed
      obtain ⟨y, hwy, hxy⟩ := swalkB_snoc_inv adj d s x hdx.1
      obtain ⟨e', he', hdy⟩ := distIs_exists adj s y d hwy
      have hDy : dist.getD y (-1) = (e' : Int) := hInv.complete y e' he' hdy
      have hyq2 : y ∉ q2 := fun hy => by
        have h9 := hInv.q2_mem y hy
        rw [hDy] at h9
        omega
      have hxdisc := hInv.processed_closed y
        (by rw [hDy]; omega) (List.not_mem_nil y) hyq2 x hxy
      rcases hInv.vals x with hx | ⟨e2, hx1, _, _, hx4⟩
      · exact absurd hx hxdisc
      · have he2 := distIs_unique adj s x e2 (d + 1) hx4 hdx
        rw [hx1, he2]
  · intro x hx
    have h9 := hInv.q2_mem x hx
    omega
  · intro x hx
    exact absurd hx (List.not_mem_nil x)
  · simpa using hInv.q_nodup
  · intro x hx
    exfalso
    rcases hInv.vals x with h | ⟨e, h1, h2, _, _⟩
    · rw [h] at hx
      omega
    · rw [h1] at hx
      omega
  · intro y hy hyq1 hyq2 x hx
    exact hInv.processed_closed y hy (List.not_mem_nil y) hyq1 x hx
  · intro x e hx he hxs i
    by_cases hle : e ≤ d
    · exact hInv.routes_final x e hx hle hxs i
    · have hed : e = d + 1 := by omega
      subst hed
      have hx' : dist.getD x (-1) = (d : Int) + 1 := by omega
      have hxdist : distIs adj s x (d + 1) := by
        rcases hInv.vals x with h | ⟨e2, h1, h2, h3, h4⟩
        · exfalso
          rw [h] at hx'
          omega
        · have he2 : e2 = d + 1 := by
            rw [h1] at hx'
            omega
          rw [← he2]
          exact h4
      rw [hInv.routes_partial x hx' i]
      constructor
      · rintro ⟨y, hyadj, hyD, _, _, hybit⟩
        rcases hInv.vals y with h | ⟨e2, h1, _, _, h4⟩
        · exfalso
          rw [h] at hyD
          omega
        · have he2 : e2 = d := by
            rw [h1] at hyD
            omega
          rw [he2] at h4
          have hys : y ≠ s := by
            intro hc
            rw [hc] at h4
            have h9 := distIs_unique adj s s d 0 h4 (distIs_self adj s)
            have h10 := hInv.hd1
            omega
          obtain ⟨hilt, e3, hy1, hy2⟩ :=
            (hInv.routes_final y d hyD (le_refl d) hys i).mp hybit
          have he3 : e3 + 1 = d := distIs_unique adj s y (e3 + 1) d hy1 h4
          refine ⟨hilt, d, hxdist, ?_, ?_⟩
          · have hxadj : x ∈ adj.getD y [] := (hA.symm x y).mp hyadj
            have hw := swalkB_snoc adj e3 ((adj.getD s []).getD i 0) y x hy2.1 hxadj
            rw [he3] at hw
            exact hw
          · intro j hj
            cases hwb : swalkB adj j ((adj.getD s []).getD i 0) x with
            | false => rfl
            | true =>
              exfalso
              have hnbr_mem : (adj.getD s []).getD i 0 ∈ adj.getD s [] :=
                mem_getD _ i 0 hilt
              have hw2 : swalkB adj (j + 1) s x = true :=
                (swalkB_succ_iff adj j s x).mpr ⟨_, hnbr_mem, hwb⟩
              have h9 := hxdist.2 (j + 1) (by omega)
              rw [hw2] at h9
              exact Bool.noConfusion h9
      · rintro ⟨hilt, e3, hx1, hx2⟩
        have he3 : e3 = d := by
          have h9 := distIs_unique adj s x (e3 + 1) (d + 1) hx1 hxdist
          omega
        rw [he3] at hx2
        obtain ⟨dd, hdd⟩ : ∃ dd, d = dd + 1 := ⟨d - 1, by
          have h9 := hInv.hd1
          omega⟩
        have hw : swalkB adj (dd + 1) ((adj.getD s []).getD i 0) x = true := by
          rw [← hdd]
          exact hx2.1
        obtain ⟨y, hwy, hxy⟩ := swalkB_snoc_inv adj dd ((adj.getD s []).getD i 0) x hw
        have hdny : distIs adj ((adj.getD s []).getD i 0) y dd := by
          refine ⟨hwy, ?_⟩
          intro j hj
          cases hwb : swalkB adj j ((adj.getD s []).getD i 0) y with
          | false => rfl
          | true =>
            exfalso
            have hw2 := swalkB_snoc adj j ((adj.getD s []).getD i 0) y x hwb hxy
            have h9 := hx2.2 (j + 1) (by omega)
            rw [hw2] at h9
            exact Bool.noConfusion h9
        have hnbr_mem : (adj.getD s []).getD i 0 ∈ adj.getD s [] :=
          mem_getD _ i 0 hilt
        have hdsy : distIs adj s y (dd + 1) := by
          refine ⟨(swalkB_succ_iff adj dd s y).mpr ⟨_, hnbr_mem, hwy⟩, ?_⟩
          intro j hj
          cases hwb : swalkB adj j s y with
          | false => rfl
          | true =>
            exfalso
            have hw2 := swalkB_snoc adj j s y x hwb hxy
            have h9 := hxdist.2 (j + 1) (by omega)
            rw [hw2] at h9
            exact Bool.noConfusion h9
        have hDy : dist.getD y (-1) = ((dd + 1 : Nat) : Int) :=
          hInv.complete y (dd + 1) (by omega) hdsy
        have hDy' : dist.getD y (-1) = (d : Int) := by
          rw [hDy]
          omega
        have hys : y ≠ s := by
          intro hc
          rw [hc] at hdsy
          have h9 := distIs_unique adj s s (dd + 1) 0 hdsy (distIs_self adj s)
          omega
        refine ⟨y, (hA.symm x y).mpr hxy, hDy', List.not_mem_nil y, ?_, ?_⟩
        · intro hy
          have h9 := hInv.q2_mem y hy
          rw [hDy'] at h9
          omega
        · exact (hInv.routes_final y d hDy' (le_refl d) hys i).mpr
            ⟨hilt, dd, hdsy, hdny⟩
  · intro x hx i
    exfalso
    rcases hInv.vals x with h | ⟨e, h1, h2, _, _⟩
    · rw [h] at hx
      omega
    · rw [h1] at hx
      omega

theorem testBit_lor_nat (a b i : Nat) :
    (Nat.lor a b).testBit i = (a.testBit i || b.testBit i) := Nat.testBit_or a b i

theorem lor_zero_left (a : Nat) : Nat.lor 0 a = a := by
  have h9 : (0 ||| a) = a := by
    apply Nat.eq_of_testBit_eq
    intro i
    rw [Nat.testBit_or, Nat.zero_testBit, Bool.false_or]
  exact h9

/-- Popping the head `cur` of the distance-`d` queue segment and relaxing its
adjacency list preserves the BFS invariant and moves every newly discovered
node from the undiscovered count into the queue. -/
theorem bfs_step (adj : List (List Nat)) (n s : Nat) (hA : AdjOK adj n)
    (cur : Nat) (q1' q2 rest : List Nat) (dist : List Int) (routes : List Nat)
    (d : Nat) (hInv : BfsInv adj n s (cur :: q1') q2 dist routes d) :
    ∃ dist2 routes2,
      bfsInner cur (dist.getD cur (-1)) (adj.getD cur []) (dist, routes, rest) =
        (dist2, routes2,
          rest ++ (adj.getD cur []).filter (fun y => decide (dist.getD y (-1) = -1))) ∧
      BfsInv adj n s q1'
        (q2 ++ (adj.getD cur []).filter (fun y => decide (dist.getD y (-1) = -1)))
        dist2 routes2 d ∧
      undisc n dist2 +
        ((adj.getD cur []).filter (fun y => decide (dist.getD y (-1) = -1))).length =
        undisc n dist := by
  have hcurD : dist.getD cur (-1) = (d : Int) :=
    hInv.q1_mem cur (List.mem_cons_self cur q1')
  have hnodup_tail : (q1' ++ q2).Nodup ∧ cur ∉ q1' ++ q2 := by
    have h9 := hInv.q_nodup
    rw [List.cons_append] at h9
    exact ⟨(List.nodup_cons.mp h9).2, (List.nodup_cons.mp h9).1⟩
  obtain ⟨dist2, routes2, heq, hl1, hl2, hd_new, hd_old, hd_out, hr_or, hr_keep,
    hr_out⟩ :=
    bfsInner_spec cur (dist.getD cur (-1)) (adj.getD cur []) dist routes rest
      (hA.irrefl cur) (hA.nodup cur)
      (fun y hy => by rw [hInv.len_dist]; exact hA.lt cur y hy)
      (by rw [hInv.len_routes, hInv.len_dist])
  rw [hcurD] at hd_new hr_or hr_keep
  set newly := (adj.getD cur []).filter (fun y => decide (dist.getD y (-1) = -1))
    with hnewly
  have hnewly_mem : ∀ y, y ∈ newly ↔
      (y ∈ adj.getD cur [] ∧ dist.getD y (-1) = -1) := by
    intro y
    rw [hnewly, List.mem_filter, decide_eq_true_eq]
  have hnewly_nodup : newly.Nodup := by
    rw [hnewly]
    exact (hA.nodup cur).filter _
  have hq_disc : ∀ x, x ∈ cur :: q1' ∨ x ∈ q2 → dist.getD x (-1) ≠ -1 := by
    intro x hx
    rcases hx with hx | hx
    · have h9 := hInv.q1_mem x hx
      have h10 := hInv.hd1
      omega
    · have h9 := hInv.q2_mem x hx
      omega
  have hnewly_notq : ∀ y ∈ newly, y ∉ cur :: q1' ∧ y ∉ q2 := by
    intro y hy
    have hund := ((hnewly_mem y).mp hy).2
    constructor
    · intro hc
      exact hq_disc y (Or.inl hc) hund
    · intro hc
      exact hq_disc y (Or.inr hc) hund
  have hcur_dist : distIs adj s cur d := by
    rcases hInv.vals cur with h | ⟨e, h1, _, _, h4⟩
    · exfalso
      have h10 := hInv.hd1
      omega
    · have he : e = d := by omega
      rw [← he]
      exact h4
  have hnew_dist : ∀ x, x ∈ adj.getD cur [] → dist.getD x (-1) = -1 →
      distIs adj s x (d + 1) := by
    intro x hxadj hxund
    refine ⟨swalkB_snoc adj d s cur x hcur_dist.1 hxadj, ?_⟩
    intro j hj
    cases hwb : swalkB adj j s x with
    | false => rfl
    | true =>
      exfalso
      obtain ⟨e', he', hd'⟩ := distIs_exists adj s x j hwb
      have h9 := hInv.complete x e' (by omega) hd'
      rw [hxund] at h9
      omega
  have hD2_keep : ∀ x, dist.getD x (-1) ≠ -1 →
      dist2.getD x (-1) = dist.getD x (-1) := by
    intro x hx
    by_cases hxl : x ∈ adj.getD cur []
    · exact hd_old x hxl hx
    · exact hd_out x hxl
  have hR2_keep : ∀ x, dist.getD x (-1) ≠ -1 ∧ dist.getD x (-1) ≠ (d : Int) + 1 →
      routes2.getD x 0 = routes.getD x 0 := by
    rintro x ⟨h1, h2⟩
    by_cases hxl : x ∈ adj.getD cur []
    · refine hr_keep x hxl ?_
      intro hor
      rcases hor with h9 | h9
      · exact h1 h9
      · exact h2 h9
    · exact hr_out x hxl
  have hD2_undisc_iff : ∀ x, dist2.getD x (-1) = -1 ↔
      (dist.getD x (-1) = -1 ∧ x ∉ newly) := by
    intro x
    constructor
    · intro h2
      by_cases hxl : x ∈ adj.getD cur []
      · by_cases hxu : dist.getD x (-1) = -1
        · exfalso
          have h9 := hd_new x hxl hxu
          omega
        · have h9 := hd_old x hxl hxu
          rw [h9] at h2
          exact absurd h2 hxu
      · have h9 := hd_out x hxl
        rw [h9] at h2
        exact ⟨h2, fun hc => hxl ((hnewly_mem x).mp hc).1⟩
    · rintro ⟨h1, h2⟩
      have hxl : x ∉ adj.getD cur [] := fun hc => h2 ((hnewly_mem x).mpr ⟨hc, h1⟩)
      rw [hd_out x hxl]
      exact h1
  have hyd_keep : ∀ y, dist2.getD y (-1) = (d : Int) ↔
      dist.getD y (-1) = (d : Int) := by
    intro y
    constructor
    · intro h2
      by_cases hyu : dist.getD y (-1) = -1
      · by_cases hyl : y ∈ adj.getD cur []
        · have h9 := hd_new y hyl hyu
          have h10 := hInv.hd1
          omega
        · have h9 := hd_out y hyl
          have h10 := hInv.hd1
          omega
      · have h9 := hD2_keep y hyu
        omega
    · intro h2
      have h9 := hD2_keep y (by
        have h10 := hInv.hd1
        omega)
      omega
  have hRy_keep : ∀ y, dist.getD y (-1) = (d : Int) →
      routes2.getD y 0 = routes.getD y 0 := by
    intro y hy
    refine hR2_keep y ⟨?_, ?_⟩
    · have h10 := hInv.hd1
      omega
    · omega
  refine ⟨dist2, routes2, heq, ?_, ?_⟩
  · refine ⟨hInv.hd1, by rw [hl1, hInv.len_dist], by rw [hl2, hInv.len_dist],
      hInv.src_lt, ?_, ?_, ?_, ?_, ?_, ?_, ?_, ?_, ?_, ?_, ?_⟩
    · rw [hD2_keep s (by
        have h9 := hInv.src_dist
        omega)]
      exact hInv.src_dist
    · intro x
      by_cases hxn : x ∈ newly
      · obtain ⟨hxl, hxu⟩ := (hnewly_mem x).mp hxn
        refine Or.inr ⟨d + 1, ?_, by omega, hA.lt cur x hxl, hnew_dist x hxl hxu⟩
        have h9 := hd_new x hxl hxu
        omega
      · have hx2 : dist2.getD x (-1) = dist.getD x (-1) := by
          by_cases hxu : dist.getD x (-1) = -1
          · exact hd_out x (fun hc => hxn ((hnewly_mem x).mpr ⟨hc, hxu⟩))
          · exact hD2_keep x hxu
        rw [hx2]
        exact hInv.vals x
    · intro x e he hdx
      have h9 := hInv.complete x e he hdx
      rw [hD2_keep x (by omega)]
      exact h9
    · intro x hx
      have h9 := hInv.q1_mem x (List.mem_cons_of_mem cur hx)
      rw [hD2_keep x (by
        have h10 := hInv.hd1
        omega)]
      exact h9
    · intro x hx
      rcases List.mem_append.mp hx with hx | hx
      · have h9 := hInv.q2_mem x hx
        rw [hD2_keep x (by omega)]
        exact h9
      · obtain ⟨hxl, hxu⟩ := (hnewly_mem x).mp hx
        exact hd_new x hxl hxu
    · have hd12 := List.nodup_append.mp hnodup_tail.1
      refine List.nodup_append.mpr
        ⟨hd12.1, List.nodup_append.mpr ⟨hd12.2.1, hnewly_nodup, ?_⟩, ?_⟩
      · intro a ha ha'
        exact hq_disc a (Or.inr ha) (((hnewly_mem a).mp ha').2)
      · intro a ha ha'
        rcases List.mem_append.mp ha' with h | h
        · exact hd12.2.2 ha h
        · exact hq_disc a (Or.inl (List.mem_cons_of_mem cur ha))
            (((hnewly_mem a).mp h).2)
    · intro x hx
      by_cases hxn : x ∈ newly
      · exact List.mem_append.mpr (Or.inr hxn)
      · have hx2 : dist.getD x (-1) = (d : Int) + 1 := by
          by_cases hxu : dist.getD x (-1) = -1
          · exfalso
            have h9 := hd_out x (fun hc => hxn ((hnewly_mem x).mpr ⟨hc, hxu⟩))
            omega
          · have h9 := hD2_keep x hxu
            omega
        exact List.mem_append.mpr (Or.inl (hInv.disc_in_q2 x hx2))
    · intro y hy hyq1 hyq2 x hx
      by_cases hyc : y = cur
      · subst hyc
        by_cases hxu : dist.getD x (-1) = -1
        · have h9 := hd_new x hx hxu
          omega
        · have h9 := hD2_keep x hxu
          omega
      · have hyd : dist.getD y (-1) ≠ -1 := by
          intro hyu
          by_cases hyl : y ∈ adj.getD cur []
          · exact hyq2 (List.mem_append.mpr (Or.inr ((hnewly_mem y).mpr ⟨hyl, hyu⟩)))
          · have h9 := hd_out y hyl
            exact hy (by omega)
        have hproc := hInv.processed_closed y hyd (by
            intro hc
            rcases List.mem_cons.mp hc with h | h
            · exact hyc h
            · exact hyq1 h)
          (fun hc => hyq2 (List.mem_append.mpr (Or.inl hc))) x hx
        have h9 := hD2_keep x hproc
        omega
    · intro x hx
      have h1 := (hD2_undisc_iff x).mp hx
      have hxl : x ∉ adj.getD cur [] :=
        fun hc => h1.2 ((hnewly_mem x).mpr ⟨hc, h1.1⟩)
      rw [hr_out x hxl]
      exact hInv.routes_undisc x h1.1
    · intro x e hx he hxs i
      have hxd : dist.getD x (-1) = (e : Int) := by
        by_cases hxu : dist.getD x (-1) = -1
        · exfalso
          by_cases hxl : x ∈ adj.getD cur []
          · have h9 := hd_new x hxl hxu
            omega
          · have h9 := hd_out x hxl
            omega
        · have h9 := hD2_keep x hxu
          omega
      have hxr : routes2.getD x 0 = routes.getD x 0 :=
        hR2_keep x ⟨by omega, by omega⟩
      rw [hxr]
      exact hInv.routes_final x e hxd he hxs i
    · intro x hx i
      by_cases hxl : x ∈ adj.getD cur []
      · by_cases hxu : dist.getD x (-1) = -1
        · have hx2 : routes2.getD x 0 =
              Nat.lor (routes.getD x 0) (routes.getD cur 0) :=
            hr_or x hxl (Or.inl hxu)
          have hx0 : routes.getD x 0 = 0 := hInv.routes_undisc x hxu
          rw [hx2, hx0, lor_zero_left]
          constructor
          · intro hbit
            refine ⟨cur, (hA.symm cur x).mp hxl, (hyd_keep cur).mpr hcurD,
              fun hc => hnodup_tail.2 (List.mem_append.mpr (Or.inl hc)), ?_, ?_⟩
            · intro hc
              rcases List.mem_append.mp hc with h | h
              · exact hnodup_tail.2 (List.mem_append.mpr (Or.inr h))
              · exact (hnewly_notq cur h).1 (List.mem_cons_self cur q1')
            · rw [hRy_keep cur hcurD]
              exact hbit
          · rintro ⟨y, hyadj, hyD2, hyq1, hyq2n, hybit⟩
            have hyDd : dist.getD y (-1) = (d : Int) := (hyd_keep y).mp hyD2
            by_cases hyc : y = cur
            · subst hyc
              rw [hRy_keep y hyDd] at hybit
              exact hybit
            · exfalso
              have hyproc := hInv.processed_closed y (by
                  have h10 := hInv.hd1
                  omega) (by
                  intro hc
                  rcases List.mem_cons.mp hc with h | h
                  · exact hyc h
                  · exact hyq1 h)
                (fun hc => hyq2n (List.mem_append.mpr (Or.inl hc))) x
                ((hA.symm x y).mp hyadj)
              exact hyproc hxu
        · have hxd : dist.getD x (-1) = (d : Int) + 1 := by
            have h9 := hD2_keep x hxu
            omega
          have hx2 : routes2.getD x 0 =
              Nat.lor (routes.getD x 0) (routes.getD cur 0) :=
            hr_or x hxl (Or.inr hxd)
          rw [hx2, testBit_lor_nat, Bool.or_eq_true, hInv.routes_partial x hxd i]
          constructor
          · rintro (⟨y, hyadj, hyD, hyq1, hyq2, hybit⟩ | hbitc)
            · refine ⟨y, hyadj, (hyd_keep y).mpr hyD,
                fun hc => hyq1 (List.mem_cons_of_mem cur hc), ?_, ?_⟩
              · intro hc
                rcases List.mem_append.mp hc with h | h
                · exact hyq2 h
                · have h9 := ((hnewly_mem y).mp h).2
                  have h10 := hInv.hd1
                  omega
              · rw [hRy_keep y hyD]
                exact hybit
            · refine ⟨cur, (hA.symm cur x).mp hxl, (hyd_keep cur).mpr hcurD,
                fun hc => hnodup_tail.2 (List.mem_append.mpr (Or.inl hc)), ?_, ?_⟩
              · intro hc
                rcases List.mem_append.mp hc with h | h
                · exact hnodup_tail.2 (List.mem_append.mpr (Or.inr h))
                · exact (hnewly_notq cur h).1 (List.mem_cons_self cur q1')
              · rw [hRy_keep cur hcurD]
                exact hbitc
          · rintro ⟨y, hyadj, hyD2, hyq1, hyq2n, hybit⟩
            have hyDd : dist.getD y (-1) = (d : Int) := (hyd_keep y).mp hyD2
            by_cases hyc : y = cur
            · subst hyc
              right
              rw [hRy_keep y hyDd] at hybit
              exact hybit
            · left
              refine ⟨y, hyadj, hyDd, ?_,
                fun hc => hyq2n (List.mem_append.mpr (Or.inl hc)), ?_⟩
              · intro hc
                rcases List.mem_cons.mp hc with h | h
                · exact hyc h
                · exact hyq1 h
              · rw [hRy_keep y hyDd] at hybit
                exact hybit
      · have hxd : dist.getD x (-1) = (d : Int) + 1 := by
          have h9 := hd_out x hxl
          omega
        have hx2 : routes2.getD x 0 = routes.getD x 0 := hr_out x hxl
        rw [hx2, hInv.routes_partial x hxd i]
        constructor
        · rintro ⟨y, hyadj, hyD, hyq1, hyq2, hybit⟩
          refine ⟨y, hyadj, (hyd_keep y).mpr hyD,
            fun hc => hyq1 (List.mem_cons_of_mem cur hc), ?_, ?_⟩
          · intro hc
            rcases List.mem_append.mp hc with h | h
            · exact hyq2 h
            · have h9 := ((hnewly_mem y).mp h).2
              have h10 := hInv.hd1
              omega
          · rw [hRy_keep y hyD]
            exact hybit
        · rintro ⟨y, hyadj, hyD2, hyq1, hyq2n, hybit⟩
          have hyDd : dist.getD y (-1) = (d : Int) := (hyd_keep y).mp hyD2
          have hyc : y ≠ cur := by
            intro hc
            rw [hc] at hyadj
            exact hxl ((hA.symm cur x).mpr hyadj)
          refine ⟨y, hyadj, hyDd, ?_,
            fun hc => hyq2n (List.mem_append.mpr (Or.inl hc)), ?_⟩
          · intro hc
            rcases List.mem_cons.mp hc with h | h
            · exact hyc h
            · exact hyq1 h
          · rw [hRy_keep y hyDd] at hybit
            exact hybit
  · have hsub : newly.toFinset ⊆
        (Finset.range n).filter (fun x => dist.getD x (-1) = -1) := by
      intro a ha
      rw [List.mem_toFinset] at ha
      obtain ⟨hal, hau⟩ := (hnewly_mem a).mp ha
      rw [Finset.mem_filter, Finset.mem_range]
      exact ⟨hA.lt cur a hal, hau⟩
    have hset : (Finset.range n).filter (fun x => dist2.getD x (-1) = -1) =
        ((Finset.range n).filter (fun x => dist.getD x (-1) = -1)) \
          newly.toFinset := by
      ext a
      rw [Finset.mem_sdiff, Finset.mem_filter, Finset.mem_filter,
        Finset.mem_range, List.mem_toFinset]
      constructor
      · rintro ⟨han, hau⟩
        obtain ⟨h1, h2⟩ := (hD2_undisc_iff a).mp hau
        exact ⟨⟨han, h1⟩, h2⟩
      · rintro ⟨⟨han, hau⟩, hnew⟩
        exact ⟨han, (hD2_undisc_iff a).mpr ⟨hau, hnew⟩⟩
    rw [undisc, undisc, hset, Finset.card_sdiff hsub]
    have hlen : newly.toFinset.card = newly.length :=
      List.toFinset_card_of_nodup hnewly_nodup
    rw [hlen]
    have hle : newly.length ≤
        ((Finset.range n).filter (fun x => dist.getD x (-1) = -1)).card := by
      rw [← hlen]
      exact Finset.card_le_card hsub
    omega

/-- The BFS while-loop terminates with an empty queue within any fuel
exceeding the measure `queue length + undiscovered count`, preserving the
invariant to an all-processed final state. -/
theorem bfsLoop_run (adj : List (List Nat)) (n s : Nat) (hA : AdjOK adj n) :
    ∀ (fuel : Nat) (q1 q2 : List Nat) (dist : List Int) (routes : List Nat)
      (d : Nat),
      BfsInv adj n s q1 q2 dist routes d →
      (q1 ++ q2).length + undisc n dist < fuel →
      ∃ dist2 routes2 d2,
        bfsLoop adj fuel (q1 ++ q2) dist routes = (dist2, routes2) ∧
        BfsInv adj n s [] [] dist2 routes2 d2 := by
  intro fuel
  induction fuel with
  | zero =>
    intro q1 q2 dist routes d hInv hm
    omega
  | succ fuel ih =>
    intro q1 q2 dist routes d hInv hm
    cases q1 with
    | nil =>
      cases q2 with
      | nil =>
        refine ⟨dist, routes, d, ?_, hInv⟩
        simp only [List.nil_append]
        rw [bfsLoop]
      | cons c q2' =>
        have hInv2 := bfs_relabel adj n s hA (c :: q2') dist routes d hInv
        obtain ⟨dist2, routes2, hstep_eq, hstep_inv, hstep_cnt⟩ :=
          bfs_step adj n s hA c q2' [] q2' dist routes (d + 1) hInv2
        simp only [List.nil_append] at hstep_inv hm ⊢
        rw [bfsLoop]
        simp only [hstep_eq]
        have hlen1 : (q2' ++
            (adj.getD c []).filter (fun y => decide (dist.getD y (-1) = -1))).length =
            q2'.length +
            ((adj.getD c []).filter (fun y => decide (dist.getD y (-1) = -1))).length :=
          List.length_append _ _
        have hlen2 : (c :: q2').length = q2'.length + 1 := List.length_cons c q2'
        obtain ⟨dist3, routes3, d3, hrun, hinv3⟩ :=
          ih q2' ((adj.getD c []).filter (fun y => decide (dist.getD y (-1) = -1)))
            dist2 routes2 (d + 1) hstep_inv (by omega)
        exact ⟨dist3, routes3, d3, hrun, hinv3⟩
    | cons c q1'' =>
      obtain ⟨dist2, routes2, hstep_eq, hstep_inv, hstep_cnt⟩ :=
        bfs_step adj n s hA c q1'' q2 (q1'' ++ q2) dist routes d hInv
      rw [List.cons_append, bfsLoop]
      simp only [hstep_eq]
      rw [List.append_assoc]
      have hlen1 : (q1'' ++ (q2 ++
          (adj.getD c []).filter (fun y => decide (dist.getD y (-1) = -1)))).length =
          q1''.length + (q2.length +
          ((adj.getD c []).filter (fun y => decide (dist.getD y (-1) = -1))).length) := by
        rw [List.length_append, List.length_append]
      have hlen2 : ((c :: q1'') ++ q2).length = q1''.length + q2.length + 1 := by
        rw [List.length_append, List.length_cons]
        omega
      obtain ⟨dist3, routes3, d3, hrun, hinv3⟩ :=
        ih q1'' (q2 ++ (adj.getD c []).filter (fun y => decide (dist.getD y (-1) = -1)))
          dist2 routes2 d hstep_inv (by omega)
      exact ⟨dist3, routes3, d3, hrun, hinv3⟩

/-- Functional characterization of the seeding loop of `calculate_distance`:
the first-hop neighbors are enqueued at distance 1 with singleton bitsets. -/
theorem initLoop_spec :
    ∀ (l : List Nat) (id : Nat) (queue : List Nat) (dist : List Int)
      (routes : List Nat),
      l.Nodup → (∀ y ∈ l, y < dist.length) → (∀ y ∈ l, y < routes.length) →
      ∃ dist1 routes1,
        initLoop l id (queue, dist, routes) = (queue ++ l, dist1, routes1) ∧
        dist1.length = dist.length ∧ routes1.length = routes.length ∧
        (∀ x, x ∉ l → dist1.getD x (-1) = dist.getD x (-1)) ∧
        (∀ x, x ∉ l → routes1.getD x 0 = routes.getD x 0) ∧
        (∀ j, j < l.length → dist1.getD (l.getD j 0) (-1) = 1) ∧
        (∀ j, j < l.length →
          routes1.getD (l.getD j 0) 0 = Nat.shiftLeft 1 (id + j)) := by
  intro l
  induction l with
  | nil =>
    intro id queue dist routes _ _ _
    refine ⟨dist, routes, by simp [initLoop], rfl, rfl, fun x _ => rfl,
      fun x _ => rfl, ?_, ?_⟩
    · intro j hj
      simp at hj
    · intro j hj
      simp at hj
  | cons y rest ihl =>
    intro id queue dist routes hnd hb hbr
    have hy_rest : y ∉ rest := (List.nodup_cons.mp hnd).1
    have hylt : y < dist.length := hb y (List.mem_cons_self y rest)
    have hyltr : y < routes.length := hbr y (List.mem_cons_self y rest)
    rw [initLoop]
    obtain ⟨dist1, routes1, heq, hl1, hl2, hout_d, hout_r, hmem_d, hmem_r⟩ :=
      ihl (id + 1) (queue ++ [y]) (dist.set y 1)
        (routes.set y (Nat.shiftLeft 1 id)) (List.nodup_cons.mp hnd).2
        (fun z hz => by rw [List.length_set]; exact hb z (List.mem_cons_of_mem y hz))
        (fun z hz => by rw [List.length_set]; exact hbr z (List.mem_cons_of_mem y hz))
    refine ⟨dist1, routes1, ?_, by rw [hl1, List.length_set],
      by rw [hl2, List.length_set], ?_, ?_, ?_, ?_⟩
    · rw [heq, List.append_assoc]
      rfl
    · intro x hx
      have hxy : x ≠ y := fun hc => hx (hc ▸ List.mem_cons_self y rest)
      have hxr : x ∉ rest := fun hc => hx (List.mem_cons_of_mem y hc)
      rw [hout_d x hxr]
      exact getD_set_ne dist y x 1 (-1) (fun hc => hxy hc.symm)
    · intro x hx
      have hxy : x ≠ y := fun hc => hx (hc ▸ List.mem_cons_self y rest)
      have hxr : x ∉ rest := fun hc => hx (List.mem_cons_of_mem y hc)
      rw [hout_r x hxr]
      exact getD_set_ne routes y x _ 0 (fun hc => hxy hc.symm)
    · intro j hj
      cases j with
      | zero =>
        have h0 : (y :: rest).getD 0 (0 : Nat) = y := rfl
        rw [h0, hout_d y hy_rest]
        exact getD_set_self dist y 1 (-1) hylt
      | succ j' =>
        have hstep : (y :: rest).getD (j' + 1) (0 : Nat) = rest.getD j' 0 := rfl
        rw [hstep]
        exact hmem_d j' (by simpa using hj)
    · intro j hj
      cases j with
      | zero =>
        have h0 : (y :: rest).getD 0 (0 : Nat) = y := rfl
        rw [h0, hout_r y hy_rest]
        rw [getD_set_self routes y (Nat.shiftLeft 1 id) 0 hyltr]
        rw [Nat.add_zero]
      | succ j' =>
        have hstep : (y :: rest).getD (j' + 1) (0 : Nat) = rest.getD j' 0 := rfl
        rw [hstep]
        rw [hmem_r j' (by simpa using hj)]
        rw [show id + 1 + j' = id + (j' + 1) from by omega]

/-- After the seeding loop, the BFS invariant holds at front distance 1 and
the termination measure is at most `2 * n`. -/
theorem bfs_init (adj : List (List Nat)) (n s : Nat) (hA : AdjOK adj n)
    (hs : s < n) :
    ∃ dist1 routes1,
      initLoop (adj.getD s []) 0
        ([], (List.replicate n (-1 : Int)).set s 0, List.replicate n (0 : Nat)) =
        (adj.getD s [], dist1, routes1) ∧
      BfsInv adj n s (adj.getD s []) [] dist1 routes1 1 ∧
      (adj.getD s []).length + undisc n dist1 ≤ n + n := by
  have hrep : ∀ x, (List.replicate n (-1 : Int)).getD x (-1) = -1 := by
    intro x
    rw [getD_replicate]
    by_cases hx : x < n
    · rw [if_pos hx]
    · rw [if_neg hx]
  have hrep0 : ∀ x, (List.replicate n (0 : Nat)).getD x 0 = 0 := by
    intro x
    rw [getD_replicate]
    by_cases hx : x < n
    · rw [if_pos hx]
    · rw [if_neg hx]
  have hsnbr : s ∉ adj.getD s [] := hA.irrefl s
  obtain ⟨dist1, routes1, heq, hl1, hl2, hout_d, hout_r, hmem_d, hmem_r⟩ :=
    initLoop_spec (adj.getD s []) 0 [] ((List.replicate n (-1 : Int)).set s 0)
      (List.replicate n (0 : Nat)) (hA.nodup s)
      (fun z hz => by
        rw [List.length_set, List.length_replicate]
        exact hA.lt s z hz)
      (fun z hz => by
        rw [List.length_replicate]
        exact hA.lt s z hz)
  simp only [List.nil_append] at heq
  have hD1s : dist1.getD s (-1) = 0 := by
    rw [hout_d s hsnbr]
    exact getD_set_self _ s 0 (-1) (by rw [List.length_replicate]; exact hs)
  have hD1mem : ∀ x ∈ adj.getD s [], dist1.getD x (-1) = 1 := by
    intro x hx
    obtain ⟨j, hj, hxj⟩ := mem_exists_getD (adj.getD s []) x 0 hx
    have h9 := hmem_d j hj
    rw [hxj] at h9
    exact h9
  have hD1out : ∀ x, x ∉ adj.getD s [] → x ≠ s → dist1.getD x (-1) = -1 := by
    intro x hx hxs
    rw [hout_d x hx, getD_set_ne _ s x _ _ (fun hc => hxs hc.symm)]
    exact hrep x
  have hdx1 : ∀ x ∈ adj.getD s [], distIs adj s x 1 := by
    intro x hx
    have hxs : x ≠ s := fun hc => hsnbr (hc ▸ hx)
    refine ⟨(swalkB_succ_iff adj 0 s x).mpr ⟨x, hx, (swalkB_zero_iff adj x x).mpr rfl⟩, ?_⟩
    intro j hj
    have hj0 : j = 0 := by omega
    rw [hj0, swalkB]
    exact decide_eq_false (fun hc => hxs hc.symm)
  refine ⟨dist1, routes1, heq, ?_, ?_⟩
  · refine ⟨le_refl 1, by rw [hl1, List.length_set, List.length_replicate],
      by rw [hl2, List.length_replicate], hs, hD1s, ?_, ?_, ?_, ?_, ?_, ?_, ?_,
      ?_, ?_, ?_⟩
    · intro x
      by_cases hxs : x = s
      · refine Or.inr ⟨0, ?_, by omega, ?_, ?_⟩
        · rw [hxs]
          have h9 := hD1s
          omega
        · rw [hxs]
          exact hs
        · rw [hxs]
          exact distIs_self adj s
      · by_cases hxm : x ∈ adj.getD s []
        · refine Or.inr ⟨1, ?_, by omega, hA.lt s x hxm, hdx1 x hxm⟩
          have h9 := hD1mem x hxm
          omega
        · exact Or.inl (hD1out x hxm hxs)
    · intro x e he hdx
      cases e with
      | zero =>
        have hsx := distIs_zero_eq adj s x hdx
        rw [← hsx]
        have h9 := hD1s
        omega
      | succ e' =>
        have he' : e' = 0 := by omega
        rw [he'] at hdx
        obtain ⟨w, hwm, hww⟩ := (swalkB_succ_iff adj 0 s x).mp hdx.1
        have hwx : w = x := (swalkB_zero_iff adj w x).mp hww
        have hxm : x ∈ adj.getD s [] := hwx ▸ hwm
        have h9 := hD1mem x hxm
        omega
    · intro x hx
      have h9 := hD1mem x hx
      omega
    · intro x hx
      exact absurd hx (List.not_mem_nil x)
    · simpa using hA.nodup s
    · intro x hx
      exfalso
      by_cases hxs : x = s
      · rw [hxs] at hx
        have h9 := hD1s
        omega
      · by_cases hxm : x ∈ adj.getD s []
        · have h9 := hD1mem x hxm
          omega
        · have h9 := hD1out x hxm hxs
          omega
    · intro y hy hyq1 _ x hx
      by_cases hys : y = s
      · rw [hys] at hx
        have h9 := hD1mem x hx
        omega
      · by_cases hym : y ∈ adj.getD s []
        · exact absurd hym hyq1
        · exact absurd (hD1out y hym hys) hy
    · intro x hx
      have hxs : x ≠ s := by
        intro hc
        rw [hc] at hx
        have h9 := hD1s
        omega
      have hxm : x ∉ adj.getD s [] := by
        intro hc
        have h9 := hD1mem x hc
        omega
      rw [hout_r x hxm]
      exact hrep0 x
    · intro x e hx he hxs i
      have hxm : x ∈ adj.getD s [] := by
        by_contra hxm
        have h9 := hD1out x hxm hxs
        omega
      have hxe : e = 1 := by
        have h9 := hD1mem x hxm
        omega
      obtain ⟨j, hj, hxj⟩ := mem_exists_getD (adj.getD s []) x 0 hxm
      have hr9 := hmem_r j hj
      rw [hxj, Nat.zero_add] at hr9
      have hpow : Nat.shiftLeft 1 j = 2 ^ j := by
        rw [show Nat.shiftLeft 1 j = 1 <<< j from rfl, Nat.shiftLeft_eq, one_mul]
      rw [hr9, hpow, Nat.testBit_two_pow]
      constructor
      · intro hji
        have hji' : j = i := of_decide_eq_true hji
        refine ⟨hji' ▸ hj, 0, ?_, ?_⟩
        · rw [hxe] at hx
          exact hdx1 x hxm
        · rw [← hji', hxj]
          exact distIs_self adj x
      · rintro ⟨hilt, e2, h1, h2⟩
        have he2 : e2 + 1 = 1 := distIs_unique adj s x (e2 + 1) 1 h1 (hdx1 x hxm)
        have he20 : e2 = 0 := by omega
        rw [he20] at h2
        have hnx := distIs_zero_eq adj _ x h2
        exact decide_eq_true (nodup_getD_inj (adj.getD s []) 0 (hA.nodup s) j i hj
          hilt (by rw [hxj, hnx]))
    · intro x hx i
      exfalso
      by_cases hxs : x = s
      · rw [hxs] at hx
        have h9 := hD1s
        omega
      · by_cases hxm : x ∈ adj.getD s []
        · have h9 := hD1mem x hxm
          omega
        · have h9 := hD1out x hxm hxs
          omega
  · have hsub : (adj.getD s []).toFinset ⊆ Finset.range n := fun a ha =>
      Finset.mem_range.mpr (hA.lt s a (List.mem_toFinset.mp ha))
    have hlen : (adj.getD s []).length ≤ n := by
      rw [← List.toFinset_card_of_nodup (hA.nodup s)]
      have h9 := Finset.card_le_card hsub
      rw [Finset.card_range] at h9
      exact h9
    have hu : undisc n dist1 ≤ n := by
      rw [undisc]
      have h9 := Finset.card_filter_le (Finset.range n)
        (fun x => dist1.getD x (-1) = -1)
      rw [Finset.card_range] at h9
      exact h9
    omega

/-- Every pair of the `compute_result` accumulator comes from the initial
accumulator or from an enumerated slot passing the skip conditions. -/
theorem resultLoop_mem (g : Graph) (nbrs : List Nat) (dist : List Int) :
    ∀ (l : List Nat) (key : Nat) (res : List (PeerId × List PeerId))
      (p : PeerId) (ns : List PeerId),
      (p, ns) ∈ resultLoop g nbrs dist l key res →
      (p, ns) ∈ res ∨
      ∃ j, j < l.length ∧ ¬(key + j = g.source_id) ∧
        ¬(dist.getD (key + j) (-1) = -1) ∧ ¬(l.getD j 0 = 0) ∧
        ¬(g.used.getD (key + j) false = false) ∧
        p = g.id2p.getD (key + j) 0 ∧ ns = bitsLoop g.id2p nbrs 0 (l.getD j 0) := by
  intro l
  induction l with
  | nil =>
    intro key res p ns h
    exact Or.inl h
  | cons r rest ihl =>
    intro key res p ns h
    rw [resultLoop] at h
    by_cases hc : key = g.source_id ∨ dist.getD key (-1) = -1 ∨ r = 0 ∨
        g.used.getD key false = false
    · rw [if_pos hc] at h
      rcases ihl (key + 1) res p ns h with h1 | ⟨j, hj, h2, h3, h4, h5, h6, h7⟩
      · exact Or.inl h1
      · right
        have hkey : key + (j + 1) = key + 1 + j := by omega
        have hget : (r :: rest).getD (j + 1) (0 : Nat) = rest.getD j 0 := rfl
        refine ⟨j + 1, by simpa using Nat.succ_lt_succ hj, ?_, ?_, ?_, ?_, ?_, ?_⟩
        · rw [hkey]
          exact h2
        · rw [hkey]
          exact h3
        · rw [hget]
          exact h4
        · rw [hkey]
          exact h5
        · rw [hkey]
          exact h6
        · rw [hget]
          exact h7
    · rw [if_neg hc] at h
      push_neg at hc
      rcases ihl (key + 1) _ p ns h with h1 | ⟨j, hj, h2, h3, h4, h5, h6, h7⟩
      · rcases mem_insertA res _ _ _ h1 with h2 | h2
        · right
          have h0 : (r :: rest).getD 0 (0 : Nat) = r := rfl
          refine ⟨0, by simp, ?_, ?_, ?_, ?_, ?_, ?_⟩
          · rw [Nat.add_zero]
            exact hc.1
          · rw [Nat.add_zero]
            exact hc.2.1
          · rw [h0]
            exact hc.2.2.1
          · rw [Nat.add_zero]
            exact fun h9 => hc.2.2.2 h9
          · rw [Nat.add_zero]
            exact congrArg Prod.fst h2
          · rw [h0]
            exact congrArg Prod.snd h2
        · exact Or.inl h2
      · right
        have hkey : key + (j + 1) = key + 1 + j := by omega
        have hget : (r :: rest).getD (j + 1) (0 : Nat) = rest.getD j 0 := rfl
        refine ⟨j + 1, by simpa using Nat.succ_lt_succ hj, ?_, ?_, ?_, ?_, ?_, ?_⟩
        · rw [hkey]
          exact h2
        · rw [hkey]
          exact h3
        · rw [hget]
          exact h4
        · rw [hkey]
          exact h5
        · rw [hkey]
          exact h6
        · rw [hget]
          exact h7

theorem land_two_pow_ne_zero_iff (cur id : Nat) :
    (Nat.land cur (Nat.shiftLeft 1 id) ≠ 0) ↔ cur.testBit id = true := by
  have hpow : Nat.shiftLeft 1 id = 2 ^ id := by
    rw [show Nat.shiftLeft 1 id = 1 <<< id from rfl, Nat.shiftLeft_eq, one_mul]
  rw [hpow]
  constructor
  · intro h
    by_contra hbit
    apply h
    have hb : cur.testBit id = false := by
      cases hq : cur.testBit id
      · rfl
      · exact absurd hq hbit
    apply Nat.eq_of_testBit_eq
    intro i
    rw [show Nat.land cur (2 ^ id) = cur &&& 2 ^ id from rfl]
    rw [Nat.testBit_and, Nat.zero_testBit]
    by_cases hi : i = id
    · rw [hi, hb, Bool.false_and]
    · rw [Nat.testBit_two_pow_of_ne (fun hc => hi hc.symm), Bool.and_false]
  · intro h hz
    have h9 : (Nat.land cur (2 ^ id)).testBit id = true := by
      rw [show Nat.land cur (2 ^ id) = cur &&& 2 ^ id from rfl]
      rw [Nat.testBit_and, h, Nat.testBit_two_pow_self]
      rfl
    rw [hz, Nat.zero_testBit] at h9
    exact Bool.noConfusion h9

/-- The bit-collection loop of `compute_result` is the image of the
duplicate-free list of set-bit positions below the neighbor count. -/
theorem bitsLoop_spec (id2p : List PeerId) (cur : Nat) :
    ∀ (l : List Nat) (id : Nat),
      ∃ js : List Nat, js.Nodup ∧
        bitsLoop id2p l id cur = js.map (fun j => id2p.getD (l.getD j 0) 0) ∧
        (∀ j, j ∈ js ↔ (j < l.length ∧ cur.testBit (id + j) = true)) := by
  intro l
  induction l with
  | nil =>
    intro id
    refine ⟨[], List.nodup_nil, rfl, ?_⟩
    intro j
    simp
  | cons y rest ihl =>
    intro id
    obtain ⟨js', hnd', heq', hmem'⟩ := ihl (id + 1)
    have hcond := land_two_pow_ne_zero_iff cur id
    have hmap : (js'.map Nat.succ).map
        (fun j => id2p.getD ((y :: rest).getD j 0) 0) =
        js'.map (fun j => id2p.getD (rest.getD j 0) 0) := by
      rw [List.map_map]
      exact List.map_congr_left (fun a _ => rfl)
    have hndm : (js'.map Nat.succ).Nodup := hnd'.map Nat.succ_injective
    by_cases hbit : cur.testBit id = true
    · refine ⟨0 :: js'.map Nat.succ, ?_, ?_, ?_⟩
      · rw [List.nodup_cons]
        refine ⟨?_, hndm⟩
        intro hc
        obtain ⟨a, _, hae⟩ := List.mem_map.mp hc
        exact Nat.succ_ne_zero a hae
      · rw [bitsLoop, if_pos (hcond.mpr hbit), heq', List.map_cons, hmap]
        rfl
      · intro j
        rw [List.mem_cons]
        constructor
        · rintro (h0 | hm)
          · subst h0
            refine ⟨by simp, ?_⟩
            rw [Nat.add_zero]
            exact hbit
          · obtain ⟨a, ha, hae⟩ := List.mem_map.mp hm
            have h9 := (hmem' a).mp ha
            subst hae
            refine ⟨by simpa using Nat.succ_lt_succ h9.1, ?_⟩
            have h10 := h9.2
            rw [show id + Nat.succ a = id + 1 + a from by omega]
            exact h10
        · rintro ⟨hjl, hjb⟩
          cases j with
          | zero => exact Or.inl rfl
          | succ j' =>
            right
            refine List.mem_map.mpr ⟨j', (hmem' j').mpr ⟨by simpa using hjl, ?_⟩, rfl⟩
            rw [show id + 1 + j' = id + (j' + 1) from by omega]
            exact hjb
    · refine ⟨js'.map Nat.succ, hndm, ?_, ?_⟩
      · rw [bitsLoop, if_neg (fun hc => hbit (hcond.mp hc)), heq']
        exact hmap.symm
      · intro j
        constructor
        · intro hm
          obtain ⟨a, ha, hae⟩ := List.mem_map.mp hm
          have h9 := (hmem' a).mp ha
          subst hae
          refine ⟨by simpa using Nat.succ_lt_succ h9.1, ?_⟩
          have h10 := h9.2
          rw [show id + Nat.succ a = id + 1 + a from by omega]
          exact h10
        · rintro ⟨hjl, hjb⟩
          cases j with
          | zero =>
            exfalso
            rw [Nat.add_zero] at hjb
            exact hbit hjb
          | succ j' =>
            refine List.mem_map.mpr ⟨j', (hmem' j').mpr ⟨by simpa using hjl, ?_⟩, rfl⟩
            rw [show id + 1 + j' = id + (j' + 1) from by omega]
            exact hjb

/-- At loop exit (empty queue) every node reachable from the source is
discovered, every discovered distance is the exact shortest-walk length, and
every discovered non-source node's routes bitset is its first-hop set. -/
theorem bfs_final (adj : List (List Nat)) (n s : Nat)
    (dist : List Int) (routes : List Nat) (d2 : Nat)
    (hInv : BfsInv adj n s [] [] dist routes d2) :
    (∀ k x, swalkB adj k s x = true → dist.getD x (-1) ≠ -1) ∧
    (∀ x, dist.getD x (-1) ≠ -1 → ∃ e : Nat, e ≤ d2 ∧
      dist.getD x (-1) = (e : Int) ∧ distIs adj s x e) ∧
    (∀ x, dist.getD x (-1) ≠ -1 → x ≠ s →
      ∀ i, (routes.getD x 0).testBit i = true ↔ FirstHopS adj s x i) := by
  have hdisc : ∀ k x, swalkB adj k s x = true → dist.getD x (-1) ≠ -1 := by
    intro k
    induction k with
    | zero =>
      intro x hw
      have hsx := (swalkB_zero_iff adj s x).mp hw
      rw [← hsx]
      have h9 := hInv.src_dist
      omega
    | succ k ihk =>
      intro x hw
      obtain ⟨y, hwy, hxy⟩ := swalkB_snoc_inv adj k s x hw
      have hdy := ihk y hwy
      exact hInv.processed_closed y hdy (List.not_mem_nil y) (List.not_mem_nil y)
        x hxy
  have hvals : ∀ x, dist.getD x (-1) ≠ -1 → ∃ e : Nat, e ≤ d2 ∧
      dist.getD x (-1) = (e : Int) ∧ distIs adj s x e := by
    intro x hx
    rcases hInv.vals x with h | ⟨e, h1, h2, _, h4⟩
    · exact absurd h hx
    · by_cases he : e ≤ d2
      · exact ⟨e, he, h1, h4⟩
      · exfalso
        have he2 : e = d2 + 1 := by omega
        have h9 : dist.getD x (-1) = (d2 : Int) + 1 := by omega
        exact List.not_mem_nil x (hInv.disc_in_q2 x h9)
  refine ⟨hdisc, hvals, ?_⟩
  intro x hx hxs i
  obtain ⟨e, he, h1, _⟩ := hvals x hx
  exact hInv.routes_final x e h1 he hxs i

theorem adjOK_of_graphInv (g : Graph) (hG : GraphInv g) :
    AdjOK g.adjacency g.id2p.length :=
  ⟨hG.adj_lt, hG.adj_symm, hG.adj_nodup, hG.adj_irrefl⟩

/-- Peer-level walks through `contains_edge` coincide with slot-level walks
between used slots. -/
theorem walk_transfer (g : Graph) (hG : GraphInv g) :
    ∀ (k : Nat) (x y : Nat), x < g.id2p.length → g.used.getD x false = true →
      y < g.id2p.length → g.used.getD y false = true →
      walkB g k (g.id2p.getD x 0) (g.id2p.getD y 0) = swalkB g.adjacency k x y := by
  intro k
  induction k with
  | zero =>
    intro x y hx hux hy huy
    rw [walkB, swalkB]
    refine decide_eq_decide.mpr ⟨fun hpq => ?_, fun hxy => by rw [hxy]⟩
    have h1 := hG.used_p2id x hx hux
    have h2 := hG.used_p2id y hy huy
    rw [hpq] at h1
    exact Option.some.inj (h1.symm.trans h2)
  | succ k ihk =>
    intro x y hx hux hy huy
    rw [walkB, swalkB]
    rw [Bool.eq_iff_iff, List.any_eq_true, List.any_eq_true]
    constructor
    · rintro ⟨r, hr, hrw⟩
      rw [Bool.and_eq_true] at hrw
      obtain ⟨hce, hwk⟩ := hrw
      unfold Graph.contains_edge at hce
      have h1 := hG.used_p2id x hx hux
      rw [h1] at hce
      cases hlr : lookupA g.p2id r with
      | none =>
        rw [hlr] at hce
        exact absurd hce (by exact Bool.noConfusion)
      | some w =>
        rw [hlr] at hce
        have hw := contains_mem.mp hce
        obtain ⟨hwlt, hwused, hwid⟩ := hG.p2id_sound r w hlr
        refine ⟨w, hw, ?_⟩
        rw [← ihk w y hwlt hwused hy huy, hwid]
        exact hwk
    · rintro ⟨w, hw, hwk⟩
      have hwlt := hG.adj_lt x w hw
      have hwused := hG.adj_used x w hw
      refine ⟨g.id2p.getD w 0, mem_getD g.id2p w 0 hwlt, ?_⟩
      rw [Bool.and_eq_true]
      constructor
      · unfold Graph.contains_edge
        rw [hG.used_p2id x hx hux, hG.used_p2id w hwlt hwused]
        exact contains_mem.mpr hw
      · rw [ihk w y hwlt hwused hy huy]
        exact hwk

/-- Peer-level exact shortest distances coincide with slot-level ones. -/
theorem pdist_transfer (g : Graph) (hG : GraphInv g) (x y : Nat)
    (hx : x < g.id2p.length) (hux : g.used.getD x false = true)
    (hy : y < g.id2p.length) (huy : g.used.getD y false = true) (e : Nat) :
    pdistIs g (g.id2p.getD x 0) (g.id2p.getD y 0) e ↔ distIs g.adjacency x y e := by
  unfold pdistIs distIs
  rw [walk_transfer g hG e x y hx hux hy huy]
  constructor
  · rintro ⟨h1, h2⟩
    refine ⟨h1, fun j hj => ?_⟩
    rw [← walk_transfer g hG j x y hx hux hy huy]
    exact h2 j hj
  · rintro ⟨h1, h2⟩
    refine ⟨h1, fun j hj => ?_⟩
    rw [walk_transfer g hG j x y hx hux hy huy]
    exact h2 j hj

theorem contains_edge_src (g : Graph) (hG : GraphInv g) (w : Nat)
    (hw : w ∈ g.adjacency.getD g.source_id []) :
    g.contains_edge g.source (g.id2p.getD w 0) = true := by
  have hwlt := hG.adj_lt g.source_id w hw
  have hwused := hG.adj_used g.source_id w hw
  unfold Graph.contains_edge
  rw [hG.src_p2id, hG.used_p2id w hwlt hwused]
  refine contains_mem.mpr ?_
  have h9 : g.adjacency.getD 0 [] = g.adjacency.getD g.source_id [] := by
    rw [hG.src_id]
  rw [h9]
  exact hw

/-- C5.  (Corrected: the claim as stated is refuted by the
`take(MAX_NUM_PEERS)` truncation, see the counterexample; it holds whenever
the source has at most `MAX_NUM_PEERS` neighbors.)  Under `GraphInv`, if the
source's adjacency list has length at most 128 then every pair `(v, Nv)` in
the output of `calculate_distance` satisfies: `v` is not the source peer;
`v` is reachable from the source in the undirected peer graph; every
`q ∈ Nv` is a direct neighbor of the source lying on a shortest path from
the source to `v` (`q` at exact distance `e` from `v` with the source at
exact distance `e + 1`); and `Nv` is the duplicate-free image of exactly the
set-bit positions of `v`'s routes bitset, i.e. of the source-neighbor
indices lying on a shortest path — so `|Nv|` is the popcount of the routes
bitset.  Peers unreachable from the source never appear in the output. -/
theorem C5_bfs_first_hops (g : Graph) (hG : GraphInv g)
    (hdeg : (g.adjacency.getD g.source_id []).length ≤ MAX_NUM_PEERS) :
    (∀ p ns, (p, ns) ∈ g.calculate_distance →
      p ≠ g.source ∧
      (∃ k, walkB g k g.source p = true) ∧
      (∀ q ∈ ns, g.contains_edge g.source q = true ∧
        ∃ e, pdistIs g g.source p (e + 1) ∧ pdistIs g q p e) ∧
      (∃ js : List Nat, js.Nodup ∧
        ns = js.map
          (fun j => g.id2p.getD ((g.adjacency.getD g.source_id []).getD j 0) 0) ∧
        ∀ j, j ∈ js ↔ (j < (g.adjacency.getD g.source_id []).length ∧
          ∃ e, pdistIs g g.source p (e + 1) ∧
            pdistIs g (g.id2p.getD ((g.adjacency.getD g.source_id []).getD j 0) 0)
              p e))) ∧
    (∀ p, (∀ k, walkB g k g.source p = false) →
      ∀ ns, (p, ns) ∉ g.calculate_distance) := by
  have hA := adjOK_of_graphInv g hG
  have hs : g.source_id < g.id2p.length := by
    rw [hG.src_id]
    exact hG.src_lt
  have hsused : g.used.getD g.source_id false = true := by
    rw [hG.src_id]
    exact hG.src_used
  have hsrcpeer : g.id2p.getD g.source_id 0 = g.source := by
    rw [hG.src_id]
    exact hG.src_peer
  obtain ⟨dist1, routes1, hinit, hInv1, hmeas⟩ :=
    bfs_init g.adjacency g.id2p.length g.source_id hA hs
  obtain ⟨dist2, routes2, d2, hrun, hInv2⟩ :=
    bfsLoop_run g.adjacency g.id2p.length g.source_id hA (2 * g.id2p.length + 1)
      (g.adjacency.getD g.source_id []) [] dist1 routes1 1 hInv1 (by
        have h9 : ((g.adjacency.getD g.source_id []) ++ ([] : List Nat)).length =
            (g.adjacency.getD g.source_id []).length := by
          rw [List.append_nil]
        omega)
  rw [List.append_nil] at hrun
  obtain ⟨hreach_disc, hdist_vals, hroutes_fin⟩ :=
    bfs_final g.adjacency g.id2p.length g.source_id dist2 routes2 d2 hInv2
  have heval : g.calculate_distance = g.compute_result routes2 dist2 := by
    rw [Graph.calculate_distance]
    simp only [List.take_of_length_le hdeg, hinit, hrun]
  have hcomp : g.compute_result routes2 dist2 =
      resultLoop g (g.adjacency.getD g.source_id []) dist2 routes2 0 [] := by
    rw [Graph.compute_result]
    simp only [List.take_of_length_le hdeg]
  have hmain : ∀ p ns, (p, ns) ∈ g.calculate_distance →
      p ≠ g.source ∧
      (∃ k, walkB g k g.source p = true) ∧
      (∀ q ∈ ns, g.contains_edge g.source q = true ∧
        ∃ e, pdistIs g g.source p (e + 1) ∧ pdistIs g q p e) ∧
      (∃ js : List Nat, js.Nodup ∧
        ns = js.map
          (fun j => g.id2p.getD ((g.adjacency.getD g.source_id []).getD j 0) 0) ∧
        ∀ j, j ∈ js ↔ (j < (g.adjacency.getD g.source_id []).length ∧
          ∃ e, pdistIs g g.source p (e + 1) ∧
            pdistIs g (g.id2p.getD ((g.adjacency.getD g.source_id []).getD j 0) 0)
              p e)) := by
    intro p ns hmem
    rw [heval, hcomp] at hmem
    rcases resultLoop_mem g (g.adjacency.getD g.source_id []) dist2 routes2 0 []
        p ns hmem with h0 | ⟨j, hjlen, hnsrc, hndist, _, hnused, hp, hns⟩
    · exact absurd h0 (List.not_mem_nil _)
    · rw [Nat.zero_add] at hnsrc hndist hnused hp
      have hjn : j < g.id2p.length := by
        have h9 := hInv2.len_routes
        omega
      have hused_k : g.used.getD j false = true := by
        cases hq : g.used.getD j false
        · exact absurd hq hnused
        · rfl
      obtain ⟨e, hed2, hDk, hdistk⟩ := hdist_vals j hndist
      have hFH_iff : ∀ jj, FirstHopS g.adjacency g.source_id j jj ↔
          (jj < (g.adjacency.getD g.source_id []).length ∧
           ∃ e', pdistIs g g.source p (e' + 1) ∧
             pdistIs g (g.id2p.getD ((g.adjacency.getD g.source_id []).getD jj 0) 0)
               p e') := by
        intro jj
        constructor
        · rintro ⟨hjj, e', h1, h2⟩
          have hwmem := mem_getD (g.adjacency.getD g.source_id []) jj 0 hjj
          have hwlt := hG.adj_lt g.source_id _ hwmem
          have hwused := hG.adj_used g.source_id _ hwmem
          refine ⟨hjj, e', ?_, ?_⟩
          · rw [hp, ← hsrcpeer]
            exact (pdist_transfer g hG g.source_id j hs hsused hjn hused_k
              (e' + 1)).mpr h1
          · rw [hp]
            exact (pdist_transfer g hG _ j hwlt hwused hjn hused_k e').mpr h2
        · rintro ⟨hjj, e', h1, h2⟩
          have hwmem := mem_getD (g.adjacency.getD g.source_id []) jj 0 hjj
          have hwlt := hG.adj_lt g.source_id _ hwmem
          have hwused := hG.adj_used g.source_id _ hwmem
          refine ⟨hjj, e', ?_, ?_⟩
          · rw [hp, ← hsrcpeer] at h1
            exact (pdist_transfer g hG g.source_id j hs hsused hjn hused_k
              (e' + 1)).mp h1
          · rw [hp] at h2
            exact (pdist_transfer g hG _ j hwlt hwused hjn hused_k e').mp h2
      have hjne : j ≠ g.source_id := fun hc => hnsrc hc
      refine ⟨?_, ?_, ?_, ?_⟩
      · intro hps
        have h1 := hG.used_p2id j hjn hused_k
        rw [← hp, hps] at h1
        have h2 := Option.some.inj (h1.symm.trans hG.src_p2id)
        apply hnsrc
        rw [hG.src_id]
        exact h2
      · refine ⟨e, ?_⟩
        rw [hp, ← hsrcpeer,
          walk_transfer g hG e g.source_id j hs hsused hjn hused_k]
        exact hdistk.1
      · intro q hq
        rw [hns] at hq
        obtain ⟨js, hjsnd, hbleq, hjsmem⟩ :=
          bitsLoop_spec g.id2p (routes2.getD j 0) (g.adjacency.getD g.source_id []) 0
        rw [hbleq] at hq
        obtain ⟨jj, hjjmem, hjjq⟩ := List.mem_map.mp hq
        obtain ⟨hjjlen, hjjbit⟩ := (hjsmem jj).mp hjjmem
        rw [Nat.zero_add] at hjjbit
        have hFH := (hroutes_fin j hndist hjne jj).mp hjjbit
        have hwmem := mem_getD (g.adjacency.getD g.source_id []) jj 0 hjjlen
        constructor
        · rw [← hjjq]
          exact contains_edge_src g hG _ hwmem
        · obtain ⟨hjj2, e', h1, h2⟩ := (hFH_iff jj).mp hFH
          exact ⟨e', h1, by rw [← hjjq]; exact h2⟩
      · obtain ⟨js, hjsnd, hbleq, hjsmem⟩ :=
          bitsLoop_spec g.id2p (routes2.getD j 0) (g.adjacency.getD g.source_id []) 0
        refine ⟨js, hjsnd, by rw [hns, hbleq], ?_⟩
        intro jj
        rw [hjsmem jj]
        constructor
        · rintro ⟨hjjlen, hjjbit⟩
          rw [Nat.zero_add] at hjjbit
          exact (hFH_iff jj).mp ((hroutes_fin j hndist hjne jj).mp hjjbit)
        · intro h9
          have hFH := (hFH_iff jj).mpr h9
          refine ⟨h9.1, ?_⟩
          rw [Nat.zero_add]
          exact (hroutes_fin j hndist hjne jj).mpr hFH
  refine ⟨hmain, ?_⟩
  intro p hunreach ns hmem
  obtain ⟨k, hk⟩ := (hmain p ns hmem).2.1
  rw [hunreach k] at hk
  exact Bool.noConfusion hk

/-- Small path graph 0 – 1 – 2 for the C5 witness. -/
def C5wg : Graph :=
  (runGraphOps (Graph.new 0) [GraphOp.add 0 1, GraphOp.add 1 2]).getD (Graph.new 0)

theorem C5_witness :
    (GraphInv C5wg ∧
      (C5wg.adjacency.getD C5wg.source_id []).length ≤ MAX_NUM_PEERS) ∧
    ((∀ p ns, (p, ns) ∈ C5wg.calculate_distance →
      p ≠ C5wg.source ∧
      (∃ k, walkB C5wg k C5wg.source p = true) ∧
      (∀ q ∈ ns, C5wg.contains_edge C5wg.source q = true ∧
        ∃ e, pdistIs C5wg C5wg.source p (e + 1) ∧ pdistIs C5wg q p e) ∧
      (∃ js : List Nat, js.Nodup ∧
        ns = js.map
          (fun j =>
            C5wg.id2p.getD ((C5wg.adjacency.getD C5wg.source_id []).getD j 0) 0) ∧
        ∀ j, j ∈ js ↔ (j < (C5wg.adjacency.getD C5wg.source_id []).length ∧
          ∃ e, pdistIs C5wg C5wg.source p (e + 1) ∧
            pdistIs C5wg
              (C5wg.id2p.getD ((C5wg.adjacency.getD C5wg.source_id []).getD j 0) 0)
              p e))) ∧
    (∀ p, (∀ k, walkB C5wg k C5wg.source p = false) →
      ∀ ns, (p, ns) ∉ C5wg.calculate_distance)) :=
  ⟨⟨runGraphOps_inv [GraphOp.add 0 1, GraphOp.add 1 2] (Graph.new 0)
      (graphInv_new 0) C5wg (by decide), by decide⟩,
    C5_bfs_first_hops C5wg
      (runGraphOps_inv [GraphOp.add 0 1, GraphOp.add 1 2] (Graph.new 0)
        (graphInv_new 0) C5wg (by decide))
      (by decide)⟩

/-- 131-peer star with 129 source neighbors plus the chord {1, 129}. -/
def C5ops : List GraphOp :=
  (List.range 129).map (fun i => GraphOp.add 0 (i + 1)) ++ [GraphOp.add 1 129]

def C5g : Graph := (runGraphOps (Graph.new 0) C5ops).getD (Graph.new 0)

set_option maxRecDepth 100000 in
/-- The `take(MAX_NUM_PEERS)` truncation refutes the claim: with 129 source
neighbors the 129th is never seeded, is rediscovered through peer 1 at
distance 2, and is reported with first-hop set `[1]` although the direct
edge {source, 129} exists, so peer 1 lies on no shortest path to 129. -/
theorem C5_counterexample :
    runGraphOps (Graph.new 0) C5ops = some C5g ∧
    MAX_NUM_PEERS < (C5g.adjacency.getD C5g.source_id []).length ∧
    C5g.contains_edge C5g.source 129 = true ∧
    lookupA C5g.calculate_distance 129 = some [1] ∧
    ¬ ∃ e, pdistIs C5g C5g.source 129 (e + 1) ∧ pdistIs C5g 1 129 e := by
  refine ⟨by decide, by decide, by decide, by decide, ?_⟩
  rintro ⟨e, ⟨hw1, hmin⟩, hw0, _⟩
  cases e with
  | zero =>
    have h9 : walkB C5g 0 1 129 = false := by decide
    rw [h9] at hw0
    exact Bool.noConfusion hw0
  | succ e' =>
    have h9 : walkB C5g 1 C5g.source 129 = true := by decide
    have h10 := hmin 1 (by omega)
    rw [h10] at h9
    exact Bool.noConfusion h9

end Routing
